import Mathlib

/-!
# MAX7219 LED-matrix chain: image model, text rendering and frame encoding

A shallow embedding of the graphics and encoding pipeline of the MAX7219 scroller
(`MatrixImage`, `Glyph`, `Font`, `MatrixChainImage`, `MAX7219Chain`) together with
theorems about it.

Modelling conventions.
* `std::uint_fast8_t` (`unsigned char` on the Linux targets of the project), `uint8_t`
  and `char` values are bytes: `Byte = Fin 256`; every store into such a variable goes
  through `toByte`, which reduces modulo `2^8`.
* `std::size_t` values are natural numbers. Sums and products of indices into an
  allocated object (the matrices of a canvas, the command strings made from a canvas)
  are bounded by the size of that object and are computed on the natural numbers.
  Arithmetic on a value that no allocation bounds (the `spacing` of a glyph, the `length`
  of a `MAX7219Chain`) wraps around (`size_t_add`, `size_t_mul`), and so do the `size_t`
  subtractions whose operands are not ordered by a preceding check or loop bound
  (`size_t_sub`). Running out of memory is not modelled.
* Code that can throw `std::out_of_range` (`.at(...)`, the explicit column checks) or that
  would run into undefined behaviour returns `Except Error _`.
* A counting loop `for (i = 0; i < n; i++)` is `forUpTo n body`; a loop over a vector
  with reverse iterators is `forDownFrom size body`, the index running from `size - 1`
  down to `0`.
* A `std::string` is the list of its bytes, and so is the content of a font file.
* The SPI bus is the list of the byte sequences handed to the bcm2835 library so far.
-/

namespace MAX7219

/-- An 8-bit machine value (`std::uint_fast8_t`, `uint8_t`, `char`). -/
abbrev Byte := Fin 256

/-- Store a value into an 8-bit variable: reduction modulo `2^8`. -/
def toByte (n : Nat) : Byte := ⟨n % 256, Nat.mod_lt n (by decide)⟩

/-- Ways in which an operation can fail. -/
inductive Error where
  /-- A `std::out_of_range` exception (a bounds-checked access failed). -/
  | out_of_range
  /-- Undefined behaviour in the source (a shift by an out-of-range amount). -/
  | undefined_behaviour
  deriving DecidableEq, Repr

/-- Largest value of `std::size_t` (64-bit target). -/
def SIZE_MAX : Nat := 2 ^ 64 - 1

/-- Subtraction of two `std::size_t` values: wraps around when `b > a`. -/
def size_t_sub (a b : Nat) : Nat :=
  if b ≤ a then a - b else a + (SIZE_MAX + 1) - b

/-- Addition of two `std::size_t` values: wraps around at `SIZE_MAX + 1`. -/
def size_t_add (a b : Nat) : Nat := (a + b) % (SIZE_MAX + 1)

/-- Multiplication of two `std::size_t` values: wraps around at `SIZE_MAX + 1`. -/
def size_t_mul (a b : Nat) : Nat := (a * b) % (SIZE_MAX + 1)

/-- The loop `for (i = 0; i < n; i++) body(i)`, threading the state through the
iterations `0, 1, ..., n - 1` in this order; the first failure aborts the loop. -/
def forUpTo {σ : Type} (n : Nat) (body : Nat → σ → Except Error σ) (s : σ) :
    Except Error σ :=
  match n with
  | 0 => pure s
  | k + 1 => forUpTo k body s >>= body k

/-- The loop that visits the indices `n - 1, n - 2, ..., 0` in this order (a traversal
with reverse iterators); the first failure aborts the loop. -/
def forDownFrom {σ : Type} (n : Nat) (body : Nat → σ → Except Error σ) (s : σ) :
    Except Error σ :=
  match n with
  | 0 => pure s
  | k + 1 => body k s >>= forDownFrom k body

/-- The bounds-checked write `v.at(i) = x` on a `std::vector`. -/
def vector_store {α : Type} (v : List α) (i : Nat) (x : α) : Except Error (List α) :=
  if i < v.length then pure (v.set i x) else throw Error.out_of_range

/-! ## MatrixImage -/

/-- An 8x8 monochrome image: `image_data i` is row `i`, the most significant bit of a row
is column `0` (`std::array<std::uint_fast8_t, HEIGHT>`). -/
structure MatrixImage where
  image_data : Fin 8 → Byte

namespace MatrixImage

/-- Height of a LED matrix in pixels. -/
def HEIGHT : Nat := 8

/-- Width of a LED matrix in pixels. -/
def WIDTH : Nat := 8

/-- The 256-entry table `MatrixImage::reverse_bits_lookup_table`. -/
def reverse_bits_lookup_table : List Byte := [
    0b00000000, 0b10000000, 0b01000000, 0b11000000,
    0b00100000, 0b10100000, 0b01100000, 0b11100000,
    0b00010000, 0b10010000, 0b01010000, 0b11010000,
    0b00110000, 0b10110000, 0b01110000, 0b11110000,
    0b00001000, 0b10001000, 0b01001000, 0b11001000,
    0b00101000, 0b10101000, 0b01101000, 0b11101000,
    0b00011000, 0b10011000, 0b01011000, 0b11011000,
    0b00111000, 0b10111000, 0b01111000, 0b11111000,
    0b00000100, 0b10000100, 0b01000100, 0b11000100,
    0b00100100, 0b10100100, 0b01100100, 0b11100100,
    0b00010100, 0b10010100, 0b01010100, 0b11010100,
    0b00110100, 0b10110100, 0b01110100, 0b11110100,
    0b00001100, 0b10001100, 0b01001100, 0b11001100,
    0b00101100, 0b10101100, 0b01101100, 0b11101100,
    0b00011100, 0b10011100, 0b01011100, 0b11011100,
    0b00111100, 0b10111100, 0b01111100, 0b11111100,
    0b00000010, 0b10000010, 0b01000010, 0b11000010,
    0b00100010, 0b10100010, 0b01100010, 0b11100010,
    0b00010010, 0b10010010, 0b01010010, 0b11010010,
    0b00110010, 0b10110010, 0b01110010, 0b11110010,
    0b00001010, 0b10001010, 0b01001010, 0b11001010,
    0b00101010, 0b10101010, 0b01101010, 0b11101010,
    0b00011010, 0b10011010, 0b01011010, 0b11011010,
    0b00111010, 0b10111010, 0b01111010, 0b11111010,
    0b00000110, 0b10000110, 0b01000110, 0b11000110,
    0b00100110, 0b10100110, 0b01100110, 0b11100110,
    0b00010110, 0b10010110, 0b01010110, 0b11010110,
    0b00110110, 0b10110110, 0b01110110, 0b11110110,
    0b00001110, 0b10001110, 0b01001110, 0b11001110,
    0b00101110, 0b10101110, 0b01101110, 0b11101110,
    0b00011110, 0b10011110, 0b01011110, 0b11011110,
    0b00111110, 0b10111110, 0b01111110, 0b11111110,
    0b00000001, 0b10000001, 0b01000001, 0b11000001,
    0b00100001, 0b10100001, 0b01100001, 0b11100001,
    0b00010001, 0b10010001, 0b01010001, 0b11010001,
    0b00110001, 0b10110001, 0b01110001, 0b11110001,
    0b00001001, 0b10001001, 0b01001001, 0b11001001,
    0b00101001, 0b10101001, 0b01101001, 0b11101001,
    0b00011001, 0b10011001, 0b01011001, 0b11011001,
    0b00111001, 0b10111001, 0b01111001, 0b11111001,
    0b00000101, 0b10000101, 0b01000101, 0b11000101,
    0b00100101, 0b10100101, 0b01100101, 0b11100101,
    0b00010101, 0b10010101, 0b01010101, 0b11010101,
    0b00110101, 0b10110101, 0b01110101, 0b11110101,
    0b00001101, 0b10001101, 0b01001101, 0b11001101,
    0b00101101, 0b10101101, 0b01101101, 0b11101101,
    0b00011101, 0b10011101, 0b01011101, 0b11011101,
    0b00111101, 0b10111101, 0b01111101, 0b11111101,
    0b00000011, 0b10000011, 0b01000011, 0b11000011,
    0b00100011, 0b10100011, 0b01100011, 0b11100011,
    0b00010011, 0b10010011, 0b01010011, 0b11010011,
    0b00110011, 0b10110011, 0b01110011, 0b11110011,
    0b00001011, 0b10001011, 0b01001011, 0b11001011,
    0b00101011, 0b10101011, 0b01101011, 0b11101011,
    0b00011011, 0b10011011, 0b01011011, 0b11011011,
    0b00111011, 0b10111011, 0b01111011, 0b11111011,
    0b00000111, 0b10000111, 0b01000111, 0b11000111,
    0b00100111, 0b10100111, 0b01100111, 0b11100111,
    0b00010111, 0b10010111, 0b01010111, 0b11010111,
    0b00110111, 0b10110111, 0b01110111, 0b11110111,
    0b00001111, 0b10001111, 0b01001111, 0b11001111,
    0b00101111, 0b10101111, 0b01101111, 0b11101111,
    0b00011111, 0b10011111, 0b01011111, 0b11011111,
    0b00111111, 0b10111111, 0b01111111, 0b11111111
  ]

/-- The expression `reverse_bits_lookup_table[b]` for an 8-bit index `b` (the table has
256 entries, so the index is always in range and the default is never used). -/
def reverse_bits_lookup (b : Byte) : Byte :=
  reverse_bits_lookup_table.getD b.val 0

/-- The default constructor: a blank image. -/
def blank : MatrixImage := ⟨fun _ => 0⟩

/-- The access `image_data.at(row)`. -/
def at_row (self : MatrixImage) (row : Nat) : Except Error Byte :=
  if h : row < HEIGHT then pure (self.image_data ⟨row, h⟩) else throw Error.out_of_range

/-- The assignment `image_data.at(row) = value`. -/
def store_row (self : MatrixImage) (row : Nat) (value : Byte) : Except Error MatrixImage :=
  if h : row < HEIGHT then
    pure ⟨fun i => if i = ⟨row, h⟩ then value else self.image_data i⟩
  else throw Error.out_of_range

/-- The method `MatrixImage::left_shift_row`: returns the evicted most significant bit and
the updated image. -/
def left_shift_row (self : MatrixImage) (row : Nat) (fill_bit : Byte) :
    Except Error (Byte × MatrixImage) := do
  let v ← self.at_row row
  let msb := toByte (v.val >>> (WIDTH - 1))
  let v1 := toByte (v.val <<< 1)
  let v2 := toByte (v1.val ||| fill_bit.val)
  let v3 := toByte (v2.val &&& 0xFF)
  let img ← self.store_row row v3
  pure (msb, img)

/-- The method `MatrixImage::set_pixel`. The complement `~(1 << k)` is taken on a 32-bit
`int`; the result is stored back into the 8-bit row. -/
def set_pixel (self : MatrixImage) (row col : Nat) (value : Byte) :
    Except Error MatrixImage :=
  if col ≥ WIDTH then throw Error.out_of_range
  else do
    let v ← self.at_row row
    if value ≠ 0 then
      self.store_row row (toByte (v.val ||| (1 <<< (WIDTH - 1 - col))))
    else
      self.store_row row (toByte (v.val &&& (0xFFFFFFFF ^^^ (1 <<< (WIDTH - 1 - col)))))

/-- The method `MatrixImage::get_pixel`. -/
def get_pixel (self : MatrixImage) (row col : Nat) : Except Error Byte :=
  if col ≥ WIDTH then throw Error.out_of_range
  else do
    let v ← self.at_row row
    pure (if v.val &&& (1 <<< (WIDTH - 1 - col)) ≠ 0 then 1 else 0)

/-- The method `MatrixImage::get_row`. -/
def get_row (self : MatrixImage) (row : Nat) : Except Error Byte :=
  self.at_row row

/-- The method `MatrixImage::set_row`. -/
def set_row (self : MatrixImage) (row : Nat) (value : Byte) : Except Error MatrixImage :=
  self.store_row row value

/-- The method `MatrixImage::rotate_image`: `old_image` is the copy taken before the
loops, the loops write into the image itself. -/
def rotate_image (self : MatrixImage) (rotation : Nat) : Except Error MatrixImage :=
  if rotation % 4 = 0 then pure self
  else
    let old_image := self
    match rotation % 4 with
    | 1 =>
      forUpTo HEIGHT (fun row s =>
        forUpTo WIDTH (fun col s => do
          let old_row := WIDTH - 1 - col
          let old_col := row
          let p ← old_image.get_pixel old_row old_col
          s.set_pixel row col p) s) self
    | 2 => do
      let s1 ← forUpTo HEIGHT (fun row s => do
          let old_row := HEIGHT - 1 - row
          let v ← old_image.get_row old_row
          s.set_row row (reverse_bits_lookup v)) self
      forUpTo 8 (fun row s =>
        forUpTo 8 (fun col s => do
          let old_row := HEIGHT - 1 - row
          let old_col := WIDTH - 1 - col
          let p ← old_image.get_pixel old_row old_col
          s.set_pixel row col p) s) s1
    | 3 =>
      -- the `int` indices `r`, `c`, `old_r`, `old_c` stay within `0..7`, so the
      -- conversions between `int` and `std::size_t` preserve their values
      forUpTo 8 (fun r s =>
        forUpTo 8 (fun c s => do
          let old_r := c
          let old_c := HEIGHT - 1 - r
          let p ← old_image.get_pixel old_r old_c
          s.set_pixel r c p) s) self
    | _ => pure self

/-- The method `MatrixImage::set_pixel` in a form that keeps the image when an exception
leaves the method: the outcome of the call and the image afterwards. The column check and
the access `image_data.at(row)` throw before the compound assignment writes. -/
def set_pixel_with_state (self : MatrixImage) (row col : Nat) (value : Byte) :
    Except Error Unit × MatrixImage :=
  if col ≥ WIDTH then (throw Error.out_of_range, self)
  else
    match self.at_row row with
    | Except.error e => (Except.error e, self)
    | Except.ok v =>
      let new_value :=
        if value ≠ 0 then toByte (v.val ||| (1 <<< (WIDTH - 1 - col)))
        else toByte (v.val &&& (0xFFFFFFFF ^^^ (1 <<< (WIDTH - 1 - col))))
      match self.store_row row new_value with
      | Except.ok s => (Except.ok (), s)
      | Except.error e => (Except.error e, self)

/-- The first loop of the 180-degree case of `rotate_image`, on its own: row `row` becomes
`reverse_bits_lookup_table[old_image->get_row(HEIGHT - 1 - row)]`. -/
def rotate_half_turn_by_table (old_image self : MatrixImage) : Except Error MatrixImage :=
  forUpTo HEIGHT (fun row s => do
    let old_row := HEIGHT - 1 - row
    let v ← old_image.get_row old_row
    s.set_row row (reverse_bits_lookup v)) self

/-- The second loop of the 180-degree case of `rotate_image`, on its own: pixel
`(row, col)` becomes the pixel `(HEIGHT - 1 - row, WIDTH - 1 - col)` of `old_image`. -/
def rotate_half_turn_by_pixels (old_image self : MatrixImage) : Except Error MatrixImage :=
  forUpTo 8 (fun row s =>
    forUpTo 8 (fun col s => do
      let old_row := HEIGHT - 1 - row
      let old_col := WIDTH - 1 - col
      let p ← old_image.get_pixel old_row old_col
      s.set_pixel row col p) s) self

end MatrixImage

/-! ## Glyph and Font -/

/-- A glyph of a font: eight rows of pixel data and the width used when drawing. -/
structure Glyph where
  glyph_data : Fin 8 → Byte
  glyph_width : Nat

namespace Glyph

/-- Height of each glyph. -/
def HEIGHT : Nat := 8

/-- Maximum width of each glyph. -/
def WIDTH_MAX : Nat := 8

/-- The method `Glyph::get_pixel`. The shift amount `WIDTH_MAX - 1 - col` is computed on
`std::size_t`; shifting the 32-bit `int` `1` by 32 or more is undefined behaviour. -/
def get_pixel (self : Glyph) (row col : Nat) : Except Error Byte :=
  let shift := size_t_sub (WIDTH_MAX - 1) col
  if shift ≥ 32 then throw Error.undefined_behaviour
  else if h : row < HEIGHT then
    pure (if (self.glyph_data ⟨row, h⟩).val &&& (1 <<< shift) ≠ 0 then 1 else 0)
  else throw Error.out_of_range

/-- The method `Glyph::get_width`. -/
def get_width (self : Glyph) : Nat := self.glyph_width

/-- The value of the flag `empty_column` after the loop over the rows of column `col` in
the constructor: `empty_column = empty_column && !get_pixel(row, col)` for the rows
`0, ..., 7`; the operator `&&` reads the pixel only while the flag is still `true`. -/
def column_is_empty (self : Glyph) (col : Nat) : Except Error Bool :=
  forUpTo HEIGHT (fun row empty_column =>
    if empty_column then do
      let p ← self.get_pixel row col
      pure (decide (p = 0))
    else pure false) true

/-- The first loop of the constructor, `for (col = 0; col < WIDTH_MAX; col++)`, which
counts the empty columns on the left and leaves at the first column that is not empty.
The first argument is the number of columns not yet visited (`WIDTH_MAX - col`); the
result is the final value of `left_spacing`. -/
def count_left_spacing (self : Glyph) : Nat → Nat → Nat → Except Error Nat
  | 0, _, left_spacing => pure left_spacing
  | k + 1, col, left_spacing => do
    let empty_column ← self.column_is_empty col
    if empty_column then count_left_spacing self k (col + 1) (left_spacing + 1)
    else pure left_spacing

/-- The second loop of the constructor: `glyph_data.at(row) <<= left_spacing` for every
row; the shifted value is truncated to the eight bits of the element. -/
def shift_rows (self : Glyph) (left_spacing : Nat) : Except Error Glyph :=
  forUpTo HEIGHT (fun row g =>
    if h : row < HEIGHT then
      pure { g with glyph_data := fun i =>
        if i = ⟨row, h⟩ then toByte ((g.glyph_data ⟨row, h⟩).val <<< left_spacing)
        else g.glyph_data i }
    else throw Error.out_of_range) self

/-- The third loop of the constructor, `for (col = WIDTH_MAX - 1; col--;)`. The first
argument is the value of `col` when the condition `col--` is evaluated: `0` ends the
loop, `c + 1` runs the body with `col = c`. The body decrements `glyph_width` for an
empty column and leaves the loop at the first column that is not empty. The result is
the final value of `glyph_width`. -/
def trim_right (self : Glyph) : Nat → Nat → Except Error Nat
  | 0, glyph_width => pure glyph_width
  | c + 1, glyph_width => do
    let empty_column ← self.column_is_empty c
    if empty_column then trim_right self c (size_t_sub glyph_width 1)
    else pure glyph_width

/-- The constructor `Glyph::Glyph(data, proportional, code_point, spacing)`. The
statement `glyph_width += spacing` is an addition of two `std::size_t` values. -/
def new (data : Fin 8 → Byte) (proportional : Bool) (code_point : Byte) (spacing : Nat) :
    Except Error Glyph :=
  let g0 : Glyph := ⟨data, WIDTH_MAX⟩
  if proportional then do
    let left_spacing ← g0.count_left_spacing WIDTH_MAX 0 0
    let g1 ← g0.shift_rows left_spacing
    let w1 ← g1.trim_right (WIDTH_MAX - 1) g1.glyph_width
    let w2 := if code_point = 0x20 then 4 else w1
    let w3 := size_t_add w2 spacing
    let w4 := if code_point = 0xFF then 1 else w3
    pure { g1 with glyph_width := min w4 WIDTH_MAX }
  else pure g0

end Glyph

/-- A font whose 256 glyph slots have all been filled (`std::array<Glyph*, 256>` after a
complete load); the index is the code point. -/
structure Font where
  font_glyphs : Byte → Glyph

namespace Font

/-- The method `Font::get_pixel`. -/
def get_pixel (self : Font) (code_point : Byte) (row col : Nat) : Except Error Byte :=
  (self.font_glyphs code_point).get_pixel row col

/-- The method `Font::get_glyph_width`. -/
def get_glyph_width (self : Font) (code_point : Byte) : Nat :=
  (self.font_glyphs code_point).get_width

/-- Number of glyphs that can be stored in a font. -/
def FONT_CHAR_COUNT : Nat := 256

/-- The call `font_file.read(new_glyph_data.data(), Glyph::HEIGHT)` on a fresh array:
the next eight bytes of the stream become the array, and the stream moves on by eight
bytes. When fewer than eight bytes are left, elements of the array stay uninitialised
and the constructor goes on to read them. -/
def read_glyph_data (stream : List Byte) : Except Error ((Fin 8 → Byte) × List Byte) :=
  if h : Glyph.HEIGHT ≤ stream.length then
    pure (fun i => stream.get ⟨i.val, Nat.lt_of_lt_of_le i.isLt h⟩, stream.drop Glyph.HEIGHT)
  else throw Error.undefined_behaviour

/-- The constructor `Font::Font(font_file_name, proportional, spacing)` for a font file
that could be opened; `file` is the content of the file. The array `font_glyphs` starts
with 256 uninitialised pointers (`none`); the loop reads one record per code point and
stores the glyph made from it. The loop fills every slot, which makes the array the
table of a `Font`. -/
def new (file : List Byte) (proportional : Bool) (spacing : Nat) : Except Error Font := do
  let st ← forUpTo FONT_CHAR_COUNT
    (fun code_point (st : List Byte × (Byte → Option Glyph)) => do
      let (new_glyph_data, rest) ← read_glyph_data st.1
      let glyph ← Glyph.new new_glyph_data proportional (toByte code_point) spacing
      if code_point < FONT_CHAR_COUNT then
        pure (rest, fun c => if c = toByte code_point then some glyph else st.2 c)
      else throw Error.out_of_range)
    (file, fun _ => none)
  if h : ∀ c, (st.2 c).isSome = true then pure ⟨fun c => (st.2 c).get (h c)⟩
  else throw Error.undefined_behaviour

end Font

/-! ## MatrixChainImage -/

/-- An image for a chain of 8x8 matrices. The member `length` is constant and the vector
`matrices` is created with `length` elements and never resized, which is recorded in
`size_eq`. -/
structure MatrixChainImage where
  length : Nat
  matrices : List MatrixImage
  cursor_position : Nat
  size_eq : matrices.length = length

namespace MatrixChainImage

/-- The constructor `MatrixChainImage(length)`: blank matrices, cursor at column 0. -/
def new (length : Nat) : MatrixChainImage :=
  ⟨length, List.replicate length MatrixImage.blank, 0, List.length_replicate _ _⟩

/-- The access `matrices.at(matrix)`. -/
def at_matrix (self : MatrixChainImage) (matrix : Nat) : Except Error MatrixImage :=
  match self.matrices[matrix]? with
  | some m => pure m
  | none => throw Error.out_of_range

/-- The effect on the chain image of changing the matrix that `matrices.at(matrix)`
(or an iterator at that index) points to. -/
def store_matrix (self : MatrixChainImage) (matrix : Nat) (m : MatrixImage) :
    Except Error MatrixChainImage :=
  if matrix < self.matrices.length then
    pure ⟨self.length, self.matrices.set matrix m, self.cursor_position,
      (List.length_set _ _ _).trans self.size_eq⟩
  else throw Error.out_of_range

/-- The private method `set_pixel(matrix, row, col, value)`. -/
def set_pixel_of_matrix (self : MatrixChainImage) (matrix row col : Nat) (value : Byte) :
    Except Error MatrixChainImage := do
  let m ← self.at_matrix matrix
  let m' ← m.set_pixel row col value
  self.store_matrix matrix m'

/-- The public method `set_pixel(row, col, value)`. -/
def set_pixel (self : MatrixChainImage) (row col : Nat) (value : Byte) :
    Except Error MatrixChainImage :=
  self.set_pixel_of_matrix (col / MatrixImage.WIDTH) row (col % MatrixImage.WIDTH) value

/-- The private method `get_pixel(matrix, row, col)`. -/
def get_pixel_of_matrix (self : MatrixChainImage) (matrix row col : Nat) :
    Except Error Byte := do
  let m ← self.at_matrix matrix
  m.get_pixel row col

/-- The public method `get_pixel(row, col)`. -/
def get_pixel (self : MatrixChainImage) (row col : Nat) : Except Error Byte :=
  self.get_pixel_of_matrix (col / MatrixImage.WIDTH) row (col % MatrixImage.WIDTH)

/-- The method `get_row_of_matrix`. -/
def get_row_of_matrix (self : MatrixChainImage) (matrix row : Nat) : Except Error Byte := do
  let m ← self.at_matrix matrix
  m.get_row row

/-- The method `get_pixel_width`. -/
def get_pixel_width (self : MatrixChainImage) : Nat :=
  self.length * MatrixImage.WIDTH

/-- The method `draw_character(code_point, position, font)`. -/
def draw_character_at (self : MatrixChainImage) (code_point : Byte) (position : Nat)
    (font : Font) : Except Error MatrixChainImage :=
  forUpTo Glyph.HEIGHT (fun i s =>
    forUpTo (font.get_glyph_width code_point) (fun j s => do
      let p ← font.get_pixel code_point i j
      s.set_pixel i (position + j) p) s) self

/-- The method `draw_character(code_point, font)`: draws at the cursor and advances it. -/
def draw_character (self : MatrixChainImage) (code_point : Byte) (font : Font) :
    Except Error MatrixChainImage := do
  let s ← self.draw_character_at code_point self.cursor_position font
  pure { s with cursor_position := s.cursor_position + font.get_glyph_width code_point }

/-- The loop of `draw_text` from index `i` on, where the argument is the suffix
`text.substr(i)`: returns the suffix at which the loop stops and the image reached. -/
def draw_text_loop (font : Font) :
    List Byte → MatrixChainImage → Except Error (List Byte × MatrixChainImage)
  | [], s => pure ([], s)
  | ch :: rest, s =>
    let codepoint : Byte := ch
    let remaining_space := size_t_sub s.get_pixel_width s.cursor_position
    if font.get_glyph_width codepoint > remaining_space then pure (ch :: rest, s)
    else do
      let s' ← s.draw_character codepoint font
      draw_text_loop font rest s'

/-- The method `draw_text`: the returned pair is the string of characters that did not
fit and the image after drawing. -/
def draw_text (self : MatrixChainImage) (text : List Byte) (font : Font) :
    Except Error (List Byte × MatrixChainImage) :=
  draw_text_loop font text self

/-- The inner loop of `left_shift_image` for one row: the matrices are visited from the
last to the first, the state carries `fill_bit` (a `uint8_t`). -/
def left_shift_row_of_chain (self : MatrixChainImage) (row : Nat) (fill_bit : Byte) :
    Except Error (Byte × MatrixChainImage) :=
  forDownFrom self.matrices.length (fun idx st => do
    let m ← st.2.at_matrix idx
    let r ← m.left_shift_row row st.1
    let s ← st.2.store_matrix idx r.2
    pure (toByte r.1.val, s)) (fill_bit, self)

/-- The method `left_shift_image`. -/
def left_shift_image (self : MatrixChainImage) : Except Error MatrixChainImage := do
  let s ← forUpTo MatrixImage.HEIGHT (fun row s => do
    let fill_bit : Byte := 0
    let r ← s.left_shift_row_of_chain row fill_bit
    pure r.2) self
  if s.cursor_position ≠ 0 then
    pure { s with cursor_position := s.cursor_position - 1 }
  else pure s

/-- The method `set_row_of_matrix`. -/
def set_row_of_matrix (self : MatrixChainImage) (matrix row : Nat) (value : Byte) :
    Except Error MatrixChainImage := do
  let m ← self.at_matrix matrix
  let m' ← m.set_row row value
  self.store_matrix matrix m'

/-- The method `rotate_matrices`: the iterator visits the matrices from the first to the
last and each one is rotated in place. -/
def rotate_matrices (self : MatrixChainImage) (rotation : Nat) :
    Except Error MatrixChainImage :=
  forUpTo self.matrices.length (fun idx s => do
    let m ← s.at_matrix idx
    let m' ← m.rotate_image rotation
    s.store_matrix idx m') self

/-- The method `get_cropped_image`. The state of the loops is the pair of this image and
the new image `cropped_image`; the result is this image after the call together with the
new image. -/
def get_cropped_image (self : MatrixChainImage) (length : Nat) :
    Except Error (MatrixChainImage × MatrixChainImage) :=
  let cropped_image := MatrixChainImage.new length
  forUpTo length (fun matrix st =>
    forUpTo MatrixImage.HEIGHT (fun row st => do
      let image_row_value ← st.1.get_row_of_matrix matrix row
      let cropped ← st.2.set_row_of_matrix matrix row image_row_value
      pure (st.1, cropped)) st) (self, cropped_image)

/-- The method `rotate_image` of the chain image (a `switch` on `rotation % 2` without a
default case). -/
def rotate_image (self : MatrixChainImage) (rotation : Nat) :
    Except Error MatrixChainImage :=
  match rotation % 2 with
  | 0 => pure self
  | 1 =>
    forUpTo self.length (fun matrix s =>
      forUpTo (MatrixImage.HEIGHT / 2) (fun row s => do
        let swap_matrix_a := matrix
        let swap_row_a := row
        let swap_matrix_b := s.length - 1 - matrix
        let swap_row_b := MatrixImage.HEIGHT - 1 - row
        let row_value_a ← s.get_row_of_matrix swap_matrix_a swap_row_a
        let row_value_b ← s.get_row_of_matrix swap_matrix_b swap_row_b
        let s1 ← s.set_row_of_matrix swap_matrix_b swap_row_b
          (MatrixImage.reverse_bits_lookup row_value_a)
        s1.set_row_of_matrix swap_matrix_a swap_row_a
          (MatrixImage.reverse_bits_lookup row_value_b)) s) self
  | _ => pure self

/-- The public method `set_pixel(row, col, value)` in a form that keeps the image when an
exception leaves the method: the outcome of the call and the image afterwards. The matrix
found by `matrices.at(matrix)` is modified in place, so whatever state its own
`set_pixel` leaves it in is the state of that element of the chain. -/
def set_pixel_with_state (self : MatrixChainImage) (row col : Nat) (value : Byte) :
    Except Error Unit × MatrixChainImage :=
  match self.at_matrix (col / MatrixImage.WIDTH) with
  | Except.error e => (Except.error e, self)
  | Except.ok m =>
    let r := m.set_pixel_with_state row (col % MatrixImage.WIDTH) value
    match self.store_matrix (col / MatrixImage.WIDTH) r.2 with
    | Except.ok s => (r.1, s)
    | Except.error e => (Except.error e, self)

end MatrixChainImage

/-! ## MAX7219Chain -/

/-- The members of the class `MAX7219Chain`: the number of matrices of the device, the
orientation of the matrices, whether the device is mounted upside down, and the current
intensity. -/
structure MAX7219Chain where
  length : Nat
  matrix_orientation : Nat
  upside_down : Bool
  intensity : Byte

/-- Modelled from the spec: the call `bcm2835_spi_transfern(buf, len)` of the external
bcm2835 library, the `send(bytes)` of the hardware link, which the spec treats as an
opaque sink. The bus is the list of the byte sequences transferred so far; the call
adds the first `len` bytes of the buffer as one sequence. -/
def bcm2835_spi_transfern (buf : List Byte) (len : Nat) (bus : List (List Byte)) :
    List (List Byte) :=
  bus ++ [buf.take len]

/-- The function `spi_send_data(buffer, buffer_length)` of `SPI.cc`; the parameter
`buffer_length` is a `std::uint32_t`. -/
def spi_send_data (buffer : List Byte) (buffer_length : Nat) (bus : List (List Byte)) :
    List (List Byte) :=
  bcm2835_spi_transfern buffer (buffer_length % 2 ^ 32) bus

/-- The enumeration `MAX7219Register` of `MAX7219.h`: the register addresses of the chip. -/
inductive MAX7219Register where
  | NO_OP
  | DECODE_MODE
  | INTENSITY
  | SCAN_LIMIT
  | SHUTDOWN
  | TEST

/-- The value of a register address, `static_cast<char>(device_register)`. -/
def MAX7219Register.value : MAX7219Register → Byte
  | MAX7219Register.NO_OP => 0x00
  | MAX7219Register.DECODE_MODE => 0x09
  | MAX7219Register.INTENSITY => 0x0A
  | MAX7219Register.SCAN_LIMIT => 0x0B
  | MAX7219Register.SHUTDOWN => 0x0C
  | MAX7219Register.TEST => 0x0F

/-- The enumeration `DecodeMode` of `MAX7219.h`. -/
inductive DecodeMode where
  | NO_DECODE
  | DECODE_ROW_1_ONLY
  | DECODE_ROW_1_2_3_4
  | DECODE_ALL

/-- The value of a decode mode, `static_cast<char>(mode)`. -/
def DecodeMode.value : DecodeMode → Byte
  | DecodeMode.NO_DECODE => 0x00
  | DecodeMode.DECODE_ROW_1_ONLY => 0x01
  | DecodeMode.DECODE_ROW_1_2_3_4 => 0x0F
  | DecodeMode.DECODE_ALL => 0xFF

/-- The enumeration `ScanLimit` of `MAX7219.h`. -/
inductive ScanLimit where
  | SHOW_DIGIT_1_ONLY
  | SHOW_DIGIT_1_2
  | SHOW_DIGIT_1_2_3
  | SHOW_DIGIT_1_2_3_4
  | SHOW_DIGIT_1_2_3_4_5
  | SHOW_DIGIT_1_2_3_4_5_6
  | SHOW_DIGIT_1_2_3_4_5_6_7
  | SHOW_ALL_DIGITS

/-- The value of a scan limit, `static_cast<char>(limit)`. -/
def ScanLimit.value : ScanLimit → Byte
  | ScanLimit.SHOW_DIGIT_1_ONLY => 0x00
  | ScanLimit.SHOW_DIGIT_1_2 => 0x01
  | ScanLimit.SHOW_DIGIT_1_2_3 => 0x02
  | ScanLimit.SHOW_DIGIT_1_2_3_4 => 0x03
  | ScanLimit.SHOW_DIGIT_1_2_3_4_5 => 0x04
  | ScanLimit.SHOW_DIGIT_1_2_3_4_5_6 => 0x05
  | ScanLimit.SHOW_DIGIT_1_2_3_4_5_6_7 => 0x06
  | ScanLimit.SHOW_ALL_DIGITS => 0x07

/-- The enumeration `ShutdownMode` of `MAX7219.h`. -/
inductive ShutdownMode where
  | DEVICE_OFF
  | DEVICE_ON

/-- The value of a shutdown mode, `static_cast<char>(mode)`. -/
def ShutdownMode.value : ShutdownMode → Byte
  | ShutdownMode.DEVICE_OFF => 0x00
  | ShutdownMode.DEVICE_ON => 0x01

/-- The enumeration `TestMode` of `MAX7219.h`. -/
inductive TestMode where
  | TEST_OFF
  | TEST_ON

/-- The value of a test mode, `static_cast<char>(mode)`. -/
def TestMode.value : TestMode → Byte
  | TestMode.TEST_OFF => 0x00
  | TestMode.TEST_ON => 0x01

namespace MAX7219Chain

/-- The method `row_index_to_row_register`: `static_cast<char>(index + 1)`. -/
def row_index_to_row_register (index : Nat) : Byte := toByte (index + 1)

/-- The method `image_to_command_vectors`: the vector of the eight command strings. A
slot of the outer vector that has not been assigned yet is the empty string. -/
def image_to_command_vectors (image : MatrixChainImage) : Except Error (List (List Byte)) :=
  forUpTo MatrixImage.HEIGHT (fun row command_vectors => do
    let cv ← vector_store command_vectors row (List.replicate (2 * image.length) (0 : Byte))
    forUpTo image.length (fun matrix cv => do
      let v ← match cv[row]? with
        | some v => pure v
        | none => throw Error.out_of_range
      let v1 ← vector_store v (2 * matrix) (row_index_to_row_register row)
      let cv1 ← vector_store cv row v1
      let d ← image.get_row_of_matrix matrix row
      let v2 ← match cv1[row]? with
        | some v => pure v
        | none => throw Error.out_of_range
      let v3 ← vector_store v2 (2 * matrix + 1) d
      vector_store cv1 row v3) cv)
    (List.replicate MatrixImage.HEIGHT [])

/-- The method `send_command_string`: the whole command string is handed to
`spi_send_data` with its size as the byte count. -/
def send_command_string (command_string : List Byte) (bus : List (List Byte)) :
    List (List Byte) :=
  spi_send_data command_string command_string.length bus

/-- The method `send_command_all(register_value, data)`. The vector has `length * 2`
elements, all zero at first; the size and the indices `2 * i` and `2 * i + 1` are
computed on `std::size_t`. Running out of memory is not modelled. -/
def send_command_all (self : MAX7219Chain) (register_value data : Byte)
    (bus : List (List Byte)) : Except Error (List (List Byte)) := do
  let command_string ← forUpTo self.length (fun i command_string => do
      let cs ← vector_store command_string (size_t_mul 2 i) register_value
      vector_store cs (size_t_add (size_t_mul 2 i) 1) data)
    (List.replicate (size_t_mul self.length 2) (0 : Byte))
  pure (send_command_string command_string bus)

/-- The method `preprocess`: `image.rotate_image(static_cast<std::size_t>(upside_down))`
followed by `image.rotate_matrices(matrix_orientation)`. -/
def preprocess (self : MAX7219Chain) (image : MatrixChainImage) :
    Except Error MatrixChainImage := do
  let image ← image.rotate_image self.upside_down.toNat
  image.rotate_matrices self.matrix_orientation

/-- The method `generate_frame`: `preprocess` on the image, then
`image_to_command_vectors`. -/
def generate_frame (self : MAX7219Chain) (image : MatrixChainImage) :
    Except Error (List (List Byte)) := do
  let image ← self.preprocess image
  image_to_command_vectors image

/-- The overload `send_command_all(MAX7219Register device_register, char data)`. -/
def send_command_all_register (self : MAX7219Chain) (device_register : MAX7219Register)
    (data : Byte) (bus : List (List Byte)) : Except Error (List (List Byte)) :=
  self.send_command_all device_register.value data bus

/-- The method `clear`: a blank row is sent to each of the eight rows. -/
def clear (self : MAX7219Chain) (bus : List (List Byte)) :
    Except Error (List (List Byte)) :=
  forUpTo MatrixImage.HEIGHT (fun r bus =>
    self.send_command_all (row_index_to_row_register r) 0x00 bus) bus

/-- The method `show` of the class (`show` is a keyword of Lean). -/
def show_device (self : MAX7219Chain) (bus : List (List Byte)) :
    Except Error (List (List Byte)) :=
  self.send_command_all_register MAX7219Register.SHUTDOWN ShutdownMode.DEVICE_ON.value bus

/-- The method `hide`. -/
def hide (self : MAX7219Chain) (bus : List (List Byte)) :
    Except Error (List (List Byte)) :=
  self.send_command_all_register MAX7219Register.SHUTDOWN ShutdownMode.DEVICE_OFF.value bus

/-- The method `set_intensity`: the command is sent, then the member is updated. -/
def set_intensity (self : MAX7219Chain) (intensity : Byte) (bus : List (List Byte)) :
    Except Error (MAX7219Chain × List (List Byte)) := do
  let bus ← self.send_command_all_register MAX7219Register.INTENSITY intensity bus
  pure ({ self with intensity := intensity }, bus)

/-- The constructor `MAX7219Chain(length, matrix_orientation, upside_down, intensity)`:
the new object and the bus afterwards. The calls `spi_init()` and `spi_set_options(...)`
set up the external library and transfer no bytes; their results are not looked at. -/
def new (length matrix_orientation : Nat) (upside_down : Bool) (intensity : Byte)
    (bus : List (List Byte)) : Except Error (MAX7219Chain × List (List Byte)) := do
  let self : MAX7219Chain := ⟨length, matrix_orientation, upside_down, intensity⟩
  let bus ← self.hide bus
  let bus ← self.send_command_all_register MAX7219Register.TEST TestMode.TEST_OFF.value bus
  let bus ← self.send_command_all_register MAX7219Register.SCAN_LIMIT
    ScanLimit.SHOW_ALL_DIGITS.value bus
  let bus ← self.send_command_all_register MAX7219Register.DECODE_MODE
    DecodeMode.NO_DECODE.value bus
  let r ← self.set_intensity intensity bus
  let bus ← r.1.clear r.2
  let bus ← r.1.show_device bus
  pure (r.1, bus)

/-- The method `display_raw`: for each row a command string of `length * 2` bytes is
filled, for each matrix of the device, with the row register and the row byte of the
image, and sent. The right operand `image.get_row_of_matrix(m, r)` of the second
assignment is evaluated before the access `command_string->at(2 * m + 1)`. -/
def display_raw (self : MAX7219Chain) (image : MatrixChainImage) (bus : List (List Byte)) :
    Except Error (List (List Byte)) :=
  forUpTo MatrixImage.HEIGHT (fun r bus => do
    let command_string ← forUpTo self.length (fun m command_string => do
        let cs ← vector_store command_string (size_t_mul 2 m) (row_index_to_row_register r)
        let d ← image.get_row_of_matrix m r
        vector_store cs (size_t_add (size_t_mul 2 m) 1) d)
      (List.replicate (size_t_mul self.length 2) (0 : Byte))
    pure (send_command_string command_string bus)) bus

/-- The method `send_command_vectors`: the eight command strings are sent in the order
of the rows. -/
def send_command_vectors (command_vectors : List (List Byte)) (bus : List (List Byte)) :
    Except Error (List (List Byte)) :=
  forUpTo MatrixImage.HEIGHT (fun row bus =>
    match command_vectors[row]? with
    | some command_string => pure (send_command_string command_string bus)
    | none => throw Error.out_of_range) bus

/-- The method `display`: the image is cropped to the length of the device, the copy is
preprocessed and encoded, and the command strings are sent. The result is the image
after the call and the bus. -/
def display (self : MAX7219Chain) (image : MatrixChainImage) (bus : List (List Byte)) :
    Except Error (MatrixChainImage × List (List Byte)) := do
  let r ← image.get_cropped_image self.length
  let cropped_image ← self.preprocess r.2
  let image_commands ← image_to_command_vectors cropped_image
  let bus ← send_command_vectors image_commands bus
  pure (r.1, bus)

end MAX7219Chain

/-! ## Pixel views used to state and prove the properties -/

/-- The byte that encodes a Boolean pixel value: `1` for on, `0` for off. -/
def bit_value (b : Bool) : Byte := if b then 1 else 0

/-- Pixel `(row, col)` of an 8x8 image as a Boolean, i.e. bit `7 - col` of row `row`;
`false` outside the image. -/
def MatrixImage.px (self : MatrixImage) (row col : Nat) : Bool :=
  if h : row < 8 then decide (col < 8) && (self.image_data ⟨row, h⟩).val.testBit (7 - col)
  else false

/-- Pixel `(row, col)` of a chain image as a Boolean: pixel `(row, col % 8)` of matrix
`col / 8`; `false` outside the image. -/
def MatrixChainImage.px (self : MatrixChainImage) (row col : Nat) : Bool :=
  match self.matrices[col / 8]? with
  | some m => m.px row (col % 8)
  | none => false

/-- The pixel of the original image that a clockwise rotation by `k` quarter turns moves
to position `(row, col)`. -/
def rotation_source (k row col : Nat) : Nat × Nat :=
  match k % 4 with
  | 0 => (row, col)
  | 1 => (7 - col, row)
  | 2 => (7 - row, 7 - col)
  | _ => (col, 7 - row)

/-- The image whose only lit pixel is `(0, 0)`. -/
def MatrixImage.only_pixel_0_0 : MatrixImage := ⟨fun i => if i = 0 then 0x80 else 0⟩

/-- Pixel `(row, col)` of a glyph as a Boolean, i.e. bit `7 - col` of row `row`; `false`
outside the 8x8 bitmap. -/
def Glyph.px (self : Glyph) (row col : Nat) : Bool :=
  if h : row < 8 then decide (col < 8) && (self.glyph_data ⟨row, h⟩).val.testBit (7 - col)
  else false

/-- A two-matrix canvas: row 3 of matrix 0 is `0xA0`, row 3 of matrix 1 is `0x0F`, all
other rows are blank. -/
def MatrixChainImage.two_chip_example : MatrixChainImage :=
  ⟨2, [⟨fun i => if i = 3 then 0xA0 else 0⟩, ⟨fun i => if i = 3 then 0x0F else 0⟩], 0, rfl⟩

/-- The command string of one row, as far as the pairs of the first `count` matrices are
concerned: `2 * N` bytes, the pair of matrix `m` being the row register followed by the row
byte of that matrix. -/
def MAX7219Chain.is_row_command (image : MatrixChainImage) (row count : Nat)
    (v : List Byte) : Prop :=
  v.length = 2 * image.length ∧
    ∀ m, m < count → v[2 * m]? = some (row_index_to_row_register row) ∧
      ∃ d, image.get_row_of_matrix m row = Except.ok d ∧ v[2 * m + 1]? = some d

/-- Sum of the glyph widths of the characters of a string. -/
def Font.text_width (font : Font) (text : List Byte) : Nat :=
  (text.map font.get_glyph_width).sum

/-- A font for examples: every glyph has all pixels set and the glyph of code point `c`
has width `c % 8 + 1`. -/
def Font.example_font : Font := ⟨fun c => ⟨fun _ => 0xFF, c.val % 8 + 1⟩⟩

/-- The result of `k` successive calls of `left_shift_image`. -/
def MatrixChainImage.left_shift_image_times (self : MatrixChainImage) (k : Nat) :
    Except Error MatrixChainImage :=
  forUpTo k (fun _ s => s.left_shift_image) self

/-- The canvas states that can arise: a canvas is created by the constructor or by
`get_cropped_image`, and is changed by the public mutating methods (with any arguments)
when they return. -/
inductive MatrixChainImage.Reachable : MatrixChainImage → Prop where
  | new (length : Nat) : Reachable (MatrixChainImage.new length)
  | draw_text {s s' : MatrixChainImage} (text leftover : List Byte) (font : Font) :
      Reachable s → s.draw_text text font = Except.ok (leftover, s') → Reachable s'
  | left_shift_image {s s' : MatrixChainImage} :
      Reachable s → s.left_shift_image = Except.ok s' → Reachable s'
  | set_pixel {s s' : MatrixChainImage} (row col : Nat) (value : Byte) :
      Reachable s → s.set_pixel row col value = Except.ok s' → Reachable s'
  | rotate_matrices {s s' : MatrixChainImage} (rotation : Nat) :
      Reachable s → s.rotate_matrices rotation = Except.ok s' → Reachable s'
  | rotate_image {s s' : MatrixChainImage} (rotation : Nat) :
      Reachable s → s.rotate_image rotation = Except.ok s' → Reachable s'
  | get_cropped_image_source {s s' cropped : MatrixChainImage} (length : Nat) :
      Reachable s → s.get_cropped_image length = Except.ok (s', cropped) → Reachable s'
  | get_cropped_image_result {s s' cropped : MatrixChainImage} (length : Nat) :
      Reachable s → s.get_cropped_image length = Except.ok (s', cropped) →
      Reachable cropped

/-- The font obtained from a resource in which every row of every glyph is `0xF0`, loaded
proportionally with spacing `0`: the four left columns of every glyph are lit; the widths
are `4` for the space `0x20`, `1` for `0xFF` and `5` for every other code point. -/
def Font.proportional_example : Font :=
  ⟨fun c => ⟨fun _ => 0xF0, if c = 0x20 then 4 else if c = 0xFF then 1 else 5⟩⟩

/-- Row `row` of an 8x8 image as a byte; `0` outside the image. -/
def MatrixImage.row_byte (self : MatrixImage) (row : Nat) : Byte :=
  if h : row < 8 then self.image_data ⟨row, h⟩ else 0

/-- Row `row` of matrix `matrix` of a chain image as a byte; `0` outside the image. -/
def MatrixChainImage.row_byte (self : MatrixChainImage) (matrix row : Nat) : Byte :=
  match self.matrices[matrix]? with
  | some m => m.row_byte row
  | none => 0

/-- The split law of `draw_text` for a font, a fresh canvas of `N` matrices and two
strings `a` and `b`: drawing `a` and then `b` succeeds, drawing `a ++ b` succeeds, both
leave the same pixels, and the leftover of `draw_text(a ++ b)` is the leftover of the
call `draw_text(b)`. -/
def MatrixChainImage.draw_text_split_law (font : Font) (N : Nat) (a b : List Byte) : Prop :=
  ∃ la sa lb sb lab sab,
    (MatrixChainImage.new N).draw_text a font = Except.ok (la, sa) ∧
    sa.draw_text b font = Except.ok (lb, sb) ∧
    (MatrixChainImage.new N).draw_text (a ++ b) font = Except.ok (lab, sab) ∧
    (∀ r c, r < 8 → c < 8 * N → sab.get_pixel r c = sb.get_pixel r c) ∧
    lab = lb

/-- The positions whose row has been swapped when the outer loop of the chain's
`rotate_image` is at matrix `j` and the inner loop at row `i` (chain of `N` matrices): in
the upper half the rows of the matrices before `j` and the rows before `i` of matrix `j`,
in the lower half their partners. -/
def MatrixChainImage.swapped (N j i m r : Nat) : Prop :=
  m < N ∧ r < 8 ∧
    ((r < 4 ∧ (m < j ∨ (m = j ∧ r < i))) ∨
     (4 ≤ r ∧ (N - 1 - m < j ∨ (N - 1 - m = j ∧ 7 - r < i))))

/-- Whether column `col` of the bitmap of a glyph has no set pixel. -/
def Glyph.column_blank (self : Glyph) (col : Nat) : Bool :=
  (List.range 8).all (fun row => !self.px row col)

/-- The glyph object at the start of the constructor body: the raw bitmap with the
default width. -/
def Glyph.raw (data : Fin 8 → Byte) : Glyph := ⟨data, Glyph.WIDTH_MAX⟩

/-- The bitmap with no pixel set. -/
def Glyph.blank_data : Fin 8 → Byte := fun _ => 0

/-- A bitmap whose only set pixels are those of column 0. -/
def Glyph.first_column_data : Fin 8 → Byte := fun _ => 0x80

/-- A bitmap whose set pixels are those of the columns 2 to 5. -/
def Glyph.inset_data : Fin 8 → Byte := fun _ => 0x3C

/-- The bitmap drawn in the class comment of `Glyph.h`; its set pixels lie in the columns
0 to 6. -/
def Glyph.header_example_data : Fin 8 → Byte := fun i =>
  [0b11111110, 0b01100010, 0b01101000, 0b01111000,
   0b01101000, 0b01100010, 0b11111110, 0b00000000].getD i.val 0

/-- Record `c` of a font resource: its bytes `8 * c, ..., 8 * c + 7`, one byte per row. -/
def Font.record (file : List Byte) (c : Byte) : Fin 8 → Byte :=
  fun i => file.getD (8 * c.val + i.val) 0

/-- A font resource of 256 records: the rows of record `c` are all equal to the byte `c`,
except that the records of the code points from `0x41` on have the rows `0b00111100`. -/
def Font.example_file : List Byte :=
  (List.range 2048).map (fun k => if k / 8 < 0x41 then toByte (k / 8) else 0x3C)

/-- The row bytes of the canvas that the words of the spec describe for `rotate_image(k)`
with odd `k`: for each matrix index `m < N / 2` and each row `r < 4` the rows at
`(m, r)` and `(N - 1 - m, 7 - r)` are swapped, each byte bit-reversed, and no other row
changes. The result is the byte at `(m, r)`. -/
def MatrixChainImage.half_chain_swap_row (self : MatrixChainImage) (m r : Nat) : Byte :=
  if m < self.length ∧ r < 8 ∧
      ((m < self.length / 2 ∧ r < 4) ∨ (self.length - 1 - m < self.length / 2 ∧ 7 - r < 4))
  then MatrixImage.reverse_bits_lookup (self.row_byte (self.length - 1 - m) (7 - r))
  else self.row_byte m r

/-- The byte sequence of a broadcast: `count` repeated `(register, data)` pairs. -/
def MAX7219Chain.broadcast (register_value data : Byte) : Nat → List Byte
  | 0 => []
  | count + 1 => register_value :: data :: MAX7219Chain.broadcast register_value data count

/-- The `(register, data)` pairs that the constructor broadcasts, in order, for the
intensity `i`. -/
def MAX7219Chain.init_commands (i : Byte) : List (Byte × Byte) :=
  [(0x0C, 0x00), (0x0F, 0x00), (0x0B, 0x07), (0x09, 0x00), (0x0A, i),
   (0x01, 0x00), (0x02, 0x00), (0x03, 0x00), (0x04, 0x00),
   (0x05, 0x00), (0x06, 0x00), (0x07, 0x00), (0x08, 0x00), (0x0C, 0x01)]

/-- A bitmap whose set pixels are those of the columns 0 and 7. -/
def Glyph.end_columns_data : Fin 8 → Byte := fun _ => 0x81

/-! ## Loops -/

theorem forUpTo_succ {σ : Type} (n : Nat) (body : Nat → σ → Except Error σ) (s : σ) :
    forUpTo (n + 1) body s = (forUpTo n body s >>= body n) := rfl

theorem bind_ok_eq {α β : Type} (a : α) (f : α → Except Error β) :
    ((Except.ok a : Except Error α) >>= f) = f a := rfl

theorem pure_eq_ok {α : Type} (a : α) : (pure a : Except Error α) = Except.ok a := rfl

/-- Invariant rule for counting loops: an invariant that holds initially and is carried
over every iteration (each of which succeeds) holds at the end, and the loop succeeds. -/
theorem forUpTo_invariant {σ : Type} (Inv : Nat → σ → Prop) (n : Nat)
    (body : Nat → σ → Except Error σ) (s0 : σ) (h0 : Inv 0 s0)
    (hstep : ∀ i s, i < n → Inv i s → ∃ s', body i s = Except.ok s' ∧ Inv (i + 1) s') :
    ∃ s', forUpTo n body s0 = Except.ok s' ∧ Inv n s' := by
  induction n with
  | zero => exact ⟨s0, rfl, h0⟩
  | succ k ih =>
    obtain ⟨s1, h1, hinv⟩ := ih (fun i s hi => hstep i s (Nat.lt_succ_of_lt hi))
    obtain ⟨s2, h2, hinv2⟩ := hstep k s1 (Nat.lt_succ_self k) hinv
    exact ⟨s2, by rw [forUpTo_succ, h1, bind_ok_eq, h2], hinv2⟩

/-- Invariant rule for reverse loops; `Inv j` is the invariant when the indices `≥ j`
have been visited. -/
theorem forDownFrom_invariant {σ : Type} (Inv : Nat → σ → Prop) (n : Nat)
    (body : Nat → σ → Except Error σ) (s0 : σ) (h0 : Inv n s0)
    (hstep : ∀ i s, i < n → Inv (i + 1) s → ∃ s', body i s = Except.ok s' ∧ Inv i s') :
    ∃ s', forDownFrom n body s0 = Except.ok s' ∧ Inv 0 s' := by
  induction n generalizing s0 with
  | zero => exact ⟨s0, rfl, h0⟩
  | succ k ih =>
    obtain ⟨s1, h1, hinv⟩ := hstep k s0 (Nat.lt_succ_self k) h0
    obtain ⟨s2, h2, hinv2⟩ := ih s1 hinv (fun i s hi => hstep i s (Nat.lt_succ_of_lt hi))
    refine ⟨s2, ?_, hinv2⟩
    show (body k s0 >>= forDownFrom k body) = _
    rw [h1, bind_ok_eq, h2]

/-! ## Bytes -/

theorem and_one_shiftLeft_ne_zero (n k : Nat) : (n &&& (1 <<< k) ≠ 0) ↔ n.testBit k = true := by
  rw [Nat.one_shiftLeft, Nat.land_comm, Nat.two_pow_and]
  cases h : n.testBit k <;> simp

theorem pixel_byte_eq (n k : Nat) :
    (if n &&& (1 <<< k) ≠ 0 then (1 : Byte) else 0) = bit_value (n.testBit k) := by
  unfold bit_value
  by_cases h : n.testBit k = true
  · rw [if_pos ((and_one_shiftLeft_ne_zero n k).2 h), if_pos h]
  · rw [if_neg (fun h2 => h ((and_one_shiftLeft_ne_zero n k).1 h2)), if_neg h]

theorem toByte_val (n : Nat) : (toByte n).val = n % 2 ^ 8 := rfl

theorem testBit_toByte (n j : Nat) :
    (toByte n).val.testBit j = (decide (j < 8) && n.testBit j) := by
  rw [toByte_val, Nat.testBit_mod_two_pow]

theorem toByte_of_byte (v : Byte) : toByte v.val = v := by
  apply Fin.ext
  exact Nat.mod_eq_of_lt v.isLt

theorem byte_testBit_high (v : Byte) (j : Nat) (h : 8 ≤ j) : v.val.testBit j = false := by
  apply Nat.testBit_lt_two_pow
  calc v.val < 2 ^ 8 := v.isLt
    _ ≤ 2 ^ j := Nat.pow_le_pow_right (by decide) h

theorem byte_ext (a b : Byte) (h : ∀ j, j < 8 → a.val.testBit j = b.val.testBit j) : a = b := by
  apply Fin.ext
  apply Nat.eq_of_testBit_eq
  intro i
  by_cases hi : i < 8
  · exact h i hi
  · rw [byte_testBit_high a i (by omega), byte_testBit_high b i (by omega)]

theorem testBit_set_on (v : Byte) (k j : Nat) :
    (toByte (v.val ||| (1 <<< k))).val.testBit j
      = (decide (j < 8) && (v.val.testBit j || decide (k = j))) := by
  rw [testBit_toByte, Nat.testBit_or, Nat.one_shiftLeft, Nat.testBit_two_pow]

theorem testBit_set_off (v : Byte) (k j : Nat) :
    (toByte (v.val &&& (0xFFFFFFFF ^^^ (1 <<< k)))).val.testBit j
      = (decide (j < 8) && (v.val.testBit j && !decide (k = j))) := by
  have h32 : (0xFFFFFFFF : Nat) = 2 ^ 32 - 1 := by norm_num
  rw [testBit_toByte, Nat.testBit_and, Nat.testBit_xor, Nat.one_shiftLeft, Nat.testBit_two_pow,
    h32, Nat.testBit_two_pow_sub_one]
  by_cases hj : j < 8
  · have : j < 32 := by omega
    by_cases hkj : k = j <;> simp [hj, hkj, this]
  · simp [hj]

theorem testBit_shifted (v fill : Byte) (j : Nat) :
    (toByte ((toByte ((toByte (v.val <<< 1)).val ||| fill.val)).val &&& 0xFF)).val.testBit j
      = (decide (j < 8) &&
          (if j = 0 then fill.val.testBit 0
           else (v.val.testBit (j - 1) || fill.val.testBit j))) := by
  have h8 : (0xFF : Nat) = 2 ^ 8 - 1 := by norm_num
  rw [testBit_toByte, Nat.testBit_and, testBit_toByte, Nat.testBit_or, testBit_toByte,
    Nat.testBit_shiftLeft, h8, Nat.testBit_two_pow_sub_one]
  by_cases hj : j < 8
  · by_cases h0 : j = 0
    · subst h0; simp
    · have : 1 ≤ j := by omega
      simp [hj, h0, this]
  · simp [hj]

/-! ## MatrixImage: pixels -/

namespace MatrixImage

theorem at_row_eq (I : MatrixImage) (row : Nat) (h : row < 8) :
    I.at_row row = Except.ok (I.image_data ⟨row, h⟩) := by
  unfold at_row
  rw [dif_pos (show row < HEIGHT from h)]
  rfl

theorem store_row_eq (I : MatrixImage) (row : Nat) (v : Byte) (h : row < 8) :
    I.store_row row v
      = Except.ok ⟨fun i => if i = ⟨row, h⟩ then v else I.image_data i⟩ := by
  unfold store_row
  rw [dif_pos (show row < HEIGHT from h)]
  rfl

theorem px_eq (I : MatrixImage) (row col : Nat) (hr : row < 8) (hc : col < 8) :
    I.px row col = (I.image_data ⟨row, hr⟩).val.testBit (7 - col) := by
  unfold px
  rw [dif_pos hr]
  simp [hc]

theorem px_row_ge (I : MatrixImage) (row col : Nat) (hr : 8 ≤ row) : I.px row col = false := by
  unfold px
  rw [dif_neg (by omega)]

theorem px_col_ge (I : MatrixImage) (row col : Nat) (hc : 8 ≤ col) : I.px row col = false := by
  unfold px
  split
  · simp; intro h; omega
  · rfl

/-- Reading a pixel inside the image succeeds and returns the pixel as `0` or `1`. -/
theorem get_pixel_eq (I : MatrixImage) (row col : Nat) (hr : row < 8) (hc : col < 8) :
    I.get_pixel row col = Except.ok (bit_value (I.px row col)) := by
  unfold get_pixel
  rw [if_neg (show ¬ col ≥ WIDTH from by unfold WIDTH; omega), at_row_eq I row hr, bind_ok_eq,
    pixel_byte_eq, px_eq I row col hr hc]
  rfl

/-- Two images with the same pixels are equal. -/
theorem ext_px (I J : MatrixImage)
    (h : ∀ row col, row < 8 → col < 8 → I.px row col = J.px row col) : I = J := by
  cases I with | mk f =>
  cases J with | mk g =>
  congr
  funext i
  apply byte_ext
  intro j hj
  have := h i.val (7 - j) i.isLt (by omega)
  rw [px_eq _ _ _ i.isLt (by omega), px_eq _ _ _ i.isLt (by omega)] at this
  have h7 : 7 - (7 - j) = j := by omega
  simpa [h7] using this

/-- Writing a pixel inside the image succeeds; afterwards that pixel is on exactly when
the value written is non-zero and every other pixel is unchanged. -/
theorem set_pixel_spec (I : MatrixImage) (row col : Nat) (v : Byte) (hr : row < 8)
    (hc : col < 8) :
    ∃ I', I.set_pixel row col v = Except.ok I' ∧
      ∀ r c, I'.px r c = if r = row ∧ c = col then decide (v ≠ 0) else I.px r c := by
  unfold set_pixel
  rw [if_neg (show ¬ col ≥ WIDTH from by unfold WIDTH; omega), at_row_eq I row hr, bind_ok_eq]
  by_cases hv : v ≠ 0
  · rw [if_pos hv, store_row_eq _ _ _ hr]
    refine ⟨_, rfl, ?_⟩
    intro r c
    by_cases hr8 : r < 8
    · by_cases hc8 : c < 8
      · rw [px_eq _ _ _ hr8 hc8, px_eq _ _ _ hr8 hc8]
        by_cases hrr : r = row
        · subst hrr
          simp only [if_true, true_and]
          rw [testBit_set_on]
          unfold WIDTH
          by_cases hcc : c = col
          · subst hcc; simp [hv]; omega
          · have : ¬ (8 - 1 - col = 7 - c) := by omega
            simp [hcc, this]; intro _; omega
        · have : (⟨r, hr8⟩ : Fin 8) ≠ ⟨row, hr⟩ := by
            intro h; exact hrr (Fin.mk.inj h)
          simp [hrr, this]
      · rw [px_col_ge _ _ _ (by omega), px_col_ge _ _ _ (by omega)]
        have : ¬ (r = row ∧ c = col) := by omega
        simp [this]
    · rw [px_row_ge _ _ _ (by omega), px_row_ge _ _ _ (by omega)]
      have : ¬ (r = row ∧ c = col) := by omega
      simp [this]
  · rw [if_neg hv, store_row_eq _ _ _ hr]
    refine ⟨_, rfl, ?_⟩
    intro r c
    by_cases hr8 : r < 8
    · by_cases hc8 : c < 8
      · rw [px_eq _ _ _ hr8 hc8, px_eq _ _ _ hr8 hc8]
        by_cases hrr : r = row
        · subst hrr
          simp only [if_true, true_and]
          rw [testBit_set_off]
          unfold WIDTH
          by_cases hcc : c = col
          · subst hcc; simp [hv]
          · have : ¬ (8 - 1 - col = 7 - c) := by omega
            simp [hcc, this]; intro _; omega
        · have : (⟨r, hr8⟩ : Fin 8) ≠ ⟨row, hr⟩ := by
            intro h; exact hrr (Fin.mk.inj h)
          simp [hrr, this]
      · rw [px_col_ge _ _ _ (by omega), px_col_ge _ _ _ (by omega)]
        have : ¬ (r = row ∧ c = col) := by omega
        simp [this]
    · rw [px_row_ge _ _ _ (by omega), px_row_ge _ _ _ (by omega)]
      have : ¬ (r = row ∧ c = col) := by omega
      simp [this]


/-- One row of a pixel-by-pixel copy loop: the pixels of row `row` receive the values
`f row col`, everything else is unchanged. -/
theorem fill_row (g : Nat → Except Error Byte) (f : Nat → Bool) (row : Nat) (hr : row < 8)
    (hg : ∀ c, c < 8 → ∃ p, g c = Except.ok p ∧ decide (p ≠ 0) = f c) (s0 : MatrixImage) :
    ∃ s', forUpTo 8 (fun col s => do
              let p ← g col
              s.set_pixel row col p) s0 = Except.ok s' ∧
      ∀ r c, s'.px r c = if r = row ∧ c < 8 then f c else s0.px r c := by
  have key := forUpTo_invariant
    (fun n (s : MatrixImage) => ∀ r c, s.px r c = if r = row ∧ c < n then f c else s0.px r c)
    8 (fun col s => do
              let p ← g col
              s.set_pixel row col p) s0
    (by intro r c; simp)
    (by
      intro i s hi hinv
      obtain ⟨p, hp, hpf⟩ := hg i hi
      obtain ⟨s', hs', hpx⟩ := set_pixel_spec s row i p hr hi
      refine ⟨s', ?_, ?_⟩
      · show (g i >>= fun p => s.set_pixel row i p) = _
        rw [hp, bind_ok_eq, hs']
      · intro r c
        rw [hpx r c, hinv r c, hpf]
        by_cases h1 : r = row
        · by_cases h2 : c = i
          · subst h2; simp [h1]
          · by_cases h3 : c < i
            · have : c < i + 1 := by omega
              simp [h1, h2, h3, this]
            · have : ¬ c < i + 1 := by omega
              simp [h1, h2, h3, this]
        · simp [h1])
  exact key

/-- A pixel-by-pixel copy loop over the whole image: every pixel receives `f row col`. -/
theorem fill_pixels (g : Nat → Nat → Except Error Byte) (f : Nat → Nat → Bool)
    (hg : ∀ r c, r < 8 → c < 8 → ∃ p, g r c = Except.ok p ∧ decide (p ≠ 0) = f r c)
    (s0 : MatrixImage) :
    ∃ s', forUpTo 8 (fun row s => forUpTo 8 (fun col s => do
              let p ← g row col
              s.set_pixel row col p) s) s0 = Except.ok s' ∧
      ∀ r c, r < 8 → c < 8 → s'.px r c = f r c := by
  have key := forUpTo_invariant
    (fun n (s : MatrixImage) => ∀ r c, c < 8 → s.px r c = if r < n then f r c else s0.px r c)
    8 (fun row s => forUpTo 8 (fun col s => do
              let p ← g row col
              s.set_pixel row col p) s) s0
    (by intro r c _; simp)
    (by
      intro i s hi hinv
      obtain ⟨s', hs', hpx⟩ := fill_row (g i) (f i) i hi (fun c hc => hg i c hi hc) s
      refine ⟨s', hs', ?_⟩
      intro r c hc
      rw [hpx r c, hinv r c hc]
      by_cases h1 : r = i
      · subst h1; simp [hc]
      · by_cases h3 : r < i
        · have : r < i + 1 := by omega
          simp [h1, h3, this]
        · have : ¬ r < i + 1 := by omega
          simp [h1, h3, this])
  obtain ⟨s', hs', hinv⟩ := key
  refine ⟨s', hs', ?_⟩
  intro r c hr hc
  rw [hinv r c hc, if_pos hr]

theorem decide_bit_value_ne_zero (b : Bool) : decide (bit_value b ≠ 0) = b := by
  cases b <;> simp [bit_value]

/-- The first loop of the 180-degree case (row reversal through the table) succeeds. -/
theorem table_loop_ok (old : MatrixImage) (s0 : MatrixImage) :
    ∃ s', forUpTo HEIGHT (fun row s => do
          let old_row := HEIGHT - 1 - row
          let v ← old.get_row old_row
          s.set_row row (reverse_bits_lookup v)) s0 = Except.ok s' := by
  have key := forUpTo_invariant (fun _ (_ : MatrixImage) => True) HEIGHT
    (fun row s => do
          let old_row := HEIGHT - 1 - row
          let v ← old.get_row old_row
          s.set_row row (reverse_bits_lookup v)) s0 trivial
    (by
      intro i s hi _
      have hi8 : i < 8 := hi
      have h1 : old.get_row (HEIGHT - 1 - i) = Except.ok (old.image_data ⟨HEIGHT - 1 - i, by unfold HEIGHT; omega⟩) :=
        at_row_eq old _ _
      refine ⟨⟨fun j => if j = ⟨i, hi8⟩ then
          reverse_bits_lookup (old.image_data ⟨HEIGHT - 1 - i, by unfold HEIGHT; omega⟩)
          else s.image_data j⟩, ?_, trivial⟩
      show (old.get_row (HEIGHT - 1 - i) >>= fun v => s.set_row i (reverse_bits_lookup v)) = _
      rw [h1, bind_ok_eq]
      exact store_row_eq s i _ hi8)
  obtain ⟨s', hs', _⟩ := key
  exact ⟨s', hs'⟩

/-- Pixel characterisation of `rotate_image`: the rotation succeeds and pixel
`(row, col)` of the result is the pixel `rotation_source k row col` of the original. -/
theorem rotate_image_px (I : MatrixImage) (k : Nat) :
    ∃ I', I.rotate_image k = Except.ok I' ∧
      ∀ row col, row < 8 → col < 8 →
        I'.px row col = I.px (rotation_source k row col).1 (rotation_source k row col).2 := by
  have h4 : k % 4 < 4 := Nat.mod_lt _ (by decide)
  unfold rotate_image rotation_source
  by_cases h0 : k % 4 = 0
  · rw [if_pos h0, h0]
    exact ⟨I, rfl, fun _ _ _ _ => rfl⟩
  · rw [if_neg h0]
    by_cases h1 : k % 4 = 1
    · rw [h1]
      obtain ⟨s', hs', hpx⟩ := fill_pixels (fun row col => I.get_pixel (WIDTH - 1 - col) row)
        (fun row col => I.px (7 - col) row)
        (fun r c hr hc => ⟨_, get_pixel_eq I _ _ (by unfold WIDTH; omega) hr,
          decide_bit_value_ne_zero _⟩) I
      exact ⟨s', hs', hpx⟩
    · by_cases h2 : k % 4 = 2
      · rw [h2]
        obtain ⟨s1, hs1⟩ := table_loop_ok I I
        obtain ⟨s', hs', hpx⟩ := fill_pixels
          (fun row col => I.get_pixel (HEIGHT - 1 - row) (WIDTH - 1 - col))
          (fun row col => I.px (7 - row) (7 - col))
          (fun r c hr hc => ⟨_, get_pixel_eq I _ _ (by unfold HEIGHT; omega)
            (by unfold WIDTH; omega), decide_bit_value_ne_zero _⟩) s1
        refine ⟨s', ?_, hpx⟩
        show (forUpTo HEIGHT _ I >>= _) = _
        rw [hs1, bind_ok_eq]
        exact hs'
      · have h3 : k % 4 = 3 := by omega
        rw [h3]
        obtain ⟨s', hs', hpx⟩ := fill_pixels (fun r c => I.get_pixel c (HEIGHT - 1 - r))
          (fun r c => I.px c (7 - r))
          (fun r c hr hc => ⟨_, get_pixel_eq I _ _ hc (by unfold HEIGHT; omega),
            decide_bit_value_ne_zero _⟩) I
        exact ⟨s', hs', hpx⟩


theorem rotation_source_lt (k row col : Nat) (hr : row < 8) (hc : col < 8) :
    (rotation_source k row col).1 < 8 ∧ (rotation_source k row col).2 < 8 := by
  have h4 : k % 4 < 4 := Nat.mod_lt _ (by decide)
  unfold rotation_source
  split <;> simp <;> omega

theorem rotation_source_comp (a b row col : Nat) (hr : row < 8) (hc : col < 8) :
    rotation_source a (rotation_source b row col).1 (rotation_source b row col).2
      = rotation_source ((a + b) % 4) row col := by
  have ha4 : a % 4 < 4 := Nat.mod_lt _ (by decide)
  have hb4 : b % 4 < 4 := Nat.mod_lt _ (by decide)
  have hab : (a + b) % 4 % 4 = (a % 4 + b % 4) % 4 := by omega
  unfold rotation_source
  rw [hab]
  have ha : a % 4 = 0 ∨ a % 4 = 1 ∨ a % 4 = 2 ∨ a % 4 = 3 := by omega
  have hb : b % 4 = 0 ∨ b % 4 = 1 ∨ b % 4 = 2 ∨ b % 4 = 3 := by omega
  rcases ha with ha | ha | ha | ha <;> rcases hb with hb | hb | hb | hb <;>
    simp [ha, hb] <;> omega


/-- The rotation in terms of `get_pixel`: it succeeds, and reading pixel `(row, col)` of
the result and reading the pixel `rotation_source k row col` of the original both succeed
with the same value. -/
theorem rotate_image_get_pixel (I : MatrixImage) (k : Nat) :
    ∃ I', I.rotate_image k = Except.ok I' ∧
      ∀ row col, row < 8 → col < 8 →
        ∃ p, I.get_pixel (rotation_source k row col).1 (rotation_source k row col).2
            = Except.ok p ∧
          I'.get_pixel row col = Except.ok p := by
  obtain ⟨I', h, hpx⟩ := rotate_image_px I k
  refine ⟨I', h, ?_⟩
  intro row col hr hc
  obtain ⟨h1, h2⟩ := rotation_source_lt k row col hr hc
  refine ⟨_, get_pixel_eq I _ _ h1 h2, ?_⟩
  rw [get_pixel_eq I' row col hr hc, hpx row col hr hc]

/-- Claim C2. For every image and every `k` with `k % 4 = 1`, `rotate_image k` succeeds
and afterwards the pixel at `(row, col)` equals the old pixel at `(7 - col, row)`, for
all `row`, `col` in `0..7`. -/
theorem rotate_image_quarter_turn (I : MatrixImage) (k : Nat) (hk : k % 4 = 1) :
    ∃ I', I.rotate_image k = Except.ok I' ∧
      ∀ row col, row < 8 → col < 8 →
        ∃ p, I.get_pixel (7 - col) row = Except.ok p ∧ I'.get_pixel row col = Except.ok p := by
  obtain ⟨I', h, hpx⟩ := rotate_image_get_pixel I k
  refine ⟨I', h, ?_⟩
  intro row col hr hc
  have := hpx row col hr hc
  simpa [rotation_source, hk] using this

/-- Witness for claim C2: rotating the image with only pixel `(0, 0)` set by one quarter
turn gives the image with only pixel `(0, 7)` set. -/
theorem rotate_image_quarter_turn_witness :
    1 % 4 = 1 ∧
    ∃ I', only_pixel_0_0.rotate_image 1 = Except.ok I' ∧
      ∀ row col, row < 8 → col < 8 →
        I'.get_pixel row col = Except.ok (if row = 0 ∧ col = 7 then 1 else 0) := by
  refine ⟨rfl, ?_⟩
  obtain ⟨I', h, hpx⟩ := rotate_image_quarter_turn only_pixel_0_0 1 rfl
  refine ⟨I', h, ?_⟩
  intro row col hr hc
  obtain ⟨p, hp, hp'⟩ := hpx row col hr hc
  rw [hp', ← hp]
  interval_cases row <;> interval_cases col <;> rfl

/-- Claim C3. For every image and every `k` with `k % 4 = 2`, `rotate_image k` succeeds
and afterwards the pixel at `(row, col)` equals the old pixel at `(7 - row, 7 - col)`,
for all `row`, `col` in `0..7`. -/
theorem rotate_image_half_turn (I : MatrixImage) (k : Nat) (hk : k % 4 = 2) :
    ∃ I', I.rotate_image k = Except.ok I' ∧
      ∀ row col, row < 8 → col < 8 →
        ∃ p, I.get_pixel (7 - row) (7 - col) = Except.ok p ∧
          I'.get_pixel row col = Except.ok p := by
  obtain ⟨I', h, hpx⟩ := rotate_image_get_pixel I k
  refine ⟨I', h, ?_⟩
  intro row col hr hc
  have := hpx row col hr hc
  simpa [rotation_source, hk] using this

/-- Witness for claim C3: a half turn of the image with only pixel `(0, 0)` set gives
the image with only pixel `(7, 7)` set. -/
theorem rotate_image_half_turn_witness :
    2 % 4 = 2 ∧
    ∃ I', only_pixel_0_0.rotate_image 2 = Except.ok I' ∧
      ∀ row col, row < 8 → col < 8 →
        I'.get_pixel row col = Except.ok (if row = 7 ∧ col = 7 then 1 else 0) := by
  refine ⟨rfl, ?_⟩
  obtain ⟨I', h, hpx⟩ := rotate_image_half_turn only_pixel_0_0 2 rfl
  refine ⟨I', h, ?_⟩
  intro row col hr hc
  obtain ⟨p, hp, hp'⟩ := hpx row col hr hc
  rw [hp', ← hp]
  interval_cases row <;> interval_cases col <;> rfl

/-- Claim C4. For every image and every `k` with `k % 4 = 3`, `rotate_image k` succeeds
and afterwards the pixel at `(row, col)` equals the old pixel at `(col, 7 - row)`, for
all `row`, `col` in `0..7`. -/
theorem rotate_image_three_quarter_turn (I : MatrixImage) (k : Nat) (hk : k % 4 = 3) :
    ∃ I', I.rotate_image k = Except.ok I' ∧
      ∀ row col, row < 8 → col < 8 →
        ∃ p, I.get_pixel col (7 - row) = Except.ok p ∧ I'.get_pixel row col = Except.ok p := by
  obtain ⟨I', h, hpx⟩ := rotate_image_get_pixel I k
  refine ⟨I', h, ?_⟩
  intro row col hr hc
  have := hpx row col hr hc
  simpa [rotation_source, hk] using this

/-- Witness for claim C4: three quarter turns of the image with only pixel `(0, 0)` set
give the image with only pixel `(7, 0)` set. -/
theorem rotate_image_three_quarter_turn_witness :
    7 % 4 = 3 ∧
    ∃ I', only_pixel_0_0.rotate_image 7 = Except.ok I' ∧
      ∀ row col, row < 8 → col < 8 →
        I'.get_pixel row col = Except.ok (if row = 7 ∧ col = 0 then 1 else 0) := by
  refine ⟨rfl, ?_⟩
  obtain ⟨I', h, hpx⟩ := rotate_image_three_quarter_turn only_pixel_0_0 7 rfl
  refine ⟨I', h, ?_⟩
  intro row col hr hc
  obtain ⟨p, hp, hp'⟩ := hpx row col hr hc
  rw [hp', ← hp]
  interval_cases row <;> interval_cases col <;> rfl

/-- Rotating by `a` and then by `b` quarter turns is rotating by `(a + b) % 4`. -/
theorem rotate_image_comp (I : MatrixImage) (a b : Nat) :
    ∃ J K, I.rotate_image a = Except.ok J ∧ J.rotate_image b = Except.ok K ∧
      I.rotate_image ((a + b) % 4) = Except.ok K := by
  obtain ⟨J, hJ, hJpx⟩ := rotate_image_px I a
  obtain ⟨K, hK, hKpx⟩ := rotate_image_px J b
  obtain ⟨L, hL, hLpx⟩ := rotate_image_px I ((a + b) % 4)
  refine ⟨J, K, hJ, hK, ?_⟩
  rw [hL]
  congr 1
  apply ext_px
  intro row col hr hc
  obtain ⟨h1, h2⟩ := rotation_source_lt b row col hr hc
  rw [hLpx row col hr hc, hKpx row col hr hc, hJpx _ _ h1 h2,
    rotation_source_comp a b row col hr hc]

/-- Claim C5. For every image `I` and all `a`, `b`, `k`: `rotate_image a` followed by
`rotate_image b` succeeds and yields the image that `rotate_image ((a + b) % 4)` yields;
`rotate_image k` yields the image that `rotate_image (k % 4)` yields; `rotate_image 0`
leaves `I` unchanged; and two successive 180-degree rotations restore `I`. -/
theorem rotate_image_composition (I : MatrixImage) (a b k : Nat) :
    (∃ J K, I.rotate_image a = Except.ok J ∧ J.rotate_image b = Except.ok K ∧
      I.rotate_image ((a + b) % 4) = Except.ok K) ∧
    (∃ J, I.rotate_image k = Except.ok J ∧ I.rotate_image (k % 4) = Except.ok J) ∧
    I.rotate_image 0 = Except.ok I ∧
    (∃ J, I.rotate_image 2 = Except.ok J ∧ J.rotate_image 2 = Except.ok I) := by
  refine ⟨rotate_image_comp I a b, ?_, rfl, ?_⟩
  · obtain ⟨J, K, hJ, hK, hL⟩ := rotate_image_comp I k 0
    have h0 : J.rotate_image 0 = Except.ok J := rfl
    rw [h0] at hK
    cases hK
    rw [Nat.add_zero] at hL
    exact ⟨J, hJ, hL⟩
  · obtain ⟨J, K, hJ, hK, hL⟩ := rotate_image_comp I 2 2
    have h0 : I.rotate_image ((2 + 2) % 4) = Except.ok I := rfl
    rw [h0] at hL
    cases hL
    exact ⟨J, hJ, hK⟩

/-- Pixel `col` of a row byte read through the table is pixel `7 - col` of the byte. -/
theorem reverse_bits_lookup_testBit :
    ∀ b : Byte, ∀ i : Fin 8,
      (reverse_bits_lookup b).val.testBit i.val = b.val.testBit (7 - i.val) := by
  set_option maxRecDepth 100000 in decide

/-- Claim C6. The table has 256 entries and is the bit reversal of a byte: for every
byte `b` and every bit position `i` in `0..7`, bit `i` of `reverse_bits_lookup_table[b]`
equals bit `7 - i` of `b`; consequently looking up twice gives `b` back. -/
theorem reverse_bits_lookup_table_reverses :
    reverse_bits_lookup_table.length = 256 ∧
    (∀ b : Byte, ∀ i : Nat, i < 8 →
      (reverse_bits_lookup_table.getD b.val 0).val.testBit i = b.val.testBit (7 - i)) ∧
    (∀ b : Byte, reverse_bits_lookup_table.getD
      (reverse_bits_lookup_table.getD b.val 0).val 0 = b) := by
  have hbit : ∀ b : Byte, ∀ i : Nat, i < 8 →
      (reverse_bits_lookup b).val.testBit i = b.val.testBit (7 - i) :=
    fun b i hi => reverse_bits_lookup_testBit b ⟨i, hi⟩
  refine ⟨by set_option maxRecDepth 100000 in decide, hbit, ?_⟩
  intro b
  apply byte_ext
  intro j hj
  have h1 := hbit (reverse_bits_lookup b) j hj
  have h2 := hbit b (7 - j) (by omega)
  have h7 : 7 - (7 - j) = j := by omega
  rw [h7] at h2
  exact h1.trans h2

end MatrixImage

/-! ## Vectors -/

theorem vector_store_eq {α : Type} (v : List α) (i : Nat) (x : α) (h : i < v.length) :
    vector_store v i x = Except.ok (v.set i x) := by
  unfold vector_store
  rw [if_pos h]
  rfl

/-! ## MatrixChainImage: access -/

namespace MatrixChainImage

theorem at_matrix_eq (s : MatrixChainImage) (m : Nat) (M : MatrixImage)
    (h : s.matrices[m]? = some M) : s.at_matrix m = Except.ok M := by
  unfold at_matrix
  rw [h]
  rfl

theorem matrices_get (s : MatrixChainImage) (m : Nat) (h : m < s.length) :
    ∃ M, s.matrices[m]? = some M := by
  have h' : m < s.matrices.length := by rw [s.size_eq]; exact h
  exact ⟨s.matrices[m], List.getElem?_eq_getElem h'⟩

/-- Reading a row of an existing matrix succeeds. -/
theorem get_row_of_matrix_ok (s : MatrixChainImage) (m row : Nat) (hm : m < s.length)
    (hr : row < 8) : ∃ d, s.get_row_of_matrix m row = Except.ok d := by
  obtain ⟨M, hM⟩ := matrices_get s m hm
  refine ⟨M.image_data ⟨row, hr⟩, ?_⟩
  unfold get_row_of_matrix
  rw [at_matrix_eq s m M hM, bind_ok_eq]
  exact MatrixImage.at_row_eq M row hr

end MatrixChainImage

/-! ## MAX7219Chain: the frame encoder -/

namespace MAX7219Chain

/-- The loop over the matrices for one row fills the command string of that row and leaves
the other command strings alone. -/
theorem fill_row_command (image : MatrixChainImage) (row : Nat) (hr : row < 8)
    (cv0 : List (List Byte)) (v0 : List Byte) (hlen : cv0.length = 8)
    (hv0 : cv0[row]? = some v0) (hv0len : v0.length = 2 * image.length) :
    ∃ cv, forUpTo image.length (fun matrix cv => do
        let v ← match cv[row]? with
          | some v => pure v
          | none => throw Error.out_of_range
        let v1 ← vector_store v (2 * matrix) (row_index_to_row_register row)
        let cv1 ← vector_store cv row v1
        let d ← image.get_row_of_matrix matrix row
        let v2 ← match cv1[row]? with
          | some v => pure v
          | none => throw Error.out_of_range
        let v3 ← vector_store v2 (2 * matrix + 1) d
        vector_store cv1 row v3) cv0 = Except.ok cv ∧
      cv.length = 8 ∧ (∀ r, r ≠ row → cv[r]? = cv0[r]?) ∧
      ∃ v, cv[row]? = some v ∧ is_row_command image row image.length v := by
  apply forUpTo_invariant
    (fun j (cv : List (List Byte)) => cv.length = 8 ∧ (∀ r, r ≠ row → cv[r]? = cv0[r]?) ∧
      ∃ v, cv[row]? = some v ∧ is_row_command image row j v)
  · refine ⟨hlen, fun _ _ => rfl, v0, hv0, hv0len, ?_⟩
    intro m hm
    exact absurd hm (Nat.not_lt_zero m)
  · intro i cv hi ⟨hcvlen, hother, v, hv, hvlen, hvm⟩
    obtain ⟨d, hd⟩ := MatrixChainImage.get_row_of_matrix_ok image i row hi hr
    have hrow : row < cv.length := by omega
    have h1 : 2 * i < v.length := by omega
    have h2 : 2 * i + 1 < (v.set (2 * i) (row_index_to_row_register row)).length := by
      rw [List.length_set]; omega
    have hrow1 : row < (cv.set row (v.set (2 * i) (row_index_to_row_register row))).length := by
      rw [List.length_set]; exact hrow
    refine ⟨(cv.set row (v.set (2 * i) (row_index_to_row_register row))).set row
        ((v.set (2 * i) (row_index_to_row_register row)).set (2 * i + 1) d), ?_, ?_, ?_, ?_⟩
    · simp only [hv, pure_eq_ok, bind_ok_eq, vector_store_eq _ _ _ h1,
        vector_store_eq _ _ _ hrow, hd, List.getElem?_set_self hrow,
        vector_store_eq _ _ _ h2, vector_store_eq _ _ _ hrow1]
    · simp [hcvlen]
    · intro r hne
      rw [List.getElem?_set_ne (Ne.symm hne), List.getElem?_set_ne (Ne.symm hne)]
      exact hother r hne
    · refine ⟨_, List.getElem?_set_self hrow1, ?_, ?_⟩
      · simp [hvlen]
      · intro m hm
        by_cases hmi : m = i
        · subst hmi
          refine ⟨?_, d, hd, ?_⟩
          · rw [List.getElem?_set_ne (by omega), List.getElem?_set_self h1]
          · rw [List.getElem?_set_self h2]
        · obtain ⟨ha, d', hd', hb⟩ := hvm m (by omega)
          refine ⟨?_, d', hd', ?_⟩
          · rw [List.getElem?_set_ne (by omega), List.getElem?_set_ne (by omega)]
            exact ha
          · rw [List.getElem?_set_ne (by omega), List.getElem?_set_ne (by omega)]
            exact hb

/-- The frame encoder succeeds and returns the eight row commands of the canvas: command
`r` has `2 * N` bytes, the row register `r + 1` at the even positions and the row bytes
of the matrices at the odd positions. -/
theorem image_to_command_vectors_spec (image : MatrixChainImage) :
    ∃ cv, image_to_command_vectors image = Except.ok cv ∧ cv.length = 8 ∧
      ∀ r, r < 8 → ∃ seq, cv[r]? = some seq ∧ seq.length = 2 * image.length ∧
        ∀ m, m < image.length →
          (∃ reg : Byte, seq[2 * m]? = some reg ∧ reg.val = r + 1) ∧
          ∃ d, image.get_row_of_matrix m r = Except.ok d ∧ seq[2 * m + 1]? = some d := by
  have key := forUpTo_invariant
    (fun n (cv : List (List Byte)) => cv.length = 8 ∧
      ∀ r, r < n → ∃ v, cv[r]? = some v ∧ is_row_command image r image.length v)
    MatrixImage.HEIGHT
    (fun row command_vectors => do
      let cv ← vector_store command_vectors row (List.replicate (2 * image.length) (0 : Byte))
      forUpTo image.length (fun matrix cv => do
        let v ← match cv[row]? with
          | some v => pure v
          | none => throw Error.out_of_range
        let v1 ← vector_store v (2 * matrix) (row_index_to_row_register row)
        let cv1 ← vector_store cv row v1
        let d ← image.get_row_of_matrix matrix row
        let v2 ← match cv1[row]? with
          | some v => pure v
          | none => throw Error.out_of_range
        let v3 ← vector_store v2 (2 * matrix + 1) d
        vector_store cv1 row v3) cv)
    (List.replicate MatrixImage.HEIGHT [])
    ⟨List.length_replicate _ _, fun r hr => absurd hr (Nat.not_lt_zero r)⟩
    (by
      intro i cv hi ⟨hcvlen, hrows⟩
      have hi8 : i < 8 := hi
      have hrow : i < cv.length := by omega
      obtain ⟨cv', h1, h2, h3, v, h4, h5⟩ := fill_row_command image i hi8
        (cv.set i (List.replicate (2 * image.length) (0 : Byte)))
        (List.replicate (2 * image.length) (0 : Byte))
        (by rw [List.length_set]; exact hcvlen) (List.getElem?_set_self hrow)
        (List.length_replicate _ _)
      refine ⟨cv', ?_, h2, ?_⟩
      · simp only [vector_store_eq _ _ _ hrow, bind_ok_eq]
        exact h1
      · intro r hr
        by_cases hri : r = i
        · subst hri
          exact ⟨v, h4, h5⟩
        · obtain ⟨w, hw1, hw2⟩ := hrows r (by omega)
          refine ⟨w, ?_, hw2⟩
          rw [h3 r hri, List.getElem?_set_ne (Ne.symm hri)]
          exact hw1)
  obtain ⟨cv, hcv, hlen, hrows⟩ := key
  refine ⟨cv, hcv, hlen, ?_⟩
  intro r hr
  obtain ⟨v, hv, hvlen, hvm⟩ := hrows r hr
  refine ⟨v, hv, hvlen, ?_⟩
  intro m hm
  obtain ⟨ha, hb⟩ := hvm m hm
  refine ⟨⟨_, ha, ?_⟩, hb⟩
  show (r + 1) % 256 = r + 1
  omega

/-- Claim C1. For every canvas of `N` matrices, `image_to_command_vectors` succeeds and
returns exactly 8 byte sequences; for every row `r` in `0..7`, sequence `r` has length
`2 * N` and, for every matrix index `m < N`, byte `2 * m` is the row register `r + 1` and
byte `2 * m + 1` is `get_row_of_matrix m r`. -/
theorem image_to_command_vectors_frame (image : MatrixChainImage) :
    ∃ cv, image_to_command_vectors image = Except.ok cv ∧ cv.length = 8 ∧
      ∀ r, r < 8 → ∃ seq, cv[r]? = some seq ∧ seq.length = 2 * image.length ∧
        ∀ m, m < image.length →
          (∃ reg : Byte, seq[2 * m]? = some reg ∧ reg.val = r + 1) ∧
          ∃ d, image.get_row_of_matrix m r = Except.ok d ∧ seq[2 * m + 1]? = some d :=
  image_to_command_vectors_spec image

/-- Witness for claim C1: for the two-matrix canvas whose rows 3 are `0xA0` and `0x0F`,
the command string of row 3 is `[0x04, 0xA0, 0x04, 0x0F]`. -/
theorem image_to_command_vectors_frame_witness :
    (∃ cv, image_to_command_vectors MatrixChainImage.two_chip_example = Except.ok cv ∧
      cv.length = 8 ∧
      ∀ r, r < 8 → ∃ seq, cv[r]? = some seq ∧
        seq.length = 2 * MatrixChainImage.two_chip_example.length ∧
        ∀ m, m < MatrixChainImage.two_chip_example.length →
          (∃ reg : Byte, seq[2 * m]? = some reg ∧ reg.val = r + 1) ∧
          ∃ d, MatrixChainImage.two_chip_example.get_row_of_matrix m r = Except.ok d ∧
            seq[2 * m + 1]? = some d) ∧
    (image_to_command_vectors MatrixChainImage.two_chip_example).map (fun cv => cv[3]?)
      = Except.ok (some [0x04, 0xA0, 0x04, 0x0F]) :=
  ⟨image_to_command_vectors_frame MatrixChainImage.two_chip_example, rfl⟩

end MAX7219Chain

/-! ## Glyph and MatrixChainImage: pixels, drawing text -/

namespace Glyph

theorem size_t_sub_of_le (a b : Nat) (h : b ≤ a) : size_t_sub a b = a - b := by
  unfold size_t_sub
  rw [if_pos h]

/-- Reading a pixel inside the 8x8 bitmap of a glyph succeeds and returns the pixel as
`0` or `1`. -/
theorem glyph_get_pixel_eq (G : Glyph) (row col : Nat) (hr : row < 8) (hc : col < 8) :
    G.get_pixel row col = Except.ok (bit_value (G.px row col)) := by
  unfold get_pixel px
  have hs : size_t_sub (WIDTH_MAX - 1) col = 7 - col :=
    size_t_sub_of_le _ _ (by unfold WIDTH_MAX; omega)
  simp only [hs]
  rw [if_neg (by omega), dif_pos (show row < HEIGHT from hr), dif_pos hr, pixel_byte_eq]
  simp [hc]
  rfl

end Glyph

theorem MatrixImage.WIDTH_eq : MatrixImage.WIDTH = 8 := rfl

theorem MatrixImage.HEIGHT_eq : MatrixImage.HEIGHT = 8 := rfl

namespace MatrixChainImage

theorem matrices_get_none (s : MatrixChainImage) (m : Nat) (h : s.length ≤ m) :
    s.matrices[m]? = none := by
  apply List.getElem?_eq_none
  rw [s.size_eq]; exact h

theorem px_of_matrix (s : MatrixChainImage) (row col : Nat) (M : MatrixImage)
    (h : s.matrices[col / 8]? = some M) : s.px row col = M.px row (col % 8) := by
  unfold px
  rw [h]

theorem chain_px_col_ge (s : MatrixChainImage) (row col : Nat) (h : 8 * s.length ≤ col) :
    s.px row col = false := by
  unfold px
  rw [matrices_get_none s (col / 8) (by omega)]

theorem chain_px_row_ge (s : MatrixChainImage) (row col : Nat) (h : 8 ≤ row) :
    s.px row col = false := by
  unfold px
  split
  · exact MatrixImage.px_row_ge _ _ _ h
  · rfl

/-- Reading a pixel inside the canvas succeeds and returns the pixel as `0` or `1`. -/
theorem chain_get_pixel_eq (s : MatrixChainImage) (row col : Nat) (hr : row < 8)
    (hc : col < 8 * s.length) :
    s.get_pixel row col = Except.ok (bit_value (s.px row col)) := by
  obtain ⟨M, hM⟩ := matrices_get s (col / 8) (by omega)
  unfold get_pixel get_pixel_of_matrix
  rw [MatrixImage.WIDTH_eq, at_matrix_eq s _ M hM, bind_ok_eq, px_of_matrix s row col M hM]
  exact MatrixImage.get_pixel_eq M row _ hr (Nat.mod_lt _ (by decide))

/-- Replacing matrix `idx` succeeds; length and cursor are kept and only the pixels of the
columns of that matrix change. -/
theorem store_matrix_spec (s : MatrixChainImage) (idx : Nat) (M : MatrixImage)
    (h : idx < s.length) :
    ∃ s', s.store_matrix idx M = Except.ok s' ∧ s'.length = s.length ∧
      s'.cursor_position = s.cursor_position ∧
      s'.matrices = s.matrices.set idx M ∧
      ∀ r c, s'.px r c = if c / 8 = idx then M.px r (c % 8) else s.px r c := by
  have h' : idx < s.matrices.length := by rw [s.size_eq]; exact h
  refine ⟨⟨s.length, s.matrices.set idx M, s.cursor_position,
      (List.length_set _ _ _).trans s.size_eq⟩, ?_, rfl, rfl, rfl, ?_⟩
  · unfold store_matrix
    rw [if_pos h']
    rfl
  · intro r c
    unfold px
    simp only
    by_cases hc : c / 8 = idx
    · rw [if_pos hc, hc, List.getElem?_set_self h']
    · rw [if_neg hc, List.getElem?_set_ne (Ne.symm hc)]

/-- Writing a pixel inside the canvas succeeds; afterwards that pixel is on exactly when
the value written is non-zero; every other pixel, the length and the cursor are
unchanged. -/
theorem chain_set_pixel_spec (s : MatrixChainImage) (row col : Nat) (v : Byte) (hr : row < 8)
    (hc : col < 8 * s.length) :
    ∃ s', s.set_pixel row col v = Except.ok s' ∧ s'.length = s.length ∧
      s'.cursor_position = s.cursor_position ∧
      ∀ r c, s'.px r c = if r = row ∧ c = col then decide (v ≠ 0) else s.px r c := by
  obtain ⟨M, hM⟩ := matrices_get s (col / 8) (by omega)
  obtain ⟨M', hM', hpx⟩ := MatrixImage.set_pixel_spec M row (col % 8) v hr
    (Nat.mod_lt _ (by decide))
  obtain ⟨s', hs', hlen, hcur, _, hspx⟩ := store_matrix_spec s (col / 8) M' (by omega)
  refine ⟨s', ?_, hlen, hcur, ?_⟩
  · unfold set_pixel set_pixel_of_matrix
    rw [MatrixImage.WIDTH_eq, at_matrix_eq s _ M hM, bind_ok_eq, hM', bind_ok_eq]
    exact hs'
  · intro r c
    rw [hspx r c]
    by_cases hcm : c / 8 = col / 8
    · rw [if_pos hcm, hpx r (c % 8), px_of_matrix s r c M (hcm ▸ hM)]
      by_cases h1 : r = row
      · by_cases h2 : c = col
        · subst h2; simp [h1]
        · have : c % 8 ≠ col % 8 := by omega
          simp [h1, h2, this]
      · simp [h1]
    · rw [if_neg hcm]
      have : c ≠ col := fun h => hcm (by rw [h])
      simp [this]


/-- One row of `draw_character`: the pixels of row `i` in the columns
`position .. position + w - 1` receive the glyph's pixels, everything else is unchanged. -/
theorem draw_character_row (s0 : MatrixChainImage) (font : Font) (cp : Byte)
    (position i w : Nat) (hi : i < 8) (hw : w ≤ 8) (hfit : position + w ≤ 8 * s0.length) :
    ∃ s', forUpTo w (fun j s => do
              let p ← font.get_pixel cp i j
              s.set_pixel i (position + j) p) s0 = Except.ok s' ∧
      s'.length = s0.length ∧ s'.cursor_position = s0.cursor_position ∧
      ∀ r c, s'.px r c =
        if r = i ∧ position ≤ c ∧ c < position + w then (font.font_glyphs cp).px i (c - position)
        else s0.px r c := by
  apply forUpTo_invariant
    (fun n (s : MatrixChainImage) => s.length = s0.length ∧
      s.cursor_position = s0.cursor_position ∧
      ∀ r c, s.px r c =
        if r = i ∧ position ≤ c ∧ c < position + n then (font.font_glyphs cp).px i (c - position)
        else s0.px r c)
  · refine ⟨rfl, rfl, ?_⟩
    intro r c
    have : ¬ (r = i ∧ position ≤ c ∧ c < position + 0) := by omega
    rw [if_neg this]
  · intro j s hj ⟨hlen, hcur, hpx⟩
    have hg : font.get_pixel cp i j = Except.ok (bit_value ((font.font_glyphs cp).px i j)) :=
      Glyph.glyph_get_pixel_eq _ i j hi (by omega)
    obtain ⟨s', hs', hlen', hcur', hpx'⟩ := chain_set_pixel_spec s i (position + j)
      (bit_value ((font.font_glyphs cp).px i j)) hi (by rw [hlen]; omega)
    refine ⟨s', ?_, hlen'.trans hlen, hcur'.trans hcur, ?_⟩
    · show (font.get_pixel cp i j >>= fun p => s.set_pixel i (position + j) p) = _
      rw [hg, bind_ok_eq, hs']
    · intro r c
      rw [hpx' r c, hpx r c, MatrixImage.decide_bit_value_ne_zero]
      by_cases h1 : r = i
      · by_cases h2 : c = position + j
        · subst h2
          have : position + j - position = j := by omega
          simp [h1, this]
        · by_cases h3 : position ≤ c ∧ c < position + j
          · have : position ≤ c ∧ c < position + (j + 1) := by omega
            simp [h1, h2, h3, this]
          · have : ¬ (position ≤ c ∧ c < position + (j + 1)) := by omega
            simp [h1, h2, h3, this]
      · simp [h1]

/-- The method `draw_character(code_point, position, font)` for a glyph that fits: the
columns `position .. position + width - 1` receive the glyph, everything else (other
pixels, length, cursor) is unchanged. -/
theorem draw_character_at_spec (s0 : MatrixChainImage) (font : Font) (cp : Byte)
    (position : Nat) (hw : font.get_glyph_width cp ≤ 8)
    (hfit : position + font.get_glyph_width cp ≤ 8 * s0.length) :
    ∃ s', s0.draw_character_at cp position font = Except.ok s' ∧
      s'.length = s0.length ∧ s'.cursor_position = s0.cursor_position ∧
      ∀ r c, s'.px r c =
        if r < 8 ∧ position ≤ c ∧ c < position + font.get_glyph_width cp
        then (font.font_glyphs cp).px r (c - position)
        else s0.px r c := by
  unfold draw_character_at
  apply forUpTo_invariant
    (fun n (s : MatrixChainImage) => s.length = s0.length ∧
      s.cursor_position = s0.cursor_position ∧
      ∀ r c, s.px r c =
        if r < n ∧ position ≤ c ∧ c < position + font.get_glyph_width cp
        then (font.font_glyphs cp).px r (c - position)
        else s0.px r c)
  · refine ⟨rfl, rfl, ?_⟩
    intro r c
    have : ¬ (r < 0 ∧ position ≤ c ∧ c < position + font.get_glyph_width cp) := by omega
    rw [if_neg this]
  · intro i s hi ⟨hlen, hcur, hpx⟩
    have hi8 : i < 8 := hi
    obtain ⟨s', hs', hlen', hcur', hpx'⟩ := draw_character_row s font cp position i
      (font.get_glyph_width cp) hi8 hw (by rw [hlen]; exact hfit)
    refine ⟨s', hs', hlen'.trans hlen, hcur'.trans hcur, ?_⟩
    intro r c
    rw [hpx' r c, hpx r c]
    by_cases h1 : r = i
    · subst h1
      by_cases h3 : position ≤ c ∧ c < position + font.get_glyph_width cp
      · simp [h3]
      · simp [h3]
    · by_cases h2 : r < i
      · have : r < i + 1 := by omega
        simp [h1, h2, this]
      · have : ¬ r < i + 1 := by omega
        simp [h1, h2, this]

/-- The method `draw_character(code_point, font)` for a glyph that fits at the cursor. -/
theorem draw_character_spec (s0 : MatrixChainImage) (font : Font) (cp : Byte)
    (hw : font.get_glyph_width cp ≤ 8)
    (hfit : s0.cursor_position + font.get_glyph_width cp ≤ 8 * s0.length) :
    ∃ s', s0.draw_character cp font = Except.ok s' ∧
      s'.length = s0.length ∧
      s'.cursor_position = s0.cursor_position + font.get_glyph_width cp ∧
      ∀ r c, s'.px r c =
        if r < 8 ∧ s0.cursor_position ≤ c ∧ c < s0.cursor_position + font.get_glyph_width cp
        then (font.font_glyphs cp).px r (c - s0.cursor_position)
        else s0.px r c := by
  obtain ⟨s1, hs1, hlen, hcur, hpx⟩ :=
    draw_character_at_spec s0 font cp s0.cursor_position hw hfit
  refine ⟨{ s1 with cursor_position := s1.cursor_position + font.get_glyph_width cp },
    ?_, hlen, ?_, hpx⟩
  · unfold draw_character
    rw [hs1, bind_ok_eq]
    rfl
  · show s1.cursor_position + _ = _
    rw [hcur]


theorem text_width_nil (font : Font) : font.text_width [] = 0 := rfl

theorem text_width_cons (font : Font) (ch : Byte) (rest : List Byte) :
    font.text_width (ch :: rest) = font.get_glyph_width ch + font.text_width rest := by
  unfold Font.text_width
  rw [List.map_cons, List.sum_cons]

theorem remaining_space_eq (s : MatrixChainImage) (h : s.cursor_position ≤ 8 * s.length) :
    size_t_sub s.get_pixel_width s.cursor_position = 8 * s.length - s.cursor_position := by
  unfold get_pixel_width
  rw [MatrixImage.WIDTH_eq, Nat.mul_comm, Glyph.size_t_sub_of_le _ _ h]

/-- The loop of `draw_text`, for a font whose glyphs are at most 8 wide and a canvas whose
cursor is inside the canvas: the loop succeeds; it stops after `i` characters, all of which
fitted, and the next character (if any) does not fit; the cursor has advanced by the widths
of the `i` characters; each of them is on the canvas at its column; and the pixels left of
the initial cursor or right of the final cursor are unchanged. -/
theorem draw_text_loop_spec (font : Font) (hf : ∀ c, font.get_glyph_width c ≤ 8) :
    ∀ (text : List Byte) (s : MatrixChainImage), s.cursor_position ≤ 8 * s.length →
      ∃ i s', i ≤ text.length ∧
        draw_text_loop font text s = Except.ok (text.drop i, s') ∧
        s'.length = s.length ∧
        s'.cursor_position = s.cursor_position + font.text_width (text.take i) ∧
        s'.cursor_position ≤ 8 * s.length ∧
        (∀ j ch, j < i → text[j]? = some ch →
          font.get_glyph_width ch
            ≤ 8 * s.length - (s.cursor_position + font.text_width (text.take j))) ∧
        (∀ ch, text[i]? = some ch →
          font.get_glyph_width ch > 8 * s.length - s'.cursor_position) ∧
        (∀ j ch, j < i → text[j]? = some ch → ∀ r x, r < 8 → x < font.get_glyph_width ch →
          s'.px r (s.cursor_position + font.text_width (text.take j) + x)
            = (font.font_glyphs ch).px r x) ∧
        (∀ r c, (c < s.cursor_position ∨ s'.cursor_position ≤ c) → s'.px r c = s.px r c) := by
  intro text
  induction text with
  | nil =>
    intro s hs
    refine ⟨0, s, Nat.le_refl _, rfl, rfl, rfl, hs, ?_, ?_, ?_, fun _ _ _ => rfl⟩
    · intro j ch hj; omega
    · intro ch h; simp at h
    · intro j ch hj; omega
  | cons ch rest ih =>
    intro s hs
    by_cases hfit : font.get_glyph_width ch > 8 * s.length - s.cursor_position
    · refine ⟨0, s, Nat.zero_le _, ?_, rfl, rfl, hs, ?_, ?_, ?_, fun _ _ _ => rfl⟩
      · simp only [draw_text_loop]
        rw [remaining_space_eq s hs, if_pos hfit]
        rfl
      · intro j ch hj; omega
      · intro ch' h
        simp at h
        subst h
        exact hfit
      · intro j ch hj; omega
    · have hw := hf ch
      have hfit' : s.cursor_position + font.get_glyph_width ch ≤ 8 * s.length := by omega
      obtain ⟨s1, hs1, hlen1, hcur1, hpx1⟩ := draw_character_spec s font ch hw hfit'
      obtain ⟨i, s', hi, hrun, hlen, hcur, hcurle, hfits, hstop, hglyph, hframe⟩ :=
        ih s1 (by rw [hcur1, hlen1]; exact hfit')
      refine ⟨i + 1, s', by simp; exact hi, ?_, hlen.trans hlen1, ?_, ?_, ?_, ?_, ?_, ?_⟩
      · simp only [draw_text_loop]
        rw [remaining_space_eq s hs, if_neg hfit, hs1, bind_ok_eq, hrun]
        rfl
      · rw [hcur, hcur1, List.take_succ_cons, text_width_cons]
        omega
      · rw [← hlen1]; exact hcurle
      · intro j c hj hc
        cases j with
        | zero =>
          simp at hc
          subst hc
          simp [text_width_nil]
          omega
        | succ j' =>
          simp at hc
          have := hfits j' c (by omega) hc
          rw [List.take_succ_cons, text_width_cons]
          rw [hlen1, hcur1] at this
          omega
      · intro c hc
        simp at hc
        have := hstop c hc
        rw [hlen1] at this
        exact this
      · intro j c hj hc r x hr hx
        cases j with
        | zero =>
          simp at hc
          subst hc
          simp only [List.take_zero, text_width_nil, Nat.add_zero]
          rw [hframe r _ (Or.inl (by rw [hcur1]; omega)), hpx1 r _]
          have h1 : r < 8 ∧ s.cursor_position ≤ s.cursor_position + x ∧
              s.cursor_position + x < s.cursor_position + font.get_glyph_width ch := by
            omega
          rw [if_pos h1]
          congr 1
          omega
        | succ j' =>
          simp at hc
          have := hglyph j' c (by omega) hc r x hr hx
          rw [List.take_succ_cons, text_width_cons]
          rw [hcur1] at this
          rw [← this]
          congr 1
          omega
      · intro r c hc
        have h1 : c < s1.cursor_position ∨ s'.cursor_position ≤ c := by
          rw [hcur1]
          rcases hc with hc | hc
          · left; omega
          · right; exact hc
        rw [hframe r c h1, hpx1 r c]
        have h2 : ¬ (r < 8 ∧ s.cursor_position ≤ c ∧
            c < s.cursor_position + font.get_glyph_width ch) := by
          rcases hc with hc | hc
          · omega
          · rw [hcur, hcur1] at hc; omega
        rw [if_neg h2]


theorem get_pixel_width_eq (s : MatrixChainImage) : s.get_pixel_width = 8 * s.length := by
  unfold get_pixel_width
  rw [MatrixImage.WIDTH_eq, Nat.mul_comm]

/-- Claim C9. For every canvas of pixel width `W = 8 * N` whose cursor `c0` is at most
`W`, every fully loaded font (all glyphs present, widths at most 8 as the `Glyph`
constructor guarantees) and every text: `draw_text` succeeds, consumes the longest prefix
`text[0..i)` such that each character `j < i` has glyph width at most
`W - (c0 + sum of the widths of text[0..j))`, and returns exactly the suffix `text[i..]`.
Hence consumed ++ leftover = text, the leftover is empty iff every character fitted, and
when the leftover is non-empty the width of its first character's glyph exceeds `W` minus
the final cursor. -/
theorem draw_text_consumes_longest_fit (s : MatrixChainImage) (font : Font)
    (text : List Byte) (hcursor : s.cursor_position ≤ s.get_pixel_width)
    (hfont : ∀ c, font.get_glyph_width c ≤ 8) :
    ∃ i s', i ≤ text.length ∧ s.draw_text text font = Except.ok (text.drop i, s') ∧
      (∀ j ch, j < i → text[j]? = some ch →
        font.get_glyph_width ch
          ≤ s.get_pixel_width - (s.cursor_position + font.text_width (text.take j))) ∧
      (∀ i', i' ≤ text.length →
        (∀ j ch, j < i' → text[j]? = some ch →
          font.get_glyph_width ch
            ≤ s.get_pixel_width - (s.cursor_position + font.text_width (text.take j))) →
        i' ≤ i) ∧
      text.take i ++ text.drop i = text ∧
      (text.drop i = [] ↔
        ∀ j ch, text[j]? = some ch →
          font.get_glyph_width ch
            ≤ s.get_pixel_width - (s.cursor_position + font.text_width (text.take j))) ∧
      (∀ ch rest, text.drop i = ch :: rest →
        font.get_glyph_width ch > s.get_pixel_width - s'.cursor_position) := by
  rw [get_pixel_width_eq] at hcursor ⊢
  obtain ⟨i, s', hi, hrun, _, hcur, _, hfits, hstop, _, _⟩ :=
    draw_text_loop_spec font hfont text s hcursor
  have hmax : ∀ i', i' ≤ text.length →
      (∀ j ch, j < i' → text[j]? = some ch →
        font.get_glyph_width ch
          ≤ 8 * s.length - (s.cursor_position + font.text_width (text.take j))) →
      i' ≤ i := by
    intro i' hi' hall
    by_contra hlt
    have hil : i < text.length := by omega
    have h1 := hall i text[i] (by omega) (List.getElem?_eq_getElem hil)
    have h2 := hstop text[i] (List.getElem?_eq_getElem hil)
    rw [hcur] at h2
    omega
  refine ⟨i, s', hi, hrun, hfits, hmax, List.take_append_drop i text, ?_, ?_⟩
  · constructor
    · intro hnil j ch hj
      have hlen : text.length ≤ i := by
        have := congrArg List.length hnil
        simp at this
        omega
      have hjl : j < text.length := by
        rcases List.getElem?_eq_some.1 hj with ⟨h, _⟩
        exact h
      exact hfits j ch (by omega) hj
    · intro hall
      have := hmax text.length (Nat.le_refl _) (fun j ch _ hj => hall j ch hj)
      exact List.drop_eq_nil_of_le this
  · intro ch rest hdrop
    apply hstop ch
    have : (text.drop i)[0]? = some ch := by rw [hdrop]; simp
    rw [List.getElem?_drop] at this
    simpa using this

/-- Witness for claim C9: on a blank one-matrix canvas with the example font, the text
`[4, 2, 7]` (glyph widths 5, 3 and 8) is drawn up to the third character, which is
returned. -/
theorem draw_text_consumes_longest_fit_witness :
    (new 1).cursor_position ≤ (new 1).get_pixel_width ∧
    (∀ c, Font.example_font.get_glyph_width c ≤ 8) ∧
    (∃ i s', i ≤ [(4 : Byte), 2, 7].length ∧
      (new 1).draw_text [4, 2, 7] Font.example_font
        = Except.ok ([(4 : Byte), 2, 7].drop i, s') ∧
      (∀ j ch, j < i → [(4 : Byte), 2, 7][j]? = some ch →
        Font.example_font.get_glyph_width ch
          ≤ (new 1).get_pixel_width - ((new 1).cursor_position
              + Font.example_font.text_width ([(4 : Byte), 2, 7].take j))) ∧
      (∀ i', i' ≤ [(4 : Byte), 2, 7].length →
        (∀ j ch, j < i' → [(4 : Byte), 2, 7][j]? = some ch →
          Font.example_font.get_glyph_width ch
            ≤ (new 1).get_pixel_width - ((new 1).cursor_position
                + Font.example_font.text_width ([(4 : Byte), 2, 7].take j))) →
        i' ≤ i) ∧
      [(4 : Byte), 2, 7].take i ++ [(4 : Byte), 2, 7].drop i = [(4 : Byte), 2, 7] ∧
      ([(4 : Byte), 2, 7].drop i = [] ↔
        ∀ j ch, [(4 : Byte), 2, 7][j]? = some ch →
          Font.example_font.get_glyph_width ch
            ≤ (new 1).get_pixel_width - ((new 1).cursor_position
                + Font.example_font.text_width ([(4 : Byte), 2, 7].take j))) ∧
      (∀ ch rest, [(4 : Byte), 2, 7].drop i = ch :: rest →
        Font.example_font.get_glyph_width ch
          > (new 1).get_pixel_width - s'.cursor_position)) ∧
    ((new 1).draw_text [4, 2, 7] Font.example_font).map Prod.fst = Except.ok [7] :=
  have h1 : (new 1).cursor_position ≤ (new 1).get_pixel_width := by decide
  have h2 : ∀ c, Font.example_font.get_glyph_width c ≤ 8 := fun c => by
    show c.val % 8 + 1 ≤ 8
    omega
  ⟨h1, h2, draw_text_consumes_longest_fit (new 1) Font.example_font [4, 2, 7] h1 h2, rfl⟩

/-- Claim C10. For every canvas with cursor `c0 ≤ 8 * N`, every fully loaded font and every
text: `draw_text` succeeds; afterwards the cursor equals `c0` plus the sum of the glyph
widths of the consumed characters, and for each consumed character `j`, which starts at
column `p_j = c0 + sum of the widths of the consumed characters before it`, every row
`r` in `0..7` and every offset `x < width(text[j])`, the canvas pixel `(r, p_j + x)`
equals the font pixel `get_pixel(text[j], r, x)`. -/
theorem draw_text_renders_glyphs (s : MatrixChainImage) (font : Font)
    (text : List Byte) (hcursor : s.cursor_position ≤ s.get_pixel_width)
    (hfont : ∀ c, font.get_glyph_width c ≤ 8) :
    ∃ i s', i ≤ text.length ∧ s.draw_text text font = Except.ok (text.drop i, s') ∧
      s'.cursor_position = s.cursor_position + font.text_width (text.take i) ∧
      ∀ j ch, j < i → text[j]? = some ch → ∀ r x, r < 8 → x < font.get_glyph_width ch →
        ∃ p, font.get_pixel ch r x = Except.ok p ∧
          s'.get_pixel r (s.cursor_position + font.text_width (text.take j) + x)
            = Except.ok p := by
  rw [get_pixel_width_eq] at hcursor
  obtain ⟨i, s', hi, hrun, hlen, hcur, hcurle, hfits, _, hglyph, _⟩ :=
    draw_text_loop_spec font hfont text s hcursor
  refine ⟨i, s', hi, hrun, hcur, ?_⟩
  intro j ch hj hch r x hr hx
  have hfit := hfits j ch hj hch
  refine ⟨bit_value ((font.font_glyphs ch).px r x),
    Glyph.glyph_get_pixel_eq _ r x hr (by have := hfont ch; omega), ?_⟩
  rw [chain_get_pixel_eq s' r _ hr (by rw [hlen]; omega), hglyph j ch hj hch r x hr hx]

/-- Witness for claim C10: the text `[4, 2, 7]` drawn with the example font on a blank
one-matrix canvas; the second glyph starts at column 5 and the cursor ends at column 8. -/
theorem draw_text_renders_glyphs_witness :
    (new 1).cursor_position ≤ (new 1).get_pixel_width ∧
    (∀ c, Font.example_font.get_glyph_width c ≤ 8) ∧
    (∃ i s', i ≤ [(4 : Byte), 2, 7].length ∧
      (new 1).draw_text [4, 2, 7] Font.example_font
        = Except.ok ([(4 : Byte), 2, 7].drop i, s') ∧
      s'.cursor_position = (new 1).cursor_position
        + Font.example_font.text_width ([(4 : Byte), 2, 7].take i) ∧
      ∀ j ch, j < i → [(4 : Byte), 2, 7][j]? = some ch →
        ∀ r x, r < 8 → x < Font.example_font.get_glyph_width ch →
          ∃ p, Font.example_font.get_pixel ch r x = Except.ok p ∧
            s'.get_pixel r ((new 1).cursor_position
              + Font.example_font.text_width ([(4 : Byte), 2, 7].take j) + x)
              = Except.ok p) ∧
    ((new 1).draw_text [4, 2, 7] Font.example_font).map (fun r => r.2.cursor_position)
      = Except.ok 8 ∧
    ((new 1).draw_text [4, 2, 7] Font.example_font).bind (fun r => r.2.get_row_of_matrix 0 3)
      = Except.ok 0xFF :=
  have h1 : (new 1).cursor_position ≤ (new 1).get_pixel_width := by decide
  have h2 : ∀ c, Font.example_font.get_glyph_width c ≤ 8 := fun c => by
    show c.val % 8 + 1 ≤ 8
    omega
  ⟨h1, h2, draw_text_renders_glyphs (new 1) Font.example_font [4, 2, 7] h1 h2, rfl, rfl⟩

end MatrixChainImage

/-! ## Scrolling -/

theorem bit_value_testBit (f : Bool) (j : Nat) :
    (bit_value f).val.testBit j = (decide (j = 0) && f) := by
  cases f
  · simp [bit_value]
  · have h1 : (bit_value true).val = 2 ^ 0 := rfl
    rw [h1, Nat.testBit_two_pow]
    simp [eq_comm]

theorem msb_eq (v : Byte) : toByte (v.val >>> (MatrixImage.WIDTH - 1)) = bit_value (v.val.testBit 7) := by
  apply byte_ext
  intro j hj
  rw [testBit_toByte, Nat.testBit_shiftRight, bit_value_testBit, MatrixImage.WIDTH_eq]
  by_cases h0 : j = 0
  · subst h0; simp
  · rw [byte_testBit_high v (8 - 1 + j) (by omega)]
    simp [h0]

namespace MatrixImage

/-- The method `left_shift_row` on a row inside the image with a fill bit `0` or `1`: it
returns the old left-most pixel of the row; in the row every pixel takes the value of its
right neighbour and the right-most pixel becomes the fill bit; other rows are unchanged. -/
theorem left_shift_row_spec (I : MatrixImage) (row : Nat) (f : Bool) (hr : row < 8) :
    ∃ I', I.left_shift_row row (bit_value f) = Except.ok (bit_value (I.px row 0), I') ∧
      ∀ r c, I'.px r c =
        if r = row ∧ c < 8 then (if c < 7 then I.px row (c + 1) else f) else I.px r c := by
  unfold left_shift_row
  rw [at_row_eq I row hr, bind_ok_eq]
  simp only [store_row_eq _ _ _ hr, bind_ok_eq]
  refine ⟨⟨fun i => if i = ⟨row, hr⟩ then
      toByte ((toByte ((toByte ((I.image_data ⟨row, hr⟩).val <<< 1)).val
        ||| (bit_value f).val)).val &&& 0xFF)
      else I.image_data i⟩, ?_, ?_⟩
  · rw [msb_eq, px_eq I row 0 hr (by omega)]
    rfl
  · intro r c
    by_cases hr8 : r < 8
    · by_cases hc8 : c < 8
      · rw [px_eq _ _ _ hr8 hc8]
        by_cases hrr : r = row
        · subst hrr
          simp only [if_true, true_and, hc8]
          rw [testBit_shifted, bit_value_testBit, bit_value_testBit]
          by_cases hc7 : c < 7
          · have h1 : ¬ (7 - c = 0) := by omega
            have h2 : 7 - c - 1 = 7 - (c + 1) := by omega
            rw [px_eq I r (c + 1) hr8 (by omega)]
            simp [h1, hc7, h2]
            intro _; omega
          · have h1 : 7 - c = 0 := by omega
            simp [h1, hc7]
        · have : (⟨r, hr8⟩ : Fin 8) ≠ ⟨row, hr⟩ := by
            intro h; exact hrr (Fin.mk.inj h)
          rw [px_eq _ _ _ hr8 hc8]
          simp [hrr, this]
      · have : ¬ (r = row ∧ c < 8) := by omega
        rw [if_neg this, px_col_ge _ _ _ (by omega), px_col_ge _ _ _ (by omega)]
    · have : ¬ (r = row ∧ c < 8) := by omega
      rw [if_neg this, px_row_ge _ _ _ (by omega), px_row_ge _ _ _ (by omega)]

end MatrixImage

namespace MatrixChainImage

/-- The inner loop of `left_shift_image` for one row and a fill bit `0` or `1`: it
succeeds; in that row every pixel of the canvas takes the value of its right neighbour and
the last pixel becomes the fill bit; everything else is unchanged. -/
theorem left_shift_row_of_chain_spec (s : MatrixChainImage) (row : Nat) (f : Bool)
    (hr : row < 8) :
    ∃ st, s.left_shift_row_of_chain row (bit_value f) = Except.ok st ∧
      st.2.length = s.length ∧ st.2.cursor_position = s.cursor_position ∧
      ∀ r c, st.2.px r c =
        if r = row ∧ c < 8 * s.length
        then (if c + 1 < 8 * s.length then s.px row (c + 1) else f)
        else s.px r c := by
  have key := forDownFrom_invariant
    (fun j (st : Byte × MatrixChainImage) =>
      st.2.length = s.length ∧ st.2.cursor_position = s.cursor_position ∧
      st.1 = bit_value (if j < s.length then s.px row (8 * j) else f) ∧
      ∀ r c, st.2.px r c =
        if r = row ∧ 8 * j ≤ c ∧ c < 8 * s.length
        then (if c + 1 < 8 * s.length then s.px row (c + 1) else f)
        else s.px r c)
    s.matrices.length
    (fun idx st => do
      let m ← st.2.at_matrix idx
      let r ← m.left_shift_row row st.1
      let s ← st.2.store_matrix idx r.2
      pure (toByte r.1.val, s))
    (bit_value f, s)
    (by
      refine ⟨rfl, rfl, ?_, ?_⟩
      · rw [s.size_eq, if_neg (Nat.lt_irrefl _)]
      · intro r c
        rw [s.size_eq]
        have : ¬ (r = row ∧ 8 * s.length ≤ c ∧ c < 8 * s.length) := by omega
        rw [if_neg this])
    (by
      intro i ⟨fb, st⟩ hi ⟨hlen, hcur, hfb, hpx⟩
      rw [s.size_eq] at hi
      simp only at hlen hcur hfb hpx
      obtain ⟨M, hM⟩ := matrices_get st i (by rw [hlen]; exact hi)
      have hMpx : ∀ r c', c' < 8 → M.px r c' = s.px r (8 * i + c') := by
        intro r c' hc'
        have h1 := px_of_matrix st r (8 * i + c') M
          (by rw [show (8 * i + c') / 8 = i by omega]; exact hM)
        rw [show (8 * i + c') % 8 = c' by omega] at h1
        rw [← h1, hpx r (8 * i + c')]
        have : ¬ (r = row ∧ 8 * (i + 1) ≤ 8 * i + c' ∧ 8 * i + c' < 8 * s.length) := by
          omega
        rw [if_neg this]
      obtain ⟨M', hM', hpxM'⟩ := MatrixImage.left_shift_row_spec M row
        (if i + 1 < s.length then s.px row (8 * (i + 1)) else f) hr
      obtain ⟨st', hst', hlen', hcur', _, hpx'⟩ := store_matrix_spec st i M'
        (by rw [hlen]; exact hi)
      refine ⟨(bit_value (M.px row 0), st'), ?_, hlen'.trans hlen, hcur'.trans hcur, ?_, ?_⟩
      · simp only [at_matrix_eq st i M hM, bind_ok_eq, hfb, hM', hst', toByte_of_byte]
        rfl
      · simp only
        rw [if_pos hi, hMpx row 0 (by omega)]
        rfl
      · intro r c
        simp only
        rw [hpx' r c]
        by_cases hci : c / 8 = i
        · rw [if_pos hci, hpxM' r (c % 8)]
          have hc8 : c % 8 < 8 := Nat.mod_lt _ (by decide)
          by_cases hrr : r = row
          · subst hrr
            have h1 : r = r ∧ c % 8 < 8 := ⟨rfl, hc8⟩
            have h2 : r = r ∧ 8 * i ≤ c ∧ c < 8 * s.length := by omega
            rw [if_pos h1, if_pos h2]
            by_cases h7 : c % 8 < 7
            · have h3 : c + 1 < 8 * s.length := by omega
              rw [if_pos h7, if_pos h3, hMpx r (c % 8 + 1) (by omega)]
              congr 1
              omega
            · rw [if_neg h7]
              have h4 : c + 1 = 8 * (i + 1) := by omega
              rw [h4]
              by_cases h5 : i + 1 < s.length
              · have : 8 * (i + 1) < 8 * s.length := by omega
                rw [if_pos h5, if_pos this]
              · have : ¬ 8 * (i + 1) < 8 * s.length := by omega
                rw [if_neg h5, if_neg this]
          · have h1 : ¬ (r = row ∧ c % 8 < 8) := fun h => hrr h.1
            have h2 : ¬ (r = row ∧ 8 * i ≤ c ∧ c < 8 * s.length) := fun h => hrr h.1
            rw [if_neg h1, if_neg h2, hMpx r (c % 8) hc8]
            congr 1
            omega
        · rw [if_neg hci, hpx r c]
          by_cases h1 : r = row ∧ 8 * (i + 1) ≤ c ∧ c < 8 * s.length
          · have h2 : r = row ∧ 8 * i ≤ c ∧ c < 8 * s.length := by omega
            rw [if_pos h1, if_pos h2]
          · have h2 : ¬ (r = row ∧ 8 * i ≤ c ∧ c < 8 * s.length) := by omega
            rw [if_neg h1, if_neg h2])
  obtain ⟨st, hst, hlen, hcur, _, hpx⟩ := key
  refine ⟨st, hst, hlen, hcur, ?_⟩
  intro r c
  rw [hpx r c]
  by_cases h1 : r = row ∧ c < 8 * s.length
  · have h2 : r = row ∧ 8 * 0 ≤ c ∧ c < 8 * s.length := by omega
    rw [if_pos h1, if_pos h2]
  · have h2 : ¬ (r = row ∧ 8 * 0 ≤ c ∧ c < 8 * s.length) := by omega
    rw [if_neg h1, if_neg h2]

/-- The method `left_shift_image`: it succeeds; the length is kept, the cursor is
decremented unless it is `0`, and every pixel takes the value of its right neighbour
(which is off beyond the right edge). -/
theorem left_shift_image_spec (s : MatrixChainImage) :
    ∃ s', s.left_shift_image = Except.ok s' ∧ s'.length = s.length ∧
      s'.cursor_position = s.cursor_position - 1 ∧
      ∀ r c, s'.px r c = s.px r (c + 1) := by
  have key := forUpTo_invariant
    (fun n (st : MatrixChainImage) =>
      st.length = s.length ∧ st.cursor_position = s.cursor_position ∧
      ∀ r c, st.px r c = if r < n then s.px r (c + 1) else s.px r c)
    MatrixImage.HEIGHT
    (fun row s => do
      let fill_bit : Byte := 0
      let r ← s.left_shift_row_of_chain row fill_bit
      pure r.2)
    s ⟨rfl, rfl, fun r c => by rw [if_neg (Nat.not_lt_zero r)]⟩
    (by
      intro i st hi ⟨hlen, hcur, hpx⟩
      have hi8 : i < 8 := hi
      obtain ⟨st', hst', hlen', hcur', hpx'⟩ := left_shift_row_of_chain_spec st i false hi8
      refine ⟨st'.2, ?_, hlen'.trans hlen, hcur'.trans hcur, ?_⟩
      · show (st.left_shift_row_of_chain i (bit_value false) >>= fun r => pure r.2) = _
        rw [hst', bind_ok_eq]
        rfl
      · intro r c
        rw [hpx' r c, hlen]
        by_cases hri : r = i
        · subst hri
          have h1 : r < r + 1 := Nat.lt_succ_self r
          rw [if_pos h1]
          by_cases hc : c < 8 * s.length
          · rw [if_pos ⟨rfl, hc⟩]
            by_cases hc1 : c + 1 < 8 * s.length
            · rw [if_pos hc1, hpx r (c + 1), if_neg (Nat.lt_irrefl r)]
            · rw [if_neg hc1, chain_px_col_ge s r (c + 1) (by omega)]
          · have h2 : ¬ (r = r ∧ c < 8 * s.length) := fun h => hc h.2
            rw [if_neg h2, hpx r c, if_neg (Nat.lt_irrefl r), chain_px_col_ge s r c (by omega),
              chain_px_col_ge s r (c + 1) (by omega)]
        · have h2 : ¬ (r = i ∧ c < 8 * s.length) := fun h => hri h.1
          rw [if_neg h2, hpx r c]
          by_cases h3 : r < i
          · have : r < i + 1 := by omega
            rw [if_pos h3, if_pos this]
          · have : ¬ r < i + 1 := by omega
            rw [if_neg h3, if_neg this])
  obtain ⟨s1, hs1, hlen, hcur, hpx⟩ := key
  have hpx1 : ∀ r c, s1.px r c = s.px r (c + 1) := by
    intro r c
    rw [hpx r c]
    by_cases h : r < MatrixImage.HEIGHT
    · rw [if_pos h]
    · rw [if_neg h, chain_px_row_ge s r c (by rw [MatrixImage.HEIGHT_eq] at h; omega),
        chain_px_row_ge s r (c + 1) (by rw [MatrixImage.HEIGHT_eq] at h; omega)]
  unfold left_shift_image
  rw [hs1, bind_ok_eq]
  by_cases h0 : s1.cursor_position ≠ 0
  · rw [if_pos h0]
    refine ⟨{ s1 with cursor_position := s1.cursor_position - 1 }, rfl, hlen, ?_, hpx1⟩
    show s1.cursor_position - 1 = _
    rw [hcur]
  · rw [if_neg h0]
    refine ⟨s1, rfl, hlen, ?_, hpx1⟩
    rw [← hcur]
    omega


/-- Claim C7. For every canvas of `N` matrices, `left_shift_image` succeeds and shifts the
logical `8 * N`-bit rows left by one pixel: for every row `r < 8` the new pixel `(r, c)`
equals the old pixel `(r, c + 1)` for every `c < 8 * N - 1`, the new pixel
`(r, 8 * N - 1)` is `0`, and the old pixel `(r, 0)` is discarded (canvases that agree
on all columns but column `0` give the same pixels); the cursor becomes
`max (cursor - 1) 0` (a cursor of `0` stays `0`); and the bit evicted from matrix
`m + 1` becomes bit 0 (column 7) of matrix `m`. -/
theorem left_shift_image_shifts_one_column (s : MatrixChainImage) :
    ∃ s', s.left_shift_image = Except.ok s' ∧ s'.length = s.length ∧
      (∀ r c, r < 8 → c + 1 < 8 * s.length →
        ∃ p, s.get_pixel r (c + 1) = Except.ok p ∧ s'.get_pixel r c = Except.ok p) ∧
      (∀ r, r < 8 → 0 < s.length → s'.get_pixel r (8 * s.length - 1) = Except.ok 0) ∧
      (∀ t : MatrixChainImage, t.length = s.length →
        (∀ r c, r < 8 → 1 ≤ c → c < 8 * s.length → t.get_pixel r c = s.get_pixel r c) →
        ∃ t', t.left_shift_image = Except.ok t' ∧
          ∀ r c, r < 8 → c < 8 * s.length → t'.get_pixel r c = s'.get_pixel r c) ∧
      (s'.cursor_position : Int) = max ((s.cursor_position : Int) - 1) 0 ∧
      (s.cursor_position = 0 → s'.cursor_position = 0) ∧
      (∀ m r, r < 8 → m + 1 < s.length →
        ∃ p, s.get_pixel_of_matrix (m + 1) r 0 = Except.ok p ∧
          s'.get_pixel_of_matrix m r 7 = Except.ok p) := by
  obtain ⟨s', hs', hlen, hcur, hpx⟩ := left_shift_image_spec s
  refine ⟨s', hs', hlen, ?_, ?_, ?_, ?_, ?_, ?_⟩
  · intro r c hr hc
    refine ⟨bit_value (s.px r (c + 1)), chain_get_pixel_eq s r (c + 1) hr hc, ?_⟩
    rw [chain_get_pixel_eq s' r c hr (by rw [hlen]; omega), hpx r c]
  · intro r hr hN
    rw [chain_get_pixel_eq s' r _ hr (by rw [hlen]; omega), hpx r _,
      chain_px_col_ge s r _ (by omega)]
    rfl
  · intro t ht hagree
    obtain ⟨t', ht', hlen', _, hpx'⟩ := left_shift_image_spec t
    refine ⟨t', ht', ?_⟩
    intro r c hr hc
    rw [chain_get_pixel_eq t' r c hr (by rw [hlen', ht]; exact hc),
      chain_get_pixel_eq s' r c hr (by rw [hlen]; exact hc), hpx' r c, hpx r c]
    by_cases hc1 : c + 1 < 8 * s.length
    · have := hagree r (c + 1) hr (by omega) hc1
      rw [chain_get_pixel_eq t r (c + 1) hr (by rw [ht]; exact hc1),
        chain_get_pixel_eq s r (c + 1) hr hc1] at this
      exact this
    · rw [chain_px_col_ge t r (c + 1) (by rw [ht]; omega), chain_px_col_ge s r (c + 1) (by omega)]
  · rw [hcur]; omega
  · intro h0; rw [hcur, h0]
  · intro m r hr hm
    have h1 : s.get_pixel r (8 * m + 7 + 1) = s.get_pixel_of_matrix (m + 1) r 0 := by
      unfold get_pixel
      rw [MatrixImage.WIDTH_eq, show (8 * m + 7 + 1) / 8 = m + 1 by omega,
        show (8 * m + 7 + 1) % 8 = 0 by omega]
    have h2 : s'.get_pixel r (8 * m + 7) = s'.get_pixel_of_matrix m r 7 := by
      unfold get_pixel
      rw [MatrixImage.WIDTH_eq, show (8 * m + 7) / 8 = m by omega,
        show (8 * m + 7) % 8 = 7 by omega]
    refine ⟨bit_value (s.px r (8 * m + 7 + 1)), ?_, ?_⟩
    · rw [← h1, chain_get_pixel_eq s r _ hr (by omega)]
    · rw [← h2, chain_get_pixel_eq s' r _ hr (by rw [hlen]; omega), hpx r _]

/-- The effect of `k` successive calls of `left_shift_image`. -/
theorem left_shift_image_times_spec (s : MatrixChainImage) (k : Nat) :
    ∃ s', s.left_shift_image_times k = Except.ok s' ∧ s'.length = s.length ∧
      s'.cursor_position = s.cursor_position - k ∧
      ∀ r c, s'.px r c = s.px r (c + k) := by
  unfold left_shift_image_times
  apply forUpTo_invariant
    (fun n (st : MatrixChainImage) => st.length = s.length ∧
      st.cursor_position = s.cursor_position - n ∧ ∀ r c, st.px r c = s.px r (c + n))
  · exact ⟨rfl, rfl, fun _ _ => rfl⟩
  · intro i st _ ⟨hlen, hcur, hpx⟩
    obtain ⟨st', hst', hlen', hcur', hpx'⟩ := left_shift_image_spec st
    refine ⟨st', hst', hlen'.trans hlen, ?_, ?_⟩
    · rw [hcur', hcur]; omega
    · intro r c
      rw [hpx' r c, hpx r (c + 1)]
      congr 1
      omega

/-- Claim C8. For every canvas of `N` matrices whose cursor is at most `8 * N`, and every
`k`: `k` applications of `left_shift_image` succeed; afterwards the pixel `(r, c)` equals
the original pixel `(r, c + k)` when `c + k < 8 * N` and is `0` otherwise, and the cursor
equals `max (cursor0 - k) 0`; hence after `8 * N` applications every pixel of the canvas
is `0` and the cursor is `0`. -/
theorem left_shift_image_repeated (s : MatrixChainImage) (k : Nat)
    (hcursor : s.cursor_position ≤ 8 * s.length) :
    (∃ s', s.left_shift_image_times k = Except.ok s' ∧ s'.length = s.length ∧
      (∀ r c, r < 8 → c < 8 * s.length →
        (c + k < 8 * s.length →
          ∃ p, s.get_pixel r (c + k) = Except.ok p ∧ s'.get_pixel r c = Except.ok p) ∧
        (8 * s.length ≤ c + k → s'.get_pixel r c = Except.ok 0)) ∧
      (s'.cursor_position : Int) = max ((s.cursor_position : Int) - k) 0) ∧
    (∃ z, s.left_shift_image_times (8 * s.length) = Except.ok z ∧ z.length = s.length ∧
      (∀ r c, r < 8 → c < 8 * s.length → z.get_pixel r c = Except.ok 0) ∧
      z.cursor_position = 0) := by
  constructor
  · obtain ⟨s', hs', hlen, hcur, hpx⟩ := left_shift_image_times_spec s k
    refine ⟨s', hs', hlen, ?_, by rw [hcur]; omega⟩
    intro r c hr hc
    constructor
    · intro hck
      refine ⟨bit_value (s.px r (c + k)), chain_get_pixel_eq s r (c + k) hr hck, ?_⟩
      rw [chain_get_pixel_eq s' r c hr (by rw [hlen]; exact hc), hpx r c]
    · intro hck
      rw [chain_get_pixel_eq s' r c hr (by rw [hlen]; exact hc), hpx r c,
        chain_px_col_ge s r (c + k) hck]
      rfl
  · obtain ⟨z, hz, hlen, hcur, hpx⟩ := left_shift_image_times_spec s (8 * s.length)
    refine ⟨z, hz, hlen, ?_, by rw [hcur]; omega⟩
    intro r c hr hc
    rw [chain_get_pixel_eq z r c hr (by rw [hlen]; exact hc), hpx r c,
      chain_px_col_ge s r (c + 8 * s.length) (by omega)]
    rfl

/-- Witness for claim C7: shifting the two-matrix example canvas (rows 3 equal to `0xA0`
and `0x0F`) gives the rows `0x40` and `0x1E`: the left-most pixel is dropped, a `0` enters
on the right and the cursor stays at `0`. -/
theorem left_shift_image_shifts_one_column_witness :
    (∃ s', two_chip_example.left_shift_image = Except.ok s' ∧
      (∀ r c, r < 8 → c + 1 < 8 * two_chip_example.length →
        ∃ p, two_chip_example.get_pixel r (c + 1) = Except.ok p ∧
          s'.get_pixel r c = Except.ok p)) ∧
    two_chip_example.left_shift_image.bind (fun s' => s'.get_row_of_matrix 0 3)
      = Except.ok 0x40 ∧
    two_chip_example.left_shift_image.bind (fun s' => s'.get_row_of_matrix 1 3)
      = Except.ok 0x1E ∧
    two_chip_example.left_shift_image.map (fun s' => s'.cursor_position) = Except.ok 0 := by
  obtain ⟨s', h1, _, h2, _⟩ := left_shift_image_shifts_one_column two_chip_example
  exact ⟨⟨s', h1, h2⟩, rfl, rfl, rfl⟩

/-- Witness for claim C8: the two-matrix example canvas with the cursor moved to column
`5`; after 16 shifts row 3 of both matrices is blank and the cursor is `0`. -/
theorem left_shift_image_repeated_witness :
    ({ two_chip_example with cursor_position := 5 } : MatrixChainImage).cursor_position
      ≤ 8 * ({ two_chip_example with cursor_position := 5 } : MatrixChainImage).length ∧
    (∃ z, ({ two_chip_example with cursor_position := 5 } : MatrixChainImage).left_shift_image_times
        (8 * ({ two_chip_example with cursor_position := 5 } : MatrixChainImage).length)
          = Except.ok z ∧
      (∀ r c, r < 8 →
        c < 8 * ({ two_chip_example with cursor_position := 5 } : MatrixChainImage).length →
        z.get_pixel r c = Except.ok 0) ∧
      z.cursor_position = 0) ∧
    (({ two_chip_example with cursor_position := 5 } : MatrixChainImage).left_shift_image_times
      3).bind (fun s' => s'.get_row_of_matrix 0 3) = Except.ok 0x00 ∧
    (({ two_chip_example with cursor_position := 5 } : MatrixChainImage).left_shift_image_times
      3).bind (fun s' => s'.get_row_of_matrix 1 3) = Except.ok 0x78 ∧
    (({ two_chip_example with cursor_position := 5 } : MatrixChainImage).left_shift_image_times
      3).map (fun s' => s'.cursor_position) = Except.ok 2 := by
  have h : ({ two_chip_example with cursor_position := 5 } : MatrixChainImage).cursor_position
      ≤ 8 * ({ two_chip_example with cursor_position := 5 } : MatrixChainImage).length := by
    decide
  obtain ⟨_, z, hz, _, hpx, hcur⟩ :=
    left_shift_image_repeated { two_chip_example with cursor_position := 5 } 3 h
  exact ⟨h, ⟨z, hz, hpx, hcur⟩, rfl, rfl, rfl⟩

end MatrixChainImage

/-! ## Row bytes -/

namespace MatrixImage

theorem row_byte_eq (I : MatrixImage) (row : Nat) (h : row < 8) :
    I.row_byte row = I.image_data ⟨row, h⟩ := by
  unfold row_byte
  rw [dif_pos h]

theorem get_row_eq (I : MatrixImage) (row : Nat) (h : row < 8) :
    I.get_row row = Except.ok (I.row_byte row) := by
  unfold get_row
  rw [at_row_eq I row h, row_byte_eq I row h]

theorem px_eq_row_byte (I : MatrixImage) (row col : Nat) (hr : row < 8) (hc : col < 8) :
    I.px row col = (I.row_byte row).val.testBit (7 - col) := by
  rw [px_eq I row col hr hc, row_byte_eq I row hr]

/-- Two images with the same rows are equal. -/
theorem ext_row_byte (I J : MatrixImage) (h : ∀ row, row < 8 → I.row_byte row = J.row_byte row) :
    I = J := by
  cases I with | mk f =>
  cases J with | mk g =>
  congr
  funext i
  have := h i.val i.isLt
  rw [row_byte_eq _ _ i.isLt, row_byte_eq _ _ i.isLt] at this
  exact this

/-- Writing a row inside the image succeeds and changes that row only. -/
theorem set_row_spec (I : MatrixImage) (row : Nat) (v : Byte) (hr : row < 8) :
    ∃ I', I.set_row row v = Except.ok I' ∧
      ∀ r, I'.row_byte r = if r = row then v else I.row_byte r := by
  refine ⟨⟨fun i => if i = ⟨row, hr⟩ then v else I.image_data i⟩, store_row_eq I row v hr, ?_⟩
  intro r
  by_cases hr8 : r < 8
  · rw [row_byte_eq _ r hr8, row_byte_eq _ r hr8]
    by_cases hrr : r = row
    · subst hrr; simp
    · have : (⟨r, hr8⟩ : Fin 8) ≠ ⟨row, hr⟩ := fun h => hrr (Fin.mk.inj h)
      simp [hrr, this]
  · have hne : r ≠ row := by omega
    unfold row_byte
    rw [dif_neg hr8, dif_neg hr8, if_neg hne]

/-- The byte stored by `left_shift_row`: the three stores amount to one reduction modulo
`2^8`. -/
theorem shifted_byte_eq (v fill : Byte) :
    toByte ((toByte ((toByte (v.val <<< 1)).val ||| fill.val)).val &&& 0xFF)
      = toByte ((v.val <<< 1) ||| fill.val) := by
  apply byte_ext
  intro j hj
  rw [testBit_shifted, testBit_toByte, Nat.testBit_or, Nat.testBit_shiftLeft]
  by_cases h0 : j = 0
  · subst h0; simp
  · have : 1 ≤ j := by omega
    simp [h0, this]

/-- The method `left_shift_row` on a row inside the image, in terms of rows: it returns
bit 7 of the row, stores `((row << 1) | fill_bit) mod 256` and keeps the other rows. -/
theorem left_shift_row_rows (I : MatrixImage) (row : Nat) (fill : Byte) (hr : row < 8) :
    ∃ I', I.left_shift_row row fill
        = Except.ok (bit_value ((I.row_byte row).val.testBit 7), I') ∧
      ∀ r, I'.row_byte r =
        if r = row then toByte (((I.row_byte row).val <<< 1) ||| fill.val)
        else I.row_byte r := by
  obtain ⟨I', hI', hrows⟩ := set_row_spec I row
    (toByte (((I.row_byte row).val <<< 1) ||| fill.val)) hr
  refine ⟨I', ?_, hrows⟩
  unfold left_shift_row
  rw [at_row_eq I row hr, bind_ok_eq]
  simp only [msb_eq, shifted_byte_eq, ← row_byte_eq I row hr]
  unfold set_row at hI'
  rw [hI', bind_ok_eq]
  rfl

/-- Claim C20. For every 8x8 image, every row index `r < 8` and every `fill_bit` in
`{0, 1}`: `left_shift_row(r, fill_bit)` succeeds, returns the old bit 7 of row `r` (a
value in `{0, 1}`), sets row `r` to `((old_row << 1) | fill_bit) mod 256`, and leaves
every other row unchanged; in pixel terms the new pixel `(r, c)` is the old pixel
`(r, c + 1)` for `c < 7` and the new pixel `(r, 7)` is `fill_bit`. -/
theorem left_shift_row_shifts_row (I : MatrixImage) (r : Nat) (fill_bit : Byte) (hr : r < 8)
    (hfill : fill_bit = 0 ∨ fill_bit = 1) :
    ∃ old msb I', I.get_row r = Except.ok old ∧
      I.left_shift_row r fill_bit = Except.ok (msb, I') ∧
      msb.val = old.val / 2 ^ 7 ∧ (msb = 0 ∨ msb = 1) ∧
      (∃ new, I'.get_row r = Except.ok new ∧
        new.val = ((old.val <<< 1) ||| fill_bit.val) % 256) ∧
      (∀ r', r' < 8 → r' ≠ r → ∃ b, I.get_row r' = Except.ok b ∧ I'.get_row r' = Except.ok b) ∧
      (∀ c, c < 7 →
        ∃ p, I.get_pixel r (c + 1) = Except.ok p ∧ I'.get_pixel r c = Except.ok p) ∧
      I'.get_pixel r 7 = Except.ok fill_bit := by
  obtain ⟨I', hI', hrows⟩ := left_shift_row_rows I r fill_bit hr
  have hfb : ∃ f : Bool, fill_bit = bit_value f := by
    rcases hfill with h | h
    · exact ⟨false, h⟩
    · exact ⟨true, h⟩
  obtain ⟨f, hf⟩ := hfb
  obtain ⟨I'', hI'', hpx⟩ := left_shift_row_spec I r f hr
  rw [← hf, hI'] at hI''
  have hII : I'' = I' := by
    have := Except.ok.inj hI''
    exact (Prod.mk.inj this).2.symm
  subst hII
  refine ⟨I.row_byte r, _, I'', get_row_eq I r hr, hI', ?_, ?_, ?_, ?_, ?_, ?_⟩
  · have hlt : (I.row_byte r).val < 256 := (I.row_byte r).isLt
    cases hb : (I.row_byte r).val.testBit 7
    · have : (I.row_byte r).val < 2 ^ 7 := by
        by_contra hge
        have h2 : (I.row_byte r).val.testBit 7 = true := by
          have h3 : (I.row_byte r).val = 2 ^ 7 + ((I.row_byte r).val - 2 ^ 7) := by omega
          rw [h3, Nat.testBit_two_pow_add_eq]
          rw [Nat.testBit_lt_two_pow (by omega)]
          rfl
        rw [hb] at h2
        exact Bool.noConfusion h2
      show (0 : Nat) = _
      omega
    · have : 2 ^ 7 ≤ (I.row_byte r).val := by
        by_contra hge
        rw [Nat.testBit_lt_two_pow (by omega)] at hb
        exact Bool.noConfusion hb
      show (1 : Nat) = _
      omega
  · cases (I.row_byte r).val.testBit 7
    · left; rfl
    · right; rfl
  · refine ⟨_, get_row_eq I'' r hr, ?_⟩
    rw [hrows r, if_pos rfl]
    rfl
  · intro r' hr' hne
    refine ⟨_, get_row_eq I r' hr', ?_⟩
    rw [get_row_eq I'' r' hr', hrows r', if_neg hne]
  · intro c hc
    refine ⟨_, get_pixel_eq I r (c + 1) hr (by omega), ?_⟩
    rw [get_pixel_eq I'' r c hr (by omega), hpx r c]
    have h1 : r = r ∧ c < 8 := ⟨rfl, by omega⟩
    rw [if_pos h1, if_pos hc]
  · rw [get_pixel_eq I'' r 7 hr (by omega), hpx r 7]
    have h1 : r = r ∧ 7 < 8 := ⟨rfl, by omega⟩
    rw [if_pos h1, if_neg (Nat.lt_irrefl 7), hf]

/-- Witness for claim C20: shifting row 0 of the image with only pixel `(0, 0)` set, with
fill bit `1`, evicts the bit `1` and leaves the row `0x01`. -/
theorem left_shift_row_shifts_row_witness :
    (0 < 8) ∧ ((1 : Byte) = 0 ∨ (1 : Byte) = 1) ∧
    (∃ old msb I', only_pixel_0_0.get_row 0 = Except.ok old ∧
      only_pixel_0_0.left_shift_row 0 1 = Except.ok (msb, I') ∧
      msb.val = old.val / 2 ^ 7 ∧ (msb = 0 ∨ msb = 1) ∧
      (∃ new, I'.get_row 0 = Except.ok new ∧
        new.val = ((old.val <<< 1) ||| (1 : Byte).val) % 256) ∧
      (∀ r', r' < 8 → r' ≠ 0 →
        ∃ b, only_pixel_0_0.get_row r' = Except.ok b ∧ I'.get_row r' = Except.ok b) ∧
      (∀ c, c < 7 →
        ∃ p, only_pixel_0_0.get_pixel 0 (c + 1) = Except.ok p ∧
          I'.get_pixel 0 c = Except.ok p) ∧
      I'.get_pixel 0 7 = Except.ok 1) ∧
    (only_pixel_0_0.left_shift_row 0 1).map Prod.fst = Except.ok 1 ∧
    (only_pixel_0_0.left_shift_row 0 1).bind (fun r => r.2.get_row 0) = Except.ok 0x01 :=
  ⟨by decide, Or.inr rfl,
    left_shift_row_shifts_row only_pixel_0_0 0 1 (by decide) (Or.inr rfl), rfl, rfl⟩

end MatrixImage

namespace MatrixChainImage

theorem row_byte_of_matrix (s : MatrixChainImage) (m row : Nat) (M : MatrixImage)
    (h : s.matrices[m]? = some M) : s.row_byte m row = M.row_byte row := by
  unfold row_byte
  rw [h]

/-- Reading a row of an existing matrix succeeds and returns the row byte. -/
theorem get_row_of_matrix_eq (s : MatrixChainImage) (m row : Nat) (hm : m < s.length)
    (hr : row < 8) : s.get_row_of_matrix m row = Except.ok (s.row_byte m row) := by
  obtain ⟨M, hM⟩ := matrices_get s m hm
  unfold get_row_of_matrix
  rw [at_matrix_eq s m M hM, bind_ok_eq, row_byte_of_matrix s m row M hM]
  exact MatrixImage.get_row_eq M row hr

/-- A pixel of the canvas is bit `7 - col % 8` of the row byte of matrix `col / 8`. -/
theorem chain_px_eq_row_byte (s : MatrixChainImage) (row col : Nat) (hr : row < 8)
    (hc : col < 8 * s.length) :
    s.px row col = (s.row_byte (col / 8) row).val.testBit (7 - col % 8) := by
  obtain ⟨M, hM⟩ := matrices_get s (col / 8) (by omega)
  rw [px_of_matrix s row col M hM, row_byte_of_matrix s _ row M hM]
  exact MatrixImage.px_eq_row_byte M row _ hr (Nat.mod_lt _ (by decide))

/-- Claim C17. For every canvas of `N` matrices, every `row < 8` and every `col < 8 * N`:
`get_pixel(row, col)` succeeds, is `0` or `1`, and equals bit `7 - col mod 8` of
`get_row_of_matrix(col div 8, row)`: the access is routed to matrix `col / 8`, local
column `col % 8`, and the most significant bit of a row byte is the left-most column. -/
theorem get_pixel_routes_to_matrix (s : MatrixChainImage) (row col : Nat) (hr : row < 8)
    (hc : col < 8 * s.length) :
    ∃ b p, s.get_row_of_matrix (col / 8) row = Except.ok b ∧
      s.get_pixel row col = Except.ok p ∧
      p = (if b.val.testBit (7 - col % 8) then 1 else 0) ∧ (p = 0 ∨ p = 1) ∧
      s.get_pixel row col = s.get_pixel_of_matrix (col / 8) row (col % 8) := by
  refine ⟨s.row_byte (col / 8) row, bit_value (s.px row col),
    get_row_of_matrix_eq s _ row (by omega) hr, chain_get_pixel_eq s row col hr hc, ?_, ?_, rfl⟩
  · rw [chain_px_eq_row_byte s row col hr hc]
    rfl
  · cases s.px row col
    · left; rfl
    · right; rfl

/-- Witness for claim C17: pixel `(3, 10)` of the two-matrix example canvas is bit 5 of
row 3 of matrix 1 (`0x0F`), which is `0`, and pixel `(3, 12)` is bit 3, which is `1`. -/
theorem get_pixel_routes_to_matrix_witness :
    (3 < 8) ∧ (10 < 8 * two_chip_example.length) ∧
    (∃ b p, two_chip_example.get_row_of_matrix (10 / 8) 3 = Except.ok b ∧
      two_chip_example.get_pixel 3 10 = Except.ok p ∧
      p = (if b.val.testBit (7 - 10 % 8) then 1 else 0) ∧ (p = 0 ∨ p = 1) ∧
      two_chip_example.get_pixel 3 10 = two_chip_example.get_pixel_of_matrix (10 / 8) 3 (10 % 8)) ∧
    two_chip_example.get_pixel 3 10 = Except.ok 0 ∧
    two_chip_example.get_pixel 3 12 = Except.ok 1 :=
  ⟨by decide, by decide, get_pixel_routes_to_matrix two_chip_example 3 10 (by decide) (by decide),
    rfl, rfl⟩

/-- Claim C18. For every canvas of `N` matrices, every `row < 8`, every `col < 8 * N` and
every value `v`: `set_pixel(row, col, v)` succeeds; afterwards `get_pixel(row, col)` is
`1` if `v` is non-zero and `0` if `v` is `0`, every other pixel of the canvas is unchanged,
and the cursor (and the length) is unchanged. -/
theorem set_pixel_sets_one_pixel (s : MatrixChainImage) (row col : Nat) (v : Byte)
    (hr : row < 8) (hc : col < 8 * s.length) :
    ∃ s', s.set_pixel row col v = Except.ok s' ∧
      s'.get_pixel row col = Except.ok (if v ≠ 0 then 1 else 0) ∧
      (∀ r c, r < 8 → c < 8 * s.length → (r ≠ row ∨ c ≠ col) →
        ∃ p, s.get_pixel r c = Except.ok p ∧ s'.get_pixel r c = Except.ok p) ∧
      s'.cursor_position = s.cursor_position ∧ s'.length = s.length := by
  obtain ⟨s', hs', hlen, hcur, hpx⟩ := chain_set_pixel_spec s row col v hr hc
  refine ⟨s', hs', ?_, ?_, hcur, hlen⟩
  · rw [chain_get_pixel_eq s' row col hr (by rw [hlen]; exact hc), hpx row col,
      if_pos ⟨rfl, rfl⟩]
    by_cases hv : v ≠ 0
    · rw [if_pos hv, decide_eq_true hv]; rfl
    · rw [if_neg hv, decide_eq_false hv]; rfl
  · intro r c hr' hc' hne
    refine ⟨_, chain_get_pixel_eq s r c hr' hc', ?_⟩
    rw [chain_get_pixel_eq s' r c hr' (by rw [hlen]; exact hc'), hpx r c]
    have : ¬ (r = row ∧ c = col) := by
      rintro ⟨h1, h2⟩
      rcases hne with h | h
      · exact h h1
      · exact h h2
    rw [if_neg this]

/-- Witness for claim C18: setting pixel `(3, 10)` of the two-matrix example canvas with
the value `7` turns row 3 of matrix 1 from `0x0F` into `0x2F` and keeps matrix 0. -/
theorem set_pixel_sets_one_pixel_witness :
    (3 < 8) ∧ (10 < 8 * two_chip_example.length) ∧
    (∃ s', two_chip_example.set_pixel 3 10 7 = Except.ok s' ∧
      s'.get_pixel 3 10 = Except.ok (if (7 : Byte) ≠ 0 then 1 else 0) ∧
      (∀ r c, r < 8 → c < 8 * two_chip_example.length → (r ≠ 3 ∨ c ≠ 10) →
        ∃ p, two_chip_example.get_pixel r c = Except.ok p ∧ s'.get_pixel r c = Except.ok p) ∧
      s'.cursor_position = two_chip_example.cursor_position ∧
      s'.length = two_chip_example.length) ∧
    (two_chip_example.set_pixel 3 10 7).bind (fun s' => s'.get_row_of_matrix 1 3)
      = Except.ok 0x2F ∧
    (two_chip_example.set_pixel 3 10 7).bind (fun s' => s'.get_row_of_matrix 0 3)
      = Except.ok 0xA0 :=
  ⟨by decide, by decide,
    set_pixel_sets_one_pixel two_chip_example 3 10 7 (by decide) (by decide), rfl, rfl⟩

end MatrixChainImage

/-! ## Out-of-range addressing -/

namespace MatrixImage

theorem at_row_error (I : MatrixImage) (row : Nat) (h : 8 ≤ row) :
    I.at_row row = Except.error Error.out_of_range := by
  unfold at_row
  rw [dif_neg (show ¬ row < HEIGHT from by unfold HEIGHT; omega)]
  rfl

theorem get_pixel_error (I : MatrixImage) (row col : Nat) (h : 8 ≤ row ∨ 8 ≤ col) :
    I.get_pixel row col = Except.error Error.out_of_range := by
  unfold get_pixel
  by_cases hc : col ≥ WIDTH
  · rw [if_pos hc]; rfl
  · have hr : 8 ≤ row := by
      rcases h with h | h
      · exact h
      · exact absurd (show col ≥ WIDTH from h) hc
    rw [if_neg hc, at_row_error I row hr]
    rfl

theorem set_pixel_error (I : MatrixImage) (row col : Nat) (v : Byte) (h : 8 ≤ row ∨ 8 ≤ col) :
    I.set_pixel row col v = Except.error Error.out_of_range := by
  unfold set_pixel
  by_cases hc : col ≥ WIDTH
  · rw [if_pos hc]; rfl
  · have hr : 8 ≤ row := by
      rcases h with h | h
      · exact h
      · exact absurd (show col ≥ WIDTH from h) hc
    rw [if_neg hc, at_row_error I row hr]
    rfl

/-- The state-keeping form of `set_pixel` agrees with `set_pixel`, and when the call fails
the image is the one before the call. -/
theorem set_pixel_with_state_spec (I : MatrixImage) (row col : Nat) (v : Byte) :
    (∀ I', I.set_pixel row col v = Except.ok I' →
      I.set_pixel_with_state row col v = (Except.ok (), I')) ∧
    (∀ e, I.set_pixel row col v = Except.error e →
      I.set_pixel_with_state row col v = (Except.error e, I)) := by
  unfold set_pixel set_pixel_with_state
  by_cases hc : col ≥ WIDTH
  · rw [if_pos hc, if_pos hc]
    constructor
    · intro I' h; cases h
    · intro e h; cases h; rfl
  · rw [if_neg hc, if_neg hc]
    by_cases hr : row < 8
    · rw [at_row_eq I row hr, bind_ok_eq]
      simp only
      by_cases hv : v ≠ 0
      · rw [if_pos hv, if_pos hv, store_row_eq _ _ _ hr]
        constructor
        · intro I' h; cases h; rfl
        · intro e h; cases h
      · rw [if_neg hv, if_neg hv, store_row_eq _ _ _ hr]
        constructor
        · intro I' h; cases h; rfl
        · intro e h; cases h
    · rw [at_row_error I row (by omega)]
      constructor
      · intro I' h; cases h
      · intro e h; cases h; rfl

end MatrixImage

namespace MatrixChainImage

theorem at_matrix_error (s : MatrixChainImage) (m : Nat) (h : s.length ≤ m) :
    s.at_matrix m = Except.error Error.out_of_range := by
  unfold at_matrix
  rw [matrices_get_none s m h]
  rfl

theorem chain_get_pixel_error (s : MatrixChainImage) (row col : Nat)
    (h : 8 ≤ row ∨ 8 * s.length ≤ col) :
    s.get_pixel row col = Except.error Error.out_of_range := by
  unfold get_pixel get_pixel_of_matrix
  rw [MatrixImage.WIDTH_eq]
  by_cases hc : col < 8 * s.length
  · obtain ⟨M, hM⟩ := matrices_get s (col / 8) (by omega)
    rw [at_matrix_eq s _ M hM, bind_ok_eq]
    exact MatrixImage.get_pixel_error M row _ (Or.inl (by omega))
  · rw [at_matrix_error s (col / 8) (by omega)]
    rfl

theorem chain_set_pixel_error (s : MatrixChainImage) (row col : Nat) (v : Byte)
    (h : 8 ≤ row ∨ 8 * s.length ≤ col) :
    s.set_pixel row col v = Except.error Error.out_of_range := by
  unfold set_pixel set_pixel_of_matrix
  rw [MatrixImage.WIDTH_eq]
  by_cases hc : col < 8 * s.length
  · obtain ⟨M, hM⟩ := matrices_get s (col / 8) (by omega)
    rw [at_matrix_eq s _ M hM, bind_ok_eq,
      MatrixImage.set_pixel_error M row _ v (Or.inl (by omega))]
    rfl
  · rw [at_matrix_error s (col / 8) (by omega)]
    rfl

/-- Two chain images with the same fields are equal. -/
theorem ext_fields (s t : MatrixChainImage) (hl : s.length = t.length)
    (hm : s.matrices = t.matrices) (hc : s.cursor_position = t.cursor_position) : s = t := by
  cases s
  cases t
  simp only at hl hm hc
  subst hl hm hc
  rfl

theorem set_same (l : List MatrixImage) (i : Nat) (M : MatrixImage) (h : l[i]? = some M) :
    l.set i M = l := by
  apply List.ext_getElem?
  intro n
  rw [List.getElem?_set]
  by_cases hn : i = n
  · subst hn
    rcases List.getElem?_eq_some.1 h with ⟨hlt, _⟩
    rw [if_pos rfl, if_pos hlt, h]
  · rw [if_neg hn]

/-- The state-keeping form of the chain's `set_pixel` agrees with `set_pixel`, and when
the call fails the image is the one before the call. -/
theorem chain_set_pixel_with_state_spec (s : MatrixChainImage) (row col : Nat) (v : Byte) :
    (∀ s', s.set_pixel row col v = Except.ok s' →
      s.set_pixel_with_state row col v = (Except.ok (), s')) ∧
    (∀ e, s.set_pixel row col v = Except.error e →
      s.set_pixel_with_state row col v = (Except.error e, s)) := by
  unfold set_pixel set_pixel_of_matrix set_pixel_with_state
  rw [MatrixImage.WIDTH_eq]
  by_cases hc : col < 8 * s.length
  · obtain ⟨M, hM⟩ := matrices_get s (col / 8) (by omega)
    rw [at_matrix_eq s _ M hM, bind_ok_eq]
    simp only
    obtain ⟨hok, herr⟩ := MatrixImage.set_pixel_with_state_spec M row (col % 8) v
    cases hres : M.set_pixel row (col % 8) v with
    | ok M' =>
      rw [hok M' hres, bind_ok_eq]
      simp only
      obtain ⟨s1, hs1, _⟩ := store_matrix_spec s (col / 8) M' (by omega)
      rw [hs1]
      constructor
      · intro s' h; cases h; rfl
      · intro e h; cases h
    | error e =>
      rw [herr e hres]
      simp only
      obtain ⟨s1, hs1, hlen, hcur, hmat, _⟩ := store_matrix_spec s (col / 8) M (by omega)
      rw [hs1]
      have hs : s1 = s := ext_fields s1 s hlen (by rw [hmat, set_same _ _ _ hM]) hcur
      constructor
      · intro s' h; cases h
      · intro e' h
        cases h
        rw [hs]
  · rw [at_matrix_error s (col / 8) (by omega)]
    constructor
    · intro s' h; cases h
    · intro e h; cases h; rfl

/-- Claim C19. Out-of-range addressing fails instead of clamping or wrapping:
`MatrixImage::get_pixel` and `set_pixel` fail with a bounds error exactly when
`row >= 8` or `col >= 8` (and succeed otherwise), `MatrixChainImage::get_pixel` and
`set_pixel` on a canvas of `N` matrices fail with a bounds error exactly when `row >= 8`
or `col >= 8 * N` (and succeed otherwise); a failing `set_pixel` leaves the image
unchanged. -/
theorem out_of_range_access_fails (I : MatrixImage) (s : MatrixChainImage) (row col : Nat)
    (v : Byte) :
    ((I.get_pixel row col = Except.error Error.out_of_range ↔ (8 ≤ row ∨ 8 ≤ col)) ∧
      ((∃ p, I.get_pixel row col = Except.ok p) ↔ (row < 8 ∧ col < 8))) ∧
    ((I.set_pixel row col v = Except.error Error.out_of_range ↔ (8 ≤ row ∨ 8 ≤ col)) ∧
      ((∃ I', I.set_pixel row col v = Except.ok I') ↔ (row < 8 ∧ col < 8))) ∧
    ((s.get_pixel row col = Except.error Error.out_of_range
        ↔ (8 ≤ row ∨ 8 * s.length ≤ col)) ∧
      ((∃ p, s.get_pixel row col = Except.ok p) ↔ (row < 8 ∧ col < 8 * s.length))) ∧
    ((s.set_pixel row col v = Except.error Error.out_of_range
        ↔ (8 ≤ row ∨ 8 * s.length ≤ col)) ∧
      ((∃ s', s.set_pixel row col v = Except.ok s') ↔ (row < 8 ∧ col < 8 * s.length))) ∧
    (∀ e, (I.set_pixel_with_state row col v).1 = Except.error e →
      (I.set_pixel_with_state row col v).2 = I) ∧
    (∀ e, (s.set_pixel_with_state row col v).1 = Except.error e →
      (s.set_pixel_with_state row col v).2 = s) ∧
    (I.set_pixel_with_state row col v).1 = (I.set_pixel row col v).map (fun _ => ()) ∧
    (s.set_pixel_with_state row col v).1 = (s.set_pixel row col v).map (fun _ => ()) := by
  have hI1 : (8 ≤ row ∨ 8 ≤ col) ∨ (row < 8 ∧ col < 8) := by omega
  have hs1 : (8 ≤ row ∨ 8 * s.length ≤ col) ∨ (row < 8 ∧ col < 8 * s.length) := by omega
  refine ⟨?_, ?_, ?_, ?_, ?_, ?_, ?_, ?_⟩
  · rcases hI1 with h | h
    · have := MatrixImage.get_pixel_error I row col h
      rw [this]
      constructor
      · exact ⟨fun _ => h, fun _ => rfl⟩
      · constructor
        · rintro ⟨p, hp⟩; cases hp
        · intro h'; omega
    · have := MatrixImage.get_pixel_eq I row col h.1 h.2
      rw [this]
      constructor
      · constructor
        · intro h'; cases h'
        · intro h'; omega
      · exact ⟨fun _ => h, fun _ => ⟨_, rfl⟩⟩
  · rcases hI1 with h | h
    · have := MatrixImage.set_pixel_error I row col v h
      rw [this]
      constructor
      · exact ⟨fun _ => h, fun _ => rfl⟩
      · constructor
        · rintro ⟨p, hp⟩; cases hp
        · intro h'; omega
    · obtain ⟨I', hI', _⟩ := MatrixImage.set_pixel_spec I row col v h.1 h.2
      rw [hI']
      constructor
      · constructor
        · intro h'; cases h'
        · intro h'; omega
      · exact ⟨fun _ => h, fun _ => ⟨_, rfl⟩⟩
  · rcases hs1 with h | h
    · have := chain_get_pixel_error s row col h
      rw [this]
      constructor
      · exact ⟨fun _ => h, fun _ => rfl⟩
      · constructor
        · rintro ⟨p, hp⟩; cases hp
        · intro h'; omega
    · have := chain_get_pixel_eq s row col h.1 h.2
      rw [this]
      constructor
      · constructor
        · intro h'; cases h'
        · intro h'; omega
      · exact ⟨fun _ => h, fun _ => ⟨_, rfl⟩⟩
  · rcases hs1 with h | h
    · have := chain_set_pixel_error s row col v h
      rw [this]
      constructor
      · exact ⟨fun _ => h, fun _ => rfl⟩
      · constructor
        · rintro ⟨p, hp⟩; cases hp
        · intro h'; omega
    · obtain ⟨s', hs', _⟩ := chain_set_pixel_spec s row col v h.1 h.2
      rw [hs']
      constructor
      · constructor
        · intro h'; cases h'
        · intro h'; omega
      · exact ⟨fun _ => h, fun _ => ⟨_, rfl⟩⟩
  · intro e he
    obtain ⟨hok, herr⟩ := MatrixImage.set_pixel_with_state_spec I row col v
    cases hres : I.set_pixel row col v with
    | ok I' => rw [hok I' hres] at he; cases he
    | error e' => rw [herr e' hres]
  · intro e he
    obtain ⟨hok, herr⟩ := chain_set_pixel_with_state_spec s row col v
    cases hres : s.set_pixel row col v with
    | ok s' => rw [hok s' hres] at he; cases he
    | error e' => rw [herr e' hres]
  · obtain ⟨hok, herr⟩ := MatrixImage.set_pixel_with_state_spec I row col v
    cases hres : I.set_pixel row col v with
    | ok I' => rw [hok I' hres]; rfl
    | error e' => rw [herr e' hres]; rfl
  · obtain ⟨hok, herr⟩ := chain_set_pixel_with_state_spec s row col v
    cases hres : s.set_pixel row col v with
    | ok s' => rw [hok s' hres]; rfl
    | error e' => rw [herr e' hres]; rfl


/-! ## Drawing text: what is left untouched, and splitting a text -/

/-- Claim C11. `draw_text` never partially renders a glyph and raises no error on
overflow: for every canvas (cursor inside the canvas, as in every canvas the class can
produce), every fully loaded font and every text, `draw_text` succeeds and no pixel in a
column left of the initial cursor or at or right of the final cursor is changed; in
particular, when the first character's glyph is wider than the remaining space, the canvas
(pixels and cursor) is unchanged and the whole text is returned. -/
theorem draw_text_no_partial_glyph (s : MatrixChainImage) (font : Font) (text : List Byte)
    (hcursor : s.cursor_position ≤ s.get_pixel_width)
    (hfont : ∀ c, font.get_glyph_width c ≤ 8) :
    (∃ i s', i ≤ text.length ∧ s.draw_text text font = Except.ok (text.drop i, s') ∧
      s'.cursor_position = s.cursor_position + font.text_width (text.take i) ∧
      s'.get_pixel_width = s.get_pixel_width ∧
      ∀ r c, r < 8 → c < s.get_pixel_width →
        (c < s.cursor_position ∨ s'.cursor_position ≤ c) →
        ∃ p, s.get_pixel r c = Except.ok p ∧ s'.get_pixel r c = Except.ok p) ∧
    (∀ ch rest, text = ch :: rest →
      font.get_glyph_width ch > s.get_pixel_width - s.cursor_position →
      s.draw_text text font = Except.ok (text, s)) := by
  rw [get_pixel_width_eq] at hcursor ⊢
  constructor
  · obtain ⟨i, s', hi, hrun, hlen, hcur, _, _, _, _, hframe⟩ :=
      draw_text_loop_spec font hfont text s hcursor
    refine ⟨i, s', hi, hrun, hcur, by rw [get_pixel_width_eq, hlen], ?_⟩
    intro r c hr hc hout
    refine ⟨_, chain_get_pixel_eq s r c hr hc, ?_⟩
    rw [chain_get_pixel_eq s' r c hr (by rw [hlen]; exact hc), hframe r c hout]
  · intro ch rest htext hwide
    subst htext
    unfold draw_text
    simp only [draw_text_loop]
    rw [remaining_space_eq s hcursor, if_pos hwide]
    rfl

/-- Witness for claim C11: on the one-matrix canvas with the cursor at column 6, the
text `[4, 2]` of the example font (glyph widths 5 and 3) does not fit at all: the text is
returned and the canvas is the same. -/
theorem draw_text_no_partial_glyph_witness :
    ({ new 1 with cursor_position := 6 } : MatrixChainImage).cursor_position
      ≤ ({ new 1 with cursor_position := 6 } : MatrixChainImage).get_pixel_width ∧
    (∀ c, Font.example_font.get_glyph_width c ≤ 8) ∧
    (∀ ch rest, [(4 : Byte), 2] = ch :: rest →
      Font.example_font.get_glyph_width ch
        > ({ new 1 with cursor_position := 6 } : MatrixChainImage).get_pixel_width
          - ({ new 1 with cursor_position := 6 } : MatrixChainImage).cursor_position →
      ({ new 1 with cursor_position := 6 } : MatrixChainImage).draw_text [4, 2]
          Font.example_font
        = Except.ok ([4, 2], ({ new 1 with cursor_position := 6 } : MatrixChainImage))) ∧
    (({ new 1 with cursor_position := 6 } : MatrixChainImage).draw_text [4, 2]
      Font.example_font).map Prod.fst = Except.ok [4, 2] :=
  have h1 : ({ new 1 with cursor_position := 6 } : MatrixChainImage).cursor_position
      ≤ ({ new 1 with cursor_position := 6 } : MatrixChainImage).get_pixel_width := by
    decide
  have h2 : ∀ c, Font.example_font.get_glyph_width c ≤ 8 := fun c => by
    show c.val % 8 + 1 ≤ 8
    omega
  ⟨h1, h2, (draw_text_no_partial_glyph _ Font.example_font [4, 2] h1 h2).2, rfl⟩

/-- When all of `a` is drawn, the loop on `a ++ b` continues with `b` on the canvas
reached after `a`. -/
theorem draw_text_loop_append_fit (font : Font) (b : List Byte) :
    ∀ (a : List Byte) (s sa : MatrixChainImage),
      draw_text_loop font a s = Except.ok ([], sa) →
      draw_text_loop font (a ++ b) s = draw_text_loop font b sa := by
  intro a
  induction a with
  | nil =>
    intro s sa h
    have : s = sa := by
      have h' : (Except.ok ([], s) : Except Error (List Byte × MatrixChainImage))
          = Except.ok ([], sa) := h
      exact (Prod.mk.inj (Except.ok.inj h')).2
    subst this
    rfl
  | cons c rest ih =>
    intro s sa h
    simp only [draw_text_loop, List.cons_append] at h ⊢
    by_cases hfit : font.get_glyph_width c > size_t_sub s.get_pixel_width s.cursor_position
    · rw [if_pos hfit] at h
      have h' : (Except.ok (c :: rest, s) : Except Error (List Byte × MatrixChainImage))
          = Except.ok ([], sa) := h
      have := (Prod.mk.inj (Except.ok.inj h')).1
      exact absurd this (List.cons_ne_nil c rest)
    · rw [if_neg hfit] at h ⊢
      cases hd : s.draw_character c font with
      | error e =>
        rw [hd] at h
        cases h
      | ok s1 =>
        rw [hd] at h
        exact ih s1 sa h

/-- When the loop on `a` stops at a character of `a`, the loop on `a ++ b` stops at the
same character with the same canvas. -/
theorem draw_text_loop_append_stop (font : Font) (b : List Byte) :
    ∀ (a : List Byte) (s sa : MatrixChainImage) (ch : Byte) (l : List Byte),
      draw_text_loop font a s = Except.ok (ch :: l, sa) →
      draw_text_loop font (a ++ b) s = Except.ok (ch :: l ++ b, sa) := by
  intro a
  induction a with
  | nil =>
    intro s sa ch l h
    have h' : (Except.ok ([], s) : Except Error (List Byte × MatrixChainImage))
        = Except.ok (ch :: l, sa) := h
    have := (Prod.mk.inj (Except.ok.inj h')).1
    exact absurd this.symm (List.cons_ne_nil ch l)
  | cons c rest ih =>
    intro s sa ch l h
    simp only [draw_text_loop, List.cons_append] at h ⊢
    by_cases hfit : font.get_glyph_width c > size_t_sub s.get_pixel_width s.cursor_position
    · rw [if_pos hfit] at h ⊢
      have h' : (Except.ok (c :: rest, s) : Except Error (List Byte × MatrixChainImage))
          = Except.ok (ch :: l, sa) := h
      obtain ⟨h1, h2⟩ := Prod.mk.inj (Except.ok.inj h')
      obtain ⟨hc, hl⟩ := List.cons.inj h1
      subst hc hl h2
      rfl
    · rw [if_neg hfit] at h ⊢
      cases hd : s.draw_character c font with
      | error e =>
        rw [hd] at h
        cases h
      | ok s1 =>
        rw [hd] at h
        exact ih s1 sa ch l h

/-- Counterexample for claim C12: with the proportional example font on a fresh one-matrix
canvas, `a = "AA"` and `b = "\xff"`: the second `A` does not fit, so `draw_text(a ++ b)`
returns `"A\xff"` and leaves column 5 dark, whereas `draw_text(b)` after `draw_text(a)`
draws the one-pixel-wide glyph at column 5 and returns the empty string. -/
theorem draw_text_split_law_counterexample :
    ((new 1).draw_text ([0x41, 0x41] ++ [0xFF]) Font.proportional_example).map Prod.fst
      = Except.ok [0x41, 0xFF] ∧
    (((new 1).draw_text [0x41, 0x41] Font.proportional_example).bind
      (fun r => r.2.draw_text [0xFF] Font.proportional_example)).map Prod.fst
      = Except.ok [] ∧
    ((new 1).draw_text ([0x41, 0x41] ++ [0xFF]) Font.proportional_example).bind
      (fun r => r.2.get_pixel 0 5) = Except.ok 0 ∧
    (((new 1).draw_text [0x41, 0x41] Font.proportional_example).bind
      (fun r => r.2.draw_text [0xFF] Font.proportional_example)).bind
      (fun r => r.2.get_pixel 0 5) = Except.ok 1 ∧
    ¬ draw_text_split_law Font.proportional_example 1 [0x41, 0x41] [0xFF] := by
  refine ⟨rfl, rfl, rfl, rfl, ?_⟩
  rintro ⟨la, sa, lb, sb, lab, sab, h1, h2, h3, _, heq⟩
  have e1 : ((new 1).draw_text ([0x41, 0x41] ++ [0xFF]) Font.proportional_example).map
      Prod.fst = Except.ok [0x41, 0xFF] := rfl
  have e2 : (((new 1).draw_text [0x41, 0x41] Font.proportional_example).bind
      (fun r => r.2.draw_text [0xFF] Font.proportional_example)).map Prod.fst
      = Except.ok [] := rfl
  rw [h3] at e1
  rw [h1] at e2
  have e2' : (sa.draw_text [0xFF] Font.proportional_example).map Prod.fst
      = Except.ok [] := e2
  rw [h2] at e2'
  have f1 : lab = [0x41, 0xFF] := Except.ok.inj e1
  have f2 : lb = [] := Except.ok.inj e2'
  rw [f1, f2] at heq
  exact absurd heq (List.cons_ne_nil _ _)

/-- Claim C12, amended. For every fully loaded font, every fresh canvas of `N` matrices
and all strings `a` and `b` such that `draw_text(a)` returns the empty string (all of `a`
fits): `draw_text(b)` on the canvas reached after `draw_text(a)` succeeds, and
`draw_text(a ++ b)` on a fresh canvas succeeds with the same canvas (pixels and cursor)
and the same leftover, so the split law holds. When `draw_text(a)` instead returns a
non-empty leftover, `draw_text(a ++ b)` returns that leftover followed by `b` and leaves
the canvas that `draw_text(a)` leaves. -/
theorem draw_text_split_when_first_fits (font : Font) (N : Nat) (a b : List Byte)
    (sa : MatrixChainImage) (hfont : ∀ c, font.get_glyph_width c ≤ 8)
    (hfit : (new N).draw_text a font = Except.ok ([], sa)) :
    (∃ lb sb, sa.draw_text b font = Except.ok (lb, sb) ∧
      (new N).draw_text (a ++ b) font = Except.ok (lb, sb)) ∧
    draw_text_split_law font N a b ∧
    (∀ (a' : List Byte) ch l sa', (new N).draw_text a' font = Except.ok (ch :: l, sa') →
      (new N).draw_text (a' ++ b) font = Except.ok (ch :: l ++ b, sa')) := by
  have h0 : (new N).cursor_position ≤ 8 * (new N).length := Nat.zero_le _
  obtain ⟨i, sa2, _, hrun, hlen, _, hcurle, _⟩ := draw_text_loop_spec font hfont a (new N) h0
  have hsa : sa2 = sa := by
    have h' : draw_text_loop font a (new N) = Except.ok ([], sa) := hfit
    rw [hrun] at h'
    exact (Prod.mk.inj (Except.ok.inj h')).2
  subst hsa
  obtain ⟨j, sb, _, hrunb, _⟩ := draw_text_loop_spec font hfont b sa2
    (by rw [hlen]; exact hcurle)
  have hab : (new N).draw_text (a ++ b) font = Except.ok (b.drop j, sb) := by
    unfold draw_text
    rw [draw_text_loop_append_fit font b a (new N) sa2 hfit, hrunb]
  refine ⟨⟨b.drop j, sb, hrunb, hab⟩, ?_, ?_⟩
  · exact ⟨[], sa2, b.drop j, sb, b.drop j, sb, hfit, hrunb, hab, fun _ _ _ _ => rfl, rfl⟩
  · intro a' ch l sa' h
    exact draw_text_loop_append_stop font b a' (new N) sa' ch l h

/-- Witness for the amended claim C12: on a fresh one-matrix canvas with the proportional
example font, `a = "A"` fits entirely and `b = "\xff\xffA"` is then drawn up to its
last character. -/
theorem draw_text_split_when_first_fits_witness :
    (∀ c, Font.proportional_example.get_glyph_width c ≤ 8) ∧
    (∃ sa, (new 1).draw_text [0x41] Font.proportional_example = Except.ok ([], sa) ∧
      draw_text_split_law Font.proportional_example 1 [0x41] [0xFF, 0xFF, 0x41]) ∧
    ((new 1).draw_text ([0x41] ++ [0xFF, 0xFF, 0x41]) Font.proportional_example).map
      Prod.fst = Except.ok [0x41] := by
  have h2 : ∀ c, Font.proportional_example.get_glyph_width c ≤ 8 := fun c => by
    show (if c = 0x20 then 4 else if c = 0xFF then 1 else 5) ≤ 8
    split
    · omega
    · split <;> omega
  have hm : ∃ sa, (new 1).draw_text [0x41] Font.proportional_example = Except.ok ([], sa) := by
    obtain ⟨i, s', _, hrun, _, _, _, _, hstop, _⟩ :=
      draw_text_loop_spec Font.proportional_example h2 [0x41] (new 1) (Nat.zero_le _)
    have e1 : ((new 1).draw_text [0x41] Font.proportional_example).map Prod.fst
        = Except.ok [] := rfl
    refine ⟨s', ?_⟩
    unfold draw_text at e1 ⊢
    rw [hrun] at e1 ⊢
    have : List.drop i [(0x41 : Byte)] = [] := Except.ok.inj e1
    rw [this]
  obtain ⟨sa, hsa⟩ := hm
  exact ⟨h2, ⟨sa, hsa,
    (draw_text_split_when_first_fits Font.proportional_example 1 [0x41] [0xFF, 0xFF, 0x41]
      sa h2 hsa).2.1⟩, rfl⟩

end MatrixChainImage

/-! ## More loop rules -/

/-- A property that every successful iteration preserves is preserved by a loop that
succeeds. -/
theorem forUpTo_preserves {σ : Type} (P : σ → Prop) (n : Nat)
    (body : Nat → σ → Except Error σ)
    (hstep : ∀ i s s', body i s = Except.ok s' → P s → P s') :
    ∀ s0 s', forUpTo n body s0 = Except.ok s' → P s0 → P s' := by
  induction n with
  | zero =>
    intro s0 s' h hP
    have h' : (Except.ok s0 : Except Error σ) = Except.ok s' := h
    cases h'
    exact hP
  | succ k ih =>
    intro s0 s' h hP
    rw [forUpTo_succ] at h
    cases hk : forUpTo k body s0 with
    | error e =>
      rw [hk] at h
      cases h
    | ok s1 =>
      rw [hk, bind_ok_eq] at h
      exact hstep k s1 s' h (ih s0 s1 hk hP)

/-- A loop whose iteration `k` fails, after `k` successful iterations, fails with the
same error. -/
theorem forUpTo_error {σ : Type} (n k : Nat) (body : Nat → σ → Except Error σ) (s0 s1 : σ)
    (e : Error) (hk : k < n) (hpre : forUpTo k body s0 = Except.ok s1)
    (hfail : body k s1 = Except.error e) : forUpTo n body s0 = Except.error e := by
  have h1 : forUpTo (k + 1) body s0 = Except.error e := by
    rw [forUpTo_succ, hpre, bind_ok_eq, hfail]
  have h2 : ∀ d, forUpTo (k + 1 + d) body s0 = Except.error e := by
    intro d
    induction d with
    | zero => exact h1
    | succ d ih =>
      show forUpTo (k + 1 + d + 1) body s0 = _
      rw [forUpTo_succ, ih]
      rfl
  have := h2 (n - (k + 1))
  rw [show k + 1 + (n - (k + 1)) = n by omega] at this
  exact this

namespace MatrixImage

/-- The rotation of an 8x8 image always succeeds. -/
theorem rotate_image_ok (I : MatrixImage) (k : Nat) : ∃ I', I.rotate_image k = Except.ok I' := by
  obtain ⟨I', h, _⟩ := rotate_image_px I k
  exact ⟨I', h⟩

end MatrixImage

namespace MatrixChainImage

/-! ## Rotating the matrices of a chain -/

/-- The method `rotate_matrices`: it succeeds, keeps the length and the cursor, and the
matrix at every index is the rotated old matrix at that index. -/
theorem rotate_matrices_spec (s : MatrixChainImage) (k : Nat) :
    ∃ s', s.rotate_matrices k = Except.ok s' ∧ s'.length = s.length ∧
      s'.cursor_position = s.cursor_position ∧
      ∀ (m : Nat) (M : MatrixImage), s.matrices[m]? = some M →
        ∃ M', M.rotate_image k = Except.ok M' ∧ s'.matrices[m]? = some M' := by
  have key := forUpTo_invariant
    (fun j (st : MatrixChainImage) =>
      st.length = s.length ∧ st.cursor_position = s.cursor_position ∧
      ∀ (m : Nat) (M : MatrixImage), s.matrices[m]? = some M →
        ∃ M', (if m < j then M.rotate_image k = Except.ok M' else M' = M) ∧
          st.matrices[m]? = some M')
    s.matrices.length
    (fun idx s => do
      let m ← s.at_matrix idx
      let m' ← m.rotate_image k
      s.store_matrix idx m')
    s
    ⟨rfl, rfl, fun m M hM => ⟨M, by rw [if_neg (Nat.not_lt_zero m)], hM⟩⟩
    (by
      intro i st hi ⟨hlen, hcur, hmat⟩
      rw [s.size_eq] at hi
      obtain ⟨M, hM⟩ := matrices_get s i hi
      obtain ⟨M0, hM0, hst⟩ := hmat i M hM
      rw [if_neg (Nat.lt_irrefl i)] at hM0
      subst hM0
      obtain ⟨M', hM'⟩ := MatrixImage.rotate_image_ok M0 k
      obtain ⟨st', hst', hlen', hcur', hmat', _⟩ := store_matrix_spec st i M'
        (by rw [hlen]; exact hi)
      refine ⟨st', ?_, hlen'.trans hlen, hcur'.trans hcur, ?_⟩
      · simp only [at_matrix_eq st i M0 hst, bind_ok_eq, hM', hst']
      · intro m N hN
        rw [hmat']
        by_cases hmi : m = i
        · subst hmi
          have : N = M0 := by
            rw [hM] at hN
            exact (Option.some.inj hN).symm
          subst this
          have hlt : m < st.matrices.length := by rw [st.size_eq, hlen]; exact hi
          exact ⟨M', by rw [if_pos (Nat.lt_succ_self m)]; exact hM',
            List.getElem?_set_self hlt⟩
        · obtain ⟨N', hN', hstN⟩ := hmat m N hN
          refine ⟨N', ?_, by rw [List.getElem?_set_ne (Ne.symm hmi)]; exact hstN⟩
          by_cases hlt : m < i
          · rw [if_pos hlt] at hN'
            rw [if_pos (by omega)]
            exact hN'
          · rw [if_neg hlt] at hN'
            rw [if_neg (by omega)]
            exact hN')
  obtain ⟨s', hs', hlen, hcur, hmat⟩ := key
  refine ⟨s', hs', hlen, hcur, ?_⟩
  intro m M hM
  obtain ⟨M', hM', hs'M⟩ := hmat m M hM
  have hlt : m < s.matrices.length := (List.getElem?_eq_some.1 hM).1
  rw [if_pos hlt] at hM'
  exact ⟨M', hM', hs'M⟩

/-- Claim C15. For every canvas of `N` matrices and every `k`: `rotate_matrices(k)`
succeeds; afterwards, for every `m < N`, the matrix at index `m` is exactly the old matrix
at index `m` rotated by `MatrixImage::rotate_image(k)`; matrices are not reordered, and
`N` and the cursor are unchanged. -/
theorem rotate_matrices_rotates_each_matrix (s : MatrixChainImage) (k : Nat) :
    ∃ s', s.rotate_matrices k = Except.ok s' ∧
      s'.length = s.length ∧ s'.matrices.length = s.matrices.length ∧
      s'.cursor_position = s.cursor_position ∧
      ∀ m, m < s.length →
        ∃ M M', s.at_matrix m = Except.ok M ∧ M.rotate_image k = Except.ok M' ∧
          s'.at_matrix m = Except.ok M' := by
  obtain ⟨s', hs', hlen, hcur, hmat⟩ := rotate_matrices_spec s k
  refine ⟨s', hs', hlen, by rw [s'.size_eq, s.size_eq, hlen], hcur, ?_⟩
  intro m hm
  obtain ⟨M, hM⟩ := matrices_get s m hm
  obtain ⟨M', hM', hs'M⟩ := hmat m M hM
  exact ⟨M, M', at_matrix_eq s m M hM, hM', at_matrix_eq s' m M' hs'M⟩

/-- Witness for claim C15: a quarter turn of the matrices of the two-matrix example
canvas; row 3 of matrix 0 (`0xA0`, columns 0 and 2) becomes column 4 of matrix 0 (rows 0
and 2), row 3 of matrix 1 (`0x0F`) becomes column 4 of matrix 1 (rows 4 to 7). -/
theorem rotate_matrices_rotates_each_matrix_witness :
    (∃ s', two_chip_example.rotate_matrices 1 = Except.ok s' ∧
      s'.length = two_chip_example.length ∧
      s'.cursor_position = two_chip_example.cursor_position ∧
      ∀ m, m < two_chip_example.length →
        ∃ M M', two_chip_example.at_matrix m = Except.ok M ∧
          M.rotate_image 1 = Except.ok M' ∧ s'.at_matrix m = Except.ok M') ∧
    (two_chip_example.rotate_matrices 1).bind (fun s' => s'.get_row_of_matrix 0 0)
      = Except.ok 0x08 ∧
    (two_chip_example.rotate_matrices 1).bind (fun s' => s'.get_row_of_matrix 0 1)
      = Except.ok 0x00 ∧
    (two_chip_example.rotate_matrices 1).bind (fun s' => s'.get_row_of_matrix 1 0)
      = Except.ok 0x00 ∧
    (two_chip_example.rotate_matrices 1).bind (fun s' => s'.get_row_of_matrix 1 7)
      = Except.ok 0x08 := by
  obtain ⟨s', h1, h2, _, h3, h4⟩ := rotate_matrices_rotates_each_matrix two_chip_example 1
  exact ⟨⟨s', h1, h2, h3, h4⟩, rfl, rfl, rfl, rfl⟩


/-! ## Rotating the whole canvas -/

theorem row_byte_matrix_ge (s : MatrixChainImage) (m r : Nat) (h : s.length ≤ m) :
    s.row_byte m r = 0 := by
  unfold row_byte
  rw [matrices_get_none s m h]

/-- Writing a row of an existing matrix succeeds and changes that row only. -/
theorem set_row_of_matrix_spec (s : MatrixChainImage) (m row : Nat) (v : Byte)
    (hm : m < s.length) (hr : row < 8) :
    ∃ s', s.set_row_of_matrix m row v = Except.ok s' ∧ s'.length = s.length ∧
      s'.cursor_position = s.cursor_position ∧
      ∀ m' r', s'.row_byte m' r' = if m' = m ∧ r' = row then v else s.row_byte m' r' := by
  obtain ⟨M, hM⟩ := matrices_get s m hm
  obtain ⟨M', hM', hrows⟩ := MatrixImage.set_row_spec M row v hr
  obtain ⟨s', hs', hlen, hcur, hmat, _⟩ := store_matrix_spec s m M' hm
  refine ⟨s', ?_, hlen, hcur, ?_⟩
  · unfold set_row_of_matrix
    rw [at_matrix_eq s m M hM, bind_ok_eq, hM', bind_ok_eq, hs']
  · intro m' r'
    have hlt : m < s.matrices.length := by rw [s.size_eq]; exact hm
    by_cases hmm : m' = m
    · subst hmm
      rw [row_byte_of_matrix s' m' r' M' (by rw [hmat]; exact List.getElem?_set_self hlt),
        hrows r', row_byte_of_matrix s m' r' M hM]
      by_cases hrr : r' = row
      · rw [if_pos hrr, if_pos ⟨rfl, hrr⟩]
      · rw [if_neg hrr, if_neg (fun h => hrr h.2)]
    · rw [if_neg (fun h => hmm h.1)]
      unfold row_byte
      rw [hmat, List.getElem?_set_ne (Ne.symm hmm)]

/-- The row-swapping loops of the chain's `rotate_image`: they succeed, keep length and
cursor, and every row `(m, r)` becomes the bit reversal of the old row
`(N - 1 - m, 7 - r)`. -/
theorem swap_loops_spec (s : MatrixChainImage) :
    ∃ s', forUpTo s.length (fun matrix s =>
        forUpTo (MatrixImage.HEIGHT / 2) (fun row s => do
          let swap_matrix_a := matrix
          let swap_row_a := row
          let swap_matrix_b := s.length - 1 - matrix
          let swap_row_b := MatrixImage.HEIGHT - 1 - row
          let row_value_a ← s.get_row_of_matrix swap_matrix_a swap_row_a
          let row_value_b ← s.get_row_of_matrix swap_matrix_b swap_row_b
          let s1 ← s.set_row_of_matrix swap_matrix_b swap_row_b
            (MatrixImage.reverse_bits_lookup row_value_a)
          s1.set_row_of_matrix swap_matrix_a swap_row_a
            (MatrixImage.reverse_bits_lookup row_value_b)) s) s = Except.ok s' ∧
      s'.length = s.length ∧ s'.cursor_position = s.cursor_position ∧
      ∀ m r, m < s.length → r < 8 →
        s'.row_byte m r
          = MatrixImage.reverse_bits_lookup (s.row_byte (s.length - 1 - m) (7 - r)) := by
  have key := forUpTo_invariant
    (fun j (st : MatrixChainImage) =>
      st.length = s.length ∧ st.cursor_position = s.cursor_position ∧
      ∀ m r,
        (swapped s.length j 0 m r → st.row_byte m r
          = MatrixImage.reverse_bits_lookup (s.row_byte (s.length - 1 - m) (7 - r))) ∧
        (¬ swapped s.length j 0 m r → st.row_byte m r = s.row_byte m r))
    s.length
    (fun matrix s =>
        forUpTo (MatrixImage.HEIGHT / 2) (fun row s => do
          let swap_matrix_a := matrix
          let swap_row_a := row
          let swap_matrix_b := s.length - 1 - matrix
          let swap_row_b := MatrixImage.HEIGHT - 1 - row
          let row_value_a ← s.get_row_of_matrix swap_matrix_a swap_row_a
          let row_value_b ← s.get_row_of_matrix swap_matrix_b swap_row_b
          let s1 ← s.set_row_of_matrix swap_matrix_b swap_row_b
            (MatrixImage.reverse_bits_lookup row_value_a)
          s1.set_row_of_matrix swap_matrix_a swap_row_a
            (MatrixImage.reverse_bits_lookup row_value_b)) s)
    s
    (by
      refine ⟨rfl, rfl, ?_⟩
      intro m r
      constructor
      · intro h
        unfold swapped at h
        omega
      · intro _; rfl)
    (by
      intro j st hj ⟨hlen, hcur, hrows⟩
      have inner := forUpTo_invariant
        (fun i (st' : MatrixChainImage) =>
          st'.length = s.length ∧ st'.cursor_position = s.cursor_position ∧
          ∀ m r,
            (swapped s.length j i m r → st'.row_byte m r
              = MatrixImage.reverse_bits_lookup (s.row_byte (s.length - 1 - m) (7 - r))) ∧
            (¬ swapped s.length j i m r → st'.row_byte m r = s.row_byte m r))
        (MatrixImage.HEIGHT / 2)
        (fun row s => do
          let swap_matrix_a := j
          let swap_row_a := row
          let swap_matrix_b := s.length - 1 - j
          let swap_row_b := MatrixImage.HEIGHT - 1 - row
          let row_value_a ← s.get_row_of_matrix swap_matrix_a swap_row_a
          let row_value_b ← s.get_row_of_matrix swap_matrix_b swap_row_b
          let s1 ← s.set_row_of_matrix swap_matrix_b swap_row_b
            (MatrixImage.reverse_bits_lookup row_value_a)
          s1.set_row_of_matrix swap_matrix_a swap_row_a
            (MatrixImage.reverse_bits_lookup row_value_b))
        st ⟨hlen, hcur, hrows⟩
        (by
          intro i st' hi ⟨hlen', hcur', hrows'⟩
          have hi4 : i < 4 := hi
          have ha : st'.row_byte j i = s.row_byte j i :=
            (hrows' j i).2 (by unfold swapped; omega)
          have hb : st'.row_byte (s.length - 1 - j) (7 - i)
              = s.row_byte (s.length - 1 - j) (7 - i) :=
            (hrows' (s.length - 1 - j) (7 - i)).2 (by unfold swapped; omega)
          obtain ⟨s1, hs1, hlen1, hcur1, hrows1⟩ := set_row_of_matrix_spec st'
            (s.length - 1 - j) (7 - i) (MatrixImage.reverse_bits_lookup (s.row_byte j i))
            (by rw [hlen']; omega) (by omega)
          obtain ⟨s2, hs2, hlen2, hcur2, hrows2⟩ := set_row_of_matrix_spec s1
            j i (MatrixImage.reverse_bits_lookup (s.row_byte (s.length - 1 - j) (7 - i)))
            (by rw [hlen1, hlen']; exact hj) (by omega)
          refine ⟨s2, ?_, by rw [hlen2, hlen1, hlen'], by rw [hcur2, hcur1, hcur'], ?_⟩
          · simp only [MatrixImage.HEIGHT_eq, hlen',
              get_row_of_matrix_eq st' j i (by rw [hlen']; exact hj) (by omega),
              get_row_of_matrix_eq st' (s.length - 1 - j) (8 - 1 - i)
                (by rw [hlen']; omega) (by omega),
              bind_ok_eq, ha]
            rw [show 8 - 1 - i = 7 - i by omega, hb, hs1, bind_ok_eq, hs2]
          · intro m r
            rw [hrows2 m r, hrows1 m r]
            by_cases hA : m = j ∧ r = i
            · obtain ⟨hm, hr⟩ := hA
              subst hm hr
              rw [if_pos ⟨rfl, rfl⟩]
              constructor
              · intro _; rfl
              · intro h
                exact absurd (show swapped s.length m (r + 1) m r by unfold swapped; omega) h
            · rw [if_neg hA]
              by_cases hB : m = s.length - 1 - j ∧ r = 7 - i
              · obtain ⟨hm, hr⟩ := hB
                subst hm hr
                rw [if_pos ⟨rfl, rfl⟩]
                constructor
                · intro _
                  rw [show s.length - 1 - (s.length - 1 - j) = j by omega,
                    show 7 - (7 - i) = i by omega]
                · intro h
                  exact absurd (show swapped s.length j (i + 1) (s.length - 1 - j) (7 - i) by
                    unfold swapped; omega) h
              · rw [if_neg hB]
                have hiff : swapped s.length j (i + 1) m r ↔ swapped s.length j i m r := by
                  unfold swapped
                  constructor <;> intro h <;> omega
                rw [hiff]
                exact hrows' m r)
      obtain ⟨st', hst', hlen', hcur', hrows'⟩ := inner
      refine ⟨st', hst', hlen', hcur', ?_⟩
      intro m r
      have hiff : swapped s.length (j + 1) 0 m r ↔ swapped s.length j (MatrixImage.HEIGHT / 2) m r := by
        unfold swapped
        rw [MatrixImage.HEIGHT_eq]
        constructor <;> intro h <;> omega
      rw [hiff]
      exact hrows' m r)
  obtain ⟨s', hs', hlen, hcur, hrows⟩ := key
  refine ⟨s', hs', hlen, hcur, ?_⟩
  intro m r hm hr
  exact (hrows m r).1 (by unfold swapped; omega)


/-- The chain's `rotate_image` for an odd argument, in terms of rows. -/
theorem rotate_image_odd_rows (s : MatrixChainImage) (k : Nat) (hk : k % 2 = 1) :
    ∃ s', s.rotate_image k = Except.ok s' ∧
      s'.length = s.length ∧ s'.cursor_position = s.cursor_position ∧
      ∀ m r, m < s.length → r < 8 →
        s'.row_byte m r
          = MatrixImage.reverse_bits_lookup (s.row_byte (s.length - 1 - m) (7 - r)) := by
  obtain ⟨s', hs', hrest⟩ := swap_loops_spec s
  refine ⟨s', ?_, hrest⟩
  unfold rotate_image
  rw [hk]
  exact hs'

/-- The chain's `rotate_image` for an even argument returns the canvas as it is. -/
theorem rotate_image_even (s : MatrixChainImage) (k : Nat) (hk : k % 2 = 0) :
    s.rotate_image k = Except.ok s := by
  unfold rotate_image
  rw [hk]
  rfl

/-- Claim C14. For every canvas of `N` matrices: `rotate_image(k)` with `k` even leaves
the canvas unchanged, and with `k` odd succeeds and rotates the whole `8 x 8N` canvas by
180 degrees: the new pixel `(r, c)` equals the old pixel `(7 - r, 8 * N - 1 - c)` for
every `r` in `0..7` and `c` in `0..8N-1`; equivalently the new row byte of
`(matrix m, row r)` is the bit reversal of the old row byte of
`(matrix N - 1 - m, row 7 - r)`, for every `m < N` and `r < 8`. The length and the cursor
are unchanged. -/
theorem rotate_image_turns_canvas (s : MatrixChainImage) (k : Nat) :
    (k % 2 = 0 → s.rotate_image k = Except.ok s) ∧
    (k % 2 = 1 →
      ∃ s', s.rotate_image k = Except.ok s' ∧
        s'.length = s.length ∧ s'.cursor_position = s.cursor_position ∧
        (∀ r c, r < 8 → c < 8 * s.length →
          ∃ p, s.get_pixel (7 - r) (8 * s.length - 1 - c) = Except.ok p ∧
            s'.get_pixel r c = Except.ok p) ∧
        (∀ m r, m < s.length → r < 8 →
          ∃ old new, s.get_row_of_matrix (s.length - 1 - m) (7 - r) = Except.ok old ∧
            s'.get_row_of_matrix m r = Except.ok new ∧
            new = MatrixImage.reverse_bits_lookup_table.getD old.val 0 ∧
            ∀ i, i < 8 → new.val.testBit i = old.val.testBit (7 - i))) := by
  refine ⟨rotate_image_even s k, ?_⟩
  intro hk
  obtain ⟨s', hs', hlen, hcur, hrows⟩ := rotate_image_odd_rows s k hk
  refine ⟨s', hs', hlen, hcur, ?_, ?_⟩
  · intro r c hr hc
    refine ⟨_, chain_get_pixel_eq s (7 - r) (8 * s.length - 1 - c) (by omega) (by omega), ?_⟩
    rw [chain_get_pixel_eq s' r c hr (by rw [hlen]; exact hc),
      chain_px_eq_row_byte s' r c hr (by rw [hlen]; exact hc),
      chain_px_eq_row_byte s (7 - r) (8 * s.length - 1 - c) (by omega) (by omega),
      hrows (c / 8) r (by omega) hr]
    have h1 := MatrixImage.reverse_bits_lookup_testBit
      (s.row_byte (s.length - 1 - c / 8) (7 - r)) ⟨7 - c % 8, by omega⟩
    simp only at h1
    rw [h1, show (8 * s.length - 1 - c) / 8 = s.length - 1 - c / 8 by omega,
      show (8 * s.length - 1 - c) % 8 = 7 - c % 8 by omega]
  · intro m r hm hr
    refine ⟨_, _, get_row_of_matrix_eq s (s.length - 1 - m) (7 - r) (by omega) (by omega),
      get_row_of_matrix_eq s' m r (by rw [hlen]; exact hm) hr, ?_, ?_⟩
    · rw [hrows m r hm hr]
      rfl
    · intro i hi
      rw [hrows m r hm hr]
      exact MatrixImage.reverse_bits_lookup_testBit _ ⟨i, hi⟩

/-- Witness for claim C14: turning the two-matrix example canvas (rows 3 equal to `0xA0`
and `0x0F`) upside down puts `0xF0` into row 4 of matrix 0 and `0x05` into row 4 of
matrix 1; an even argument changes nothing. -/
theorem rotate_image_turns_canvas_witness :
    (1 % 2 = 1) ∧
    (∃ s', two_chip_example.rotate_image 1 = Except.ok s' ∧
      s'.cursor_position = two_chip_example.cursor_position ∧
      (∀ r c, r < 8 → c < 8 * two_chip_example.length →
        ∃ p, two_chip_example.get_pixel (7 - r) (8 * two_chip_example.length - 1 - c)
            = Except.ok p ∧
          s'.get_pixel r c = Except.ok p)) ∧
    (two_chip_example.rotate_image 1).bind (fun s' => s'.get_row_of_matrix 0 4)
      = Except.ok 0xF0 ∧
    (two_chip_example.rotate_image 1).bind (fun s' => s'.get_row_of_matrix 1 4)
      = Except.ok 0x05 ∧
    (two_chip_example.rotate_image 1).bind (fun s' => s'.get_row_of_matrix 1 3)
      = Except.ok 0x00 ∧
    two_chip_example.rotate_image 4 = Except.ok two_chip_example := by
  obtain ⟨s', h1, _, h2, h3, _⟩ := (rotate_image_turns_canvas two_chip_example 1).2 rfl
  exact ⟨rfl, ⟨s', h1, h2, h3⟩, rfl, rfl, rfl,
    (rotate_image_turns_canvas two_chip_example 4).1 rfl⟩


/-! ## Cropping -/

/-- The first `j` rounds of the outer loop of `get_cropped_image` (with `j` at most the
length of the source and of the new image): they succeed, the source is the same, and the
rows of the first `j` matrices have been copied. -/
theorem crop_loops_spec (s : MatrixChainImage) (n j : Nat) (hjn : j ≤ n)
    (hjs : j ≤ s.length) :
    ∃ st, forUpTo j (fun matrix st =>
        forUpTo MatrixImage.HEIGHT (fun row st => do
          let image_row_value ← st.1.get_row_of_matrix matrix row
          let cropped ← st.2.set_row_of_matrix matrix row image_row_value
          pure (st.1, cropped)) st) (s, MatrixChainImage.new n) = Except.ok st ∧
      st.1 = s ∧ st.2.length = n ∧ st.2.cursor_position = 0 ∧
      ∀ m r, m < j → r < 8 → st.2.row_byte m r = s.row_byte m r := by
  apply forUpTo_invariant
    (fun j (st : MatrixChainImage × MatrixChainImage) =>
      st.1 = s ∧ st.2.length = n ∧ st.2.cursor_position = 0 ∧
      ∀ m r, m < j → r < 8 → st.2.row_byte m r = s.row_byte m r)
  · refine ⟨rfl, rfl, rfl, ?_⟩
    intro m r hm
    exact absurd hm (Nat.not_lt_zero m)
  · intro i st hi ⟨hsrc, hlen, hcur, hrows⟩
    have inner := forUpTo_invariant
      (fun k (st' : MatrixChainImage × MatrixChainImage) =>
        st'.1 = s ∧ st'.2.length = n ∧ st'.2.cursor_position = 0 ∧
        ∀ m r, (m < i ∨ (m = i ∧ r < k)) → r < 8 → st'.2.row_byte m r = s.row_byte m r)
      MatrixImage.HEIGHT
      (fun row (st : MatrixChainImage × MatrixChainImage) => do
          let image_row_value ← st.1.get_row_of_matrix i row
          let cropped ← st.2.set_row_of_matrix i row image_row_value
          pure (st.1, cropped))
      st
      ⟨hsrc, hlen, hcur, fun m r hm hr => hrows m r (by omega) hr⟩
      (by
        intro k st' hk ⟨hsrc', hlen', hcur', hrows'⟩
        have hk8 : k < 8 := hk
        obtain ⟨c, hc, hclen, hccur, hcrows⟩ := set_row_of_matrix_spec st'.2 i k
          (s.row_byte i k) (by rw [hlen']; omega) hk8
        refine ⟨(st'.1, c), ?_, hsrc', hclen.trans hlen', hccur.trans hcur', ?_⟩
        · simp only [hsrc', get_row_of_matrix_eq s i k (by omega) hk8, bind_ok_eq, hc]
          rfl
        · intro m r hm hr
          simp only
          rw [hcrows m r]
          by_cases h : m = i ∧ r = k
          · rw [if_pos h, h.1, h.2]
          · rw [if_neg h]
            exact hrows' m r (by omega) hr)
    obtain ⟨st', hst', hsrc', hlen', hcur', hrows'⟩ := inner
    refine ⟨st', hst', hsrc', hlen', hcur', ?_⟩
    intro m r hm hr
    exact hrows' m r (by rw [MatrixImage.HEIGHT_eq]; omega) hr

/-- The method `get_cropped_image`: for `n` at most the length of the source it succeeds,
the source is the same afterwards, and the new canvas has length `n`, cursor `0` and the
rows of the first `n` matrices of the source; for larger `n` it fails at the access
`matrices.at(N)`. -/
theorem get_cropped_image_spec (s : MatrixChainImage) (n : Nat) :
    (n ≤ s.length →
      ∃ cropped, s.get_cropped_image n = Except.ok (s, cropped) ∧
        cropped.length = n ∧ cropped.cursor_position = 0 ∧
        ∀ m r, m < n → r < 8 → cropped.row_byte m r = s.row_byte m r) ∧
    (s.length < n → s.get_cropped_image n = Except.error Error.out_of_range) := by
  constructor
  · intro hn
    obtain ⟨st, hst, hsrc, hlen, hcur, hrows⟩ := crop_loops_spec s n n (Nat.le_refl n) hn
    refine ⟨st.2, ?_, hlen, hcur, hrows⟩
    unfold get_cropped_image
    simp only
    rw [hst, ← hsrc]
  · intro hn
    obtain ⟨st, hst, hsrc, _, _, _⟩ := crop_loops_spec s n s.length (by omega) (Nat.le_refl _)
    unfold get_cropped_image
    simp only
    apply forUpTo_error n s.length _ _ st Error.out_of_range hn hst
    apply forUpTo_error MatrixImage.HEIGHT 0 _ _ st Error.out_of_range (by decide) rfl
    show (st.1.get_row_of_matrix s.length 0 >>= _) = _
    rw [hsrc]
    unfold get_row_of_matrix
    rw [at_matrix_error s s.length (Nat.le_refl _)]
    rfl

/-- Claim C16. For every canvas of `N` matrices and every `n <= N`: `get_cropped_image(n)`
succeeds and returns a canvas of length `n` whose row bytes satisfy
`get_row_of_matrix(m, r) = source.get_row_of_matrix(m, r)` for every `m < n` and `r < 8`
(so every pixel in columns `0..8n-1` matches), whose cursor is `0`, and the source canvas
(rows and cursor) is unchanged; for `n > N` the operation fails with a bounds error. -/
theorem get_cropped_image_copies_first_matrices (s : MatrixChainImage) (n : Nat) :
    (n ≤ s.length →
      ∃ cropped, s.get_cropped_image n = Except.ok (s, cropped) ∧
        cropped.length = n ∧ cropped.matrices.length = n ∧ cropped.cursor_position = 0 ∧
        (∀ m r, m < n → r < 8 →
          ∃ b, s.get_row_of_matrix m r = Except.ok b ∧
            cropped.get_row_of_matrix m r = Except.ok b) ∧
        (∀ r c, r < 8 → c < 8 * n →
          ∃ p, s.get_pixel r c = Except.ok p ∧ cropped.get_pixel r c = Except.ok p)) ∧
    (s.length < n → s.get_cropped_image n = Except.error Error.out_of_range) := by
  refine ⟨?_, (get_cropped_image_spec s n).2⟩
  intro hn
  obtain ⟨cropped, hc, hlen, hcur, hrows⟩ := (get_cropped_image_spec s n).1 hn
  refine ⟨cropped, hc, hlen, by rw [cropped.size_eq, hlen], hcur, ?_, ?_⟩
  · intro m r hm hr
    refine ⟨_, get_row_of_matrix_eq s m r (by omega) hr, ?_⟩
    rw [get_row_of_matrix_eq cropped m r (by rw [hlen]; exact hm) hr, hrows m r hm hr]
  · intro r c hr hc'
    refine ⟨_, chain_get_pixel_eq s r c hr (by omega), ?_⟩
    rw [chain_get_pixel_eq cropped r c hr (by rw [hlen]; exact hc'),
      chain_px_eq_row_byte cropped r c hr (by rw [hlen]; exact hc'),
      chain_px_eq_row_byte s r c hr (by omega), hrows (c / 8) r (by omega) hr]

/-- Witness for claim C16: cropping the two-matrix example canvas to its first matrix
gives a one-matrix canvas with row 3 equal to `0xA0`; cropping it to three matrices
fails. -/
theorem get_cropped_image_copies_first_matrices_witness :
    (1 ≤ two_chip_example.length) ∧
    (∃ cropped, two_chip_example.get_cropped_image 1 = Except.ok (two_chip_example, cropped) ∧
      cropped.length = 1 ∧ cropped.cursor_position = 0 ∧
      (∀ m r, m < 1 → r < 8 →
        ∃ b, two_chip_example.get_row_of_matrix m r = Except.ok b ∧
          cropped.get_row_of_matrix m r = Except.ok b)) ∧
    (two_chip_example.get_cropped_image 1).bind (fun r => r.2.get_row_of_matrix 0 3)
      = Except.ok 0xA0 ∧
    (two_chip_example.length < 3) ∧
    (two_chip_example.get_cropped_image 3).map (fun r => r.2.length)
      = Except.error Error.out_of_range := by
  obtain ⟨c, h1, h2, _, h3, h4, _⟩ :=
    (get_cropped_image_copies_first_matrices two_chip_example 1).1 (by decide)
  have h5 := (get_cropped_image_copies_first_matrices two_chip_example 3).2 (by decide)
  exact ⟨by decide, ⟨c, h1, h2, h3, h4⟩, rfl, by decide, by rw [h5]; rfl⟩


/-! ## The cursor invariant -/

/-- A successful `set_pixel` keeps the length and the cursor. -/
theorem set_pixel_fields (s s' : MatrixChainImage) (row col : Nat) (v : Byte)
    (h : s.set_pixel row col v = Except.ok s') :
    s'.length = s.length ∧ s'.cursor_position = s.cursor_position := by
  by_cases hin : row < 8 ∧ col < 8 * s.length
  · obtain ⟨s'', hs'', hlen, hcur, _⟩ := chain_set_pixel_spec s row col v hin.1 hin.2
    rw [hs''] at h
    cases h
    exact ⟨hlen, hcur⟩
  · rw [chain_set_pixel_error s row col v (by omega)] at h
    cases h

/-- A successful `draw_character(code_point, position, font)` keeps the length and the
cursor, whatever the font. -/
theorem draw_character_at_fields (s s' : MatrixChainImage) (cp : Byte) (position : Nat)
    (font : Font) (h : s.draw_character_at cp position font = Except.ok s') :
    s'.length = s.length ∧ s'.cursor_position = s.cursor_position := by
  unfold draw_character_at at h
  refine forUpTo_preserves
    (fun st : MatrixChainImage => st.length = s.length ∧ st.cursor_position = s.cursor_position)
    _ _ ?_ s s' h ⟨rfl, rfl⟩
  intro i st st' hrow hP
  refine forUpTo_preserves
    (fun st : MatrixChainImage => st.length = s.length ∧ st.cursor_position = s.cursor_position)
    _ _ ?_ st st' hrow hP
  intro j t t' hstep hQ
  cases hp : font.get_pixel cp i j with
  | error e =>
    have hstep' : (font.get_pixel cp i j >>= fun p => t.set_pixel i (position + j) p)
        = Except.ok t' := hstep
    rw [hp] at hstep'
    cases hstep'
  | ok p =>
    have hstep' : (font.get_pixel cp i j >>= fun p => t.set_pixel i (position + j) p)
        = Except.ok t' := hstep
    rw [hp, bind_ok_eq] at hstep'
    obtain ⟨h1, h2⟩ := set_pixel_fields t t' _ _ _ hstep'
    exact ⟨h1.trans hQ.1, h2.trans hQ.2⟩

/-- A successful `draw_character(code_point, font)` keeps the length and advances the
cursor by the width of the glyph, whatever the font. -/
theorem draw_character_fields (s s' : MatrixChainImage) (cp : Byte) (font : Font)
    (h : s.draw_character cp font = Except.ok s') :
    s'.length = s.length ∧
      s'.cursor_position = s.cursor_position + font.get_glyph_width cp := by
  unfold draw_character at h
  cases hd : s.draw_character_at cp s.cursor_position font with
  | error e =>
    rw [hd] at h
    cases h
  | ok s1 =>
    rw [hd, bind_ok_eq] at h
    obtain ⟨h1, h2⟩ := draw_character_at_fields s s1 cp _ font hd
    have h' : (Except.ok { s1 with cursor_position :=
        s1.cursor_position + font.get_glyph_width cp } : Except Error MatrixChainImage)
        = Except.ok s' := h
    cases h'
    exact ⟨h1, by show s1.cursor_position + _ = _; rw [h2]⟩

/-- A successful `draw_text` keeps the length and leaves the cursor inside the canvas,
whatever the font. -/
theorem draw_text_loop_fields (font : Font) :
    ∀ (text leftover : List Byte) (s s' : MatrixChainImage),
      s.cursor_position ≤ 8 * s.length →
      draw_text_loop font text s = Except.ok (leftover, s') →
      s'.length = s.length ∧ s'.cursor_position ≤ 8 * s'.length := by
  intro text
  induction text with
  | nil =>
    intro leftover s s' hs h
    have h' : (Except.ok ([], s) : Except Error (List Byte × MatrixChainImage))
        = Except.ok (leftover, s') := h
    cases h'
    exact ⟨rfl, hs⟩
  | cons c rest ih =>
    intro leftover s s' hs h
    simp only [draw_text_loop] at h
    rw [remaining_space_eq s hs] at h
    by_cases hfit : font.get_glyph_width c > 8 * s.length - s.cursor_position
    · rw [if_pos hfit] at h
      have h' : (Except.ok (c :: rest, s) : Except Error (List Byte × MatrixChainImage))
          = Except.ok (leftover, s') := h
      cases h'
      exact ⟨rfl, hs⟩
    · rw [if_neg hfit] at h
      cases hd : s.draw_character c font with
      | error e =>
        rw [hd] at h
        cases h
      | ok s1 =>
        rw [hd] at h
        obtain ⟨h1, h2⟩ := draw_character_fields s s1 c font hd
        obtain ⟨h3, h4⟩ := ih leftover s1 s' (by rw [h1, h2]; omega) h
        exact ⟨h3.trans h1, h4⟩

/-- The chain's `rotate_image` always succeeds and keeps the length and the cursor. -/
theorem rotate_image_fields (s : MatrixChainImage) (k : Nat) :
    ∃ s', s.rotate_image k = Except.ok s' ∧ s'.length = s.length ∧
      s'.cursor_position = s.cursor_position := by
  have hk : k % 2 = 0 ∨ k % 2 = 1 := by omega
  rcases hk with hk | hk
  · exact ⟨s, rotate_image_even s k hk, rfl, rfl⟩
  · obtain ⟨s', hs', hlen, hcur, _⟩ := rotate_image_odd_rows s k hk
    exact ⟨s', hs', hlen, hcur⟩

/-- Every public operation that returns keeps the cursor inside the canvas and keeps the
number of matrices. -/
theorem invariant_preserved (s s' : MatrixChainImage)
    (hs : s.cursor_position ≤ 8 * s.length) :
    (∀ text leftover font, s.draw_text text font = Except.ok (leftover, s') →
      s'.cursor_position ≤ 8 * s'.length ∧ s'.length = s.length) ∧
    (s.left_shift_image = Except.ok s' →
      s'.cursor_position ≤ 8 * s'.length ∧ s'.length = s.length) ∧
    (∀ row col v, s.set_pixel row col v = Except.ok s' →
      s'.cursor_position ≤ 8 * s'.length ∧ s'.length = s.length) ∧
    (∀ k, s.rotate_matrices k = Except.ok s' →
      s'.cursor_position ≤ 8 * s'.length ∧ s'.length = s.length) ∧
    (∀ k, s.rotate_image k = Except.ok s' →
      s'.cursor_position ≤ 8 * s'.length ∧ s'.length = s.length) ∧
    (∀ n src, s.get_cropped_image n = Except.ok (src, s') →
      s'.cursor_position ≤ 8 * s'.length ∧ s'.length = n ∧ src = s) := by
  refine ⟨?_, ?_, ?_, ?_, ?_, ?_⟩
  · intro text leftover font h
    obtain ⟨h1, h2⟩ := draw_text_loop_fields font text leftover s s' hs h
    exact ⟨h2, h1⟩
  · intro h
    obtain ⟨s'', hs'', hlen, hcur, _⟩ := left_shift_image_spec s
    rw [hs''] at h
    cases h
    exact ⟨by rw [hlen, hcur]; omega, hlen⟩
  · intro row col v h
    obtain ⟨h1, h2⟩ := set_pixel_fields s s' row col v h
    exact ⟨by rw [h1, h2]; exact hs, h1⟩
  · intro k h
    obtain ⟨s'', hs'', hlen, hcur, _⟩ := rotate_matrices_spec s k
    rw [hs''] at h
    cases h
    exact ⟨by rw [hlen, hcur]; exact hs, hlen⟩
  · intro k h
    obtain ⟨s'', hs'', hlen, hcur⟩ := rotate_image_fields s k
    rw [hs''] at h
    cases h
    exact ⟨by rw [hlen, hcur]; exact hs, hlen⟩
  · intro n src h
    by_cases hn : n ≤ s.length
    · obtain ⟨c, hc, hlen, hcur, _⟩ := (get_cropped_image_spec s n).1 hn
      rw [hc] at h
      cases h
      exact ⟨by rw [hcur]; exact Nat.zero_le _, hlen, rfl⟩
    · rw [(get_cropped_image_spec s n).2 (by omega)] at h
      cases h


/-- Claim C13. Cursor invariant: a canvas constructed with length `N` has cursor `0` and
`N` matrices; every operation (`draw_text`, `left_shift_image`, `set_pixel`,
`rotate_matrices`, `rotate_image`; `get_cropped_image` for its result) that returns
preserves `0 <= cursor <= 8 * N` and leaves the number of matrices `N` unchanged
(`get_cropped_image(n)` also leaves the source as it is and gives a canvas of `n`
matrices); `left_shift_image`, `rotate_matrices`, `rotate_image` always return, and so
does `draw_text` with a fully loaded font; so the invariant holds in every reachable
canvas state. -/
theorem cursor_invariant_holds :
    (∀ N, (new N).cursor_position = 0 ∧ (new N).length = N ∧ (new N).matrices.length = N) ∧
    (∀ s s' : MatrixChainImage, s.cursor_position ≤ 8 * s.length →
      (∀ text leftover font, s.draw_text text font = Except.ok (leftover, s') →
        s'.cursor_position ≤ 8 * s'.length ∧ s'.length = s.length ∧
        s'.matrices.length = s.matrices.length) ∧
      (s.left_shift_image = Except.ok s' →
        s'.cursor_position ≤ 8 * s'.length ∧ s'.length = s.length ∧
        s'.matrices.length = s.matrices.length) ∧
      (∀ row col v, s.set_pixel row col v = Except.ok s' →
        s'.cursor_position ≤ 8 * s'.length ∧ s'.length = s.length ∧
        s'.matrices.length = s.matrices.length) ∧
      (∀ k, s.rotate_matrices k = Except.ok s' →
        s'.cursor_position ≤ 8 * s'.length ∧ s'.length = s.length ∧
        s'.matrices.length = s.matrices.length) ∧
      (∀ k, s.rotate_image k = Except.ok s' →
        s'.cursor_position ≤ 8 * s'.length ∧ s'.length = s.length ∧
        s'.matrices.length = s.matrices.length) ∧
      (∀ n src, s.get_cropped_image n = Except.ok (src, s') →
        s'.cursor_position ≤ 8 * s'.length ∧ s'.length = n ∧ s'.matrices.length = n ∧
        src = s)) ∧
    (∀ s : MatrixChainImage, s.cursor_position ≤ 8 * s.length →
      (∃ s', s.left_shift_image = Except.ok s') ∧
      (∀ k, ∃ s', s.rotate_matrices k = Except.ok s') ∧
      (∀ k, ∃ s', s.rotate_image k = Except.ok s') ∧
      (∀ text font, (∀ c, font.get_glyph_width c ≤ 8) →
        ∃ leftover s', s.draw_text text font = Except.ok (leftover, s'))) ∧
    (∀ s, Reachable s → s.cursor_position ≤ 8 * s.length ∧ s.matrices.length = s.length) := by
  have hsize : ∀ a b : MatrixChainImage, a.length = b.length →
      a.matrices.length = b.matrices.length := by
    intro a b h
    rw [a.size_eq, b.size_eq, h]
  refine ⟨?_, ?_, ?_, ?_⟩
  · intro N
    exact ⟨rfl, rfl, List.length_replicate _ _⟩
  · intro s s' hs
    obtain ⟨h1, h2, h3, h4, h5, h6⟩ := invariant_preserved s s' hs
    refine ⟨?_, ?_, ?_, ?_, ?_, ?_⟩
    · intro text leftover font h
      obtain ⟨a, b⟩ := h1 text leftover font h
      exact ⟨a, b, hsize _ _ b⟩
    · intro h
      obtain ⟨a, b⟩ := h2 h
      exact ⟨a, b, hsize _ _ b⟩
    · intro row col v h
      obtain ⟨a, b⟩ := h3 row col v h
      exact ⟨a, b, hsize _ _ b⟩
    · intro k h
      obtain ⟨a, b⟩ := h4 k h
      exact ⟨a, b, hsize _ _ b⟩
    · intro k h
      obtain ⟨a, b⟩ := h5 k h
      exact ⟨a, b, hsize _ _ b⟩
    · intro n src h
      obtain ⟨a, b, c⟩ := h6 n src h
      exact ⟨a, b, by rw [s'.size_eq, b], c⟩
  · intro s hs
    refine ⟨?_, ?_, ?_, ?_⟩
    · obtain ⟨s', h, _⟩ := left_shift_image_spec s
      exact ⟨s', h⟩
    · intro k
      obtain ⟨s', h, _⟩ := rotate_matrices_spec s k
      exact ⟨s', h⟩
    · intro k
      obtain ⟨s', h, _⟩ := rotate_image_fields s k
      exact ⟨s', h⟩
    · intro text font hfont
      obtain ⟨i, s', _, h, _⟩ := draw_text_loop_spec font hfont text s hs
      exact ⟨_, s', h⟩
  · intro s hreach
    have key : s.cursor_position ≤ 8 * s.length := by
      induction hreach with
      | new N => exact Nat.zero_le _
      | draw_text text leftover font _ h ih =>
        exact ((invariant_preserved _ _ ih).1 text leftover font h).1
      | left_shift_image _ h ih => exact ((invariant_preserved _ _ ih).2.1 h).1
      | set_pixel row col v _ h ih =>
        exact ((invariant_preserved _ _ ih).2.2.1 row col v h).1
      | rotate_matrices k _ h ih => exact ((invariant_preserved _ _ ih).2.2.2.1 k h).1
      | rotate_image k _ h ih => exact ((invariant_preserved _ _ ih).2.2.2.2.1 k h).1
      | get_cropped_image_source n _ h ih =>
        have := ((invariant_preserved _ _ ih).2.2.2.2.2 n _ h).2.2
        rw [this]
        exact ih
      | get_cropped_image_result n _ h ih =>
        exact ((invariant_preserved _ _ ih).2.2.2.2.2 n _ h).1
    exact ⟨key, s.size_eq⟩

/-- Witness for claim C13: the canvas reached from a fresh one-matrix canvas by drawing
the text `[4, 2, 7]` with the example font and then scrolling once is reachable; its
cursor is `7`, inside the canvas of width `8`. -/
theorem cursor_invariant_holds_witness :
    (∃ s, Reachable s ∧
      ((new 1).draw_text [4, 2, 7] Font.example_font).bind
        (fun r => r.2.left_shift_image) = Except.ok s ∧
      s.cursor_position ≤ 8 * s.length ∧ s.matrices.length = s.length) ∧
    (((new 1).draw_text [4, 2, 7] Font.example_font).bind
      (fun r => r.2.left_shift_image)).map (fun s => s.cursor_position) = Except.ok 7 := by
  have hfont : ∀ c, Font.example_font.get_glyph_width c ≤ 8 := fun c => by
    show c.val % 8 + 1 ≤ 8
    omega
  obtain ⟨_, _, htotal, hreach⟩ := cursor_invariant_holds
  obtain ⟨l, s1, h1⟩ := (htotal (new 1) (Nat.zero_le _)).2.2.2 [4, 2, 7] Font.example_font hfont
  have r1 : Reachable s1 := Reachable.draw_text _ _ _ (Reachable.new 1) h1
  obtain ⟨s2, h2⟩ := (htotal s1 (hreach s1 r1).1).1
  have r2 : Reachable s2 := Reachable.left_shift_image r1 h2
  refine ⟨⟨s2, r2, ?_, hreach s2 r2⟩, rfl⟩
  rw [h1]
  exact h2

end MatrixChainImage

/-! ## Glyph: the constructor -/

namespace Glyph

theorem size_t_add_of_le (a b : Nat) (h : a + b ≤ SIZE_MAX) : size_t_add a b = a + b := by
  unfold size_t_add
  exact Nat.mod_eq_of_lt (by omega)

theorem column_blank_iff (g : Glyph) (col : Nat) :
    g.column_blank col = true ↔ ∀ row, row < 8 → g.px row col = false := by
  unfold column_blank
  simp [List.all_eq_true]

theorem decide_bit_value_eq_zero (b : Bool) : decide (bit_value b = 0) = !b := by
  cases b <;> rfl

/-- The emptiness test of the constructor computes `column_blank`. -/
theorem column_is_empty_eq (g : Glyph) (col : Nat) (hc : col < 8) :
    g.column_is_empty col = Except.ok (g.column_blank col) := by
  unfold column_is_empty
  obtain ⟨e, he, hinv⟩ := forUpTo_invariant
    (fun n (e : Bool) => e = true ↔ ∀ row, row < n → g.px row col = false) HEIGHT
    (fun row empty_column =>
      if empty_column then do
        let p ← g.get_pixel row col
        pure (decide (p = 0))
      else pure false) true
    (by simp)
    (by
      intro i e hi hinv
      have hi8 : i < 8 := hi
      cases e with
      | false =>
        refine ⟨false, rfl, ?_⟩
        simp only [Bool.false_eq_true, false_iff] at hinv ⊢
        intro h
        exact hinv (fun row hrow => h row (by omega))
      | true =>
        refine ⟨!(g.px i col), ?_, ?_⟩
        · simp only [if_true]
          rw [glyph_get_pixel_eq g i col hi8 hc, bind_ok_eq, pure_eq_ok,
            decide_bit_value_eq_zero]
        · have hall := hinv.1 rfl
          constructor
          · intro h row hrow
            by_cases hr : row = i
            · subst hr
              simpa using h
            · exact hall row (by omega)
          · intro h
            simpa using h i (by omega))
  rw [he]
  congr 1
  have h8 : HEIGHT = 8 := rfl
  rw [h8] at hinv
  cases hb : g.column_blank col with
  | true => exact hinv.2 ((column_blank_iff g col).1 hb)
  | false =>
    cases e with
    | false => rfl
    | true =>
      have := (column_blank_iff g col).2 (hinv.1 rfl)
      rw [hb] at this
      exact absurd this (by simp)

/-- The first loop of the constructor: it succeeds and counts the blank columns from `col`
on, up to the first column that is not blank. -/
theorem count_left_spacing_spec (g : Glyph) :
    ∀ (k col ls : Nat), col + k = 8 →
      ∃ m, m ≤ k ∧ g.count_left_spacing k col ls = Except.ok (ls + m) ∧
        (∀ c, col ≤ c → c < col + m → g.column_blank c = true) ∧
        (m < k → g.column_blank (col + m) = false) := by
  intro k
  induction k with
  | zero =>
    intro col ls _
    exact ⟨0, Nat.le_refl 0, rfl, fun c h1 h2 => absurd h2 (by omega), fun h => absurd h (by omega)⟩
  | succ k ih =>
    intro col ls hk
    have hstep : g.count_left_spacing (k + 1) col ls =
        (g.column_is_empty col >>= fun empty_column =>
          if empty_column then g.count_left_spacing k (col + 1) (ls + 1) else pure ls) := rfl
    rw [hstep, column_is_empty_eq g col (by omega), bind_ok_eq]
    cases hb : g.column_blank col with
    | false =>
      refine ⟨0, Nat.zero_le _, rfl, fun c h1 h2 => absurd h2 (by omega), fun _ => hb⟩
    | true =>
      obtain ⟨m, hm, hres, hblank, hstop⟩ := ih (col + 1) (ls + 1) (by omega)
      refine ⟨m + 1, by omega, ?_, ?_, ?_⟩
      · simp only [if_true]
        rw [hres]
        congr 1
        omega
      · intro c h1 h2
        by_cases hc : c = col
        · subst hc
          exact hb
        · exact hblank c (by omega) (by omega)
      · intro h
        have := hstop (by omega)
        rwa [show col + (m + 1) = col + 1 + m by omega]

/-- The second loop of the constructor: every row is shifted left and truncated to eight
bits; the width is untouched. -/
theorem shift_rows_spec (g : Glyph) (ls : Nat) :
    g.shift_rows ls = Except.ok
      ⟨fun i => toByte ((g.glyph_data i).val <<< ls), g.glyph_width⟩ := by
  unfold shift_rows
  obtain ⟨g1, h1, hw, hd⟩ := forUpTo_invariant
    (fun n (s : Glyph) => s.glyph_width = g.glyph_width ∧
      ∀ i : Fin 8, s.glyph_data i =
        if i.val < n then toByte ((g.glyph_data i).val <<< ls) else g.glyph_data i) HEIGHT
    (fun row s =>
      if h : row < HEIGHT then
        pure { s with glyph_data := fun i =>
          if i = ⟨row, h⟩ then toByte ((s.glyph_data ⟨row, h⟩).val <<< ls)
          else s.glyph_data i }
      else throw Error.out_of_range) g
    ⟨rfl, fun i => by simp⟩
    (by
      intro i s hi hinv
      dsimp only
      rw [dif_pos hi]
      refine ⟨_, rfl, hinv.1, ?_⟩
      intro j
      show (if j = ⟨i, hi⟩ then toByte ((s.glyph_data ⟨i, hi⟩).val <<< ls)
          else s.glyph_data j) = _
      by_cases hj : j = ⟨i, hi⟩
      · subst hj
        rw [if_pos rfl, hinv.2, if_neg (by simp), if_pos (by simp)]
      · have hne : j.val ≠ i := fun h => hj (Fin.ext h)
        rw [if_neg hj, hinv.2]
        by_cases hlt : j.val < i
        · rw [if_pos hlt, if_pos (by omega)]
        · rw [if_neg hlt, if_neg (by omega)])
  rw [h1]
  congr 1
  cases g1 with
  | mk d w =>
    simp only at hw hd
    subst hw
    congr 1
    funext i
    rw [hd i, if_pos (show i.val < HEIGHT from i.isLt)]

/-- A pixel of the shifted bitmap is the pixel `ls` columns further right of the bitmap
before the shift, and off when that column lies outside the bitmap. -/
theorem px_shifted (data : Fin 8 → Byte) (ls w w0 row col : Nat) :
    (Glyph.mk (fun i => toByte ((data i).val <<< ls)) w).px row col
      = (Glyph.mk data w0).px row (col + ls) := by
  unfold px
  by_cases hr : row < 8
  · rw [dif_pos hr, dif_pos hr]
    simp only
    rw [testBit_toByte, Nat.testBit_shiftLeft]
    by_cases hc : col + ls < 8
    · have h1 : col < 8 := by omega
      have h2 : 7 - col < 8 := by omega
      have h3 : 7 - col ≥ ls := by omega
      have h4 : 7 - col - ls = 7 - (col + ls) := by omega
      simp [h1, h2, h3, h4, hc]
    · by_cases h1 : col < 8
      · have h3 : ¬ (7 - col ≥ ls) := by omega
        simp [h1, h3, hc]
      · simp [h1, hc]
  · rw [dif_neg hr, dif_neg hr]

/-- The third loop of the constructor: it succeeds, and it decrements the width once for
each blank column from `c - 1` downwards, up to the first column that is not blank. -/
theorem trim_right_spec (g : Glyph) :
    ∀ (c w : Nat), c ≤ 7 → c ≤ w →
      ∃ e, e ≤ c ∧ g.trim_right c w = Except.ok (w - e) ∧
        (∀ j, c - e ≤ j → j < c → g.column_blank j = true) ∧
        (e < c → g.column_blank (c - e - 1) = false) := by
  intro c
  induction c with
  | zero =>
    intro w _ _
    exact ⟨0, Nat.le_refl 0, rfl, fun j h1 h2 => absurd h2 (by omega), fun h => absurd h (by omega)⟩
  | succ c ih =>
    intro w hc hw
    have hstep : g.trim_right (c + 1) w =
        (g.column_is_empty c >>= fun empty_column =>
          if empty_column then g.trim_right c (size_t_sub w 1) else pure w) := rfl
    rw [hstep, column_is_empty_eq g c (by omega), bind_ok_eq]
    cases hb : g.column_blank c with
    | false =>
      refine ⟨0, Nat.zero_le _, rfl, fun j h1 h2 => absurd h2 (by omega), fun _ => ?_⟩
      simpa using hb
    | true =>
      have hsub : size_t_sub w 1 = w - 1 := size_t_sub_of_le w 1 (by omega)
      obtain ⟨e, he, hres, hblank, hstop⟩ := ih (w - 1) (by omega) (by omega)
      refine ⟨e + 1, by omega, ?_, ?_, ?_⟩
      · simp only [if_true]
        rw [hsub, hres]
        congr 1
        omega
      · intro j h1 h2
        by_cases hj : j = c
        · subst hj
          exact hb
        · exact hblank j (by omega) (by omega)
      · intro h
        have := hstop (by omega)
        rwa [show c + 1 - (e + 1) - 1 = c - e - 1 by omega]

theorem column_blank_eq_false_iff (g : Glyph) (col : Nat) :
    g.column_blank col = false ↔ ∃ row, row < 8 ∧ g.px row col = true := by
  constructor
  · intro h
    by_contra hne
    have hall : ∀ row, row < 8 → g.px row col = false := by
      intro row hr
      cases hp : g.px row col with
      | false => rfl
      | true => exact absurd ⟨row, hr, hp⟩ hne
    have := (column_blank_iff g col).2 hall
    rw [h] at this
    exact absurd this (by simp)
  · intro ⟨row, hr, hp⟩
    cases hb : g.column_blank col with
    | false => rfl
    | true =>
      have := (column_blank_iff g col).1 hb row hr
      rw [hp] at this
      exact absurd this (by simp)

/-- The proportional branch of the constructor: it succeeds; `ls` is the result of the
first loop (the number of leading blank columns of the raw bitmap), the stored bitmap is
the raw one shifted left by `ls`, `e` is the number of decrements of the third loop (the
blank columns of the shifted bitmap from column 6 downwards), and the width follows from
`e`, the code point and the spacing. -/
theorem new_proportional_spec (data : Fin 8 → Byte) (code_point : Byte) (spacing : Nat) :
    ∃ ls e : Nat,
      ls ≤ 8 ∧
      (∀ c, c < ls → (raw data).column_blank c = true) ∧
      (ls < 8 → (raw data).column_blank ls = false) ∧
      (raw data).count_left_spacing WIDTH_MAX 0 0 = Except.ok ls ∧
      e ≤ 7 ∧
      (∀ j, 7 - e ≤ j → j < 7 →
        (Glyph.mk (fun i => toByte ((data i).val <<< ls)) 8).column_blank j = true) ∧
      (e < 7 →
        (Glyph.mk (fun i => toByte ((data i).val <<< ls)) 8).column_blank (6 - e) = false) ∧
      Glyph.new data true code_point spacing = Except.ok
        ⟨fun i => toByte ((data i).val <<< ls),
          min (if code_point = 0xFF then 1
               else size_t_add (if code_point = 0x20 then 4 else 8 - e) spacing) 8⟩ := by
  obtain ⟨m, hm, hls, hblank, hstop⟩ := count_left_spacing_spec (raw data) 8 0 0 rfl
  rw [Nat.zero_add] at hls
  have hls : (raw data).count_left_spacing WIDTH_MAX 0 0 = Except.ok m := hls
  obtain ⟨e, he, htrim, heb, hes⟩ :=
    trim_right_spec (Glyph.mk (fun i => toByte ((data i).val <<< m)) 8) 7 8
      (Nat.le_refl 7) (by omega)
  refine ⟨m, e, hm, ?_, ?_, hls, he, heb, ?_, ?_⟩
  · intro c hc
    exact hblank c (Nat.zero_le c) (by omega)
  · intro h
    have := hstop h
    rwa [Nat.zero_add] at this
  · intro h
    have := hes h
    rwa [show 7 - e - 1 = 6 - e by omega] at this
  · have hnew : Glyph.new data true code_point spacing =
        ((raw data).count_left_spacing WIDTH_MAX 0 0 >>= fun left_spacing =>
          (raw data).shift_rows left_spacing >>= fun g1 =>
            g1.trim_right (WIDTH_MAX - 1) g1.glyph_width >>= fun w1 =>
              pure (Glyph.mk g1.glyph_data
                (min (if code_point = 0xFF then 1
                      else size_t_add (if code_point = 0x20 then 4 else w1) spacing)
                  WIDTH_MAX))) := rfl
    rw [hnew, hls, bind_ok_eq, shift_rows_spec, bind_ok_eq]
    have h7 : WIDTH_MAX - 1 = 7 := rfl
    have hw : (raw data).glyph_width = 8 := rfl
    have hd : (raw data).glyph_data = data := rfl
    simp only [h7, hw, hd]
    rw [htrim, bind_ok_eq]
    rfl

/-- The constructor always returns a glyph. -/
theorem new_ok (data : Fin 8 → Byte) (proportional : Bool) (code_point : Byte)
    (spacing : Nat) : ∃ g, Glyph.new data proportional code_point spacing = Except.ok g := by
  cases proportional with
  | false => exact ⟨raw data, rfl⟩
  | true =>
    obtain ⟨ls, e, _, _, _, _, _, _, _, h⟩ := new_proportional_spec data code_point spacing
    exact ⟨_, h⟩

theorem px_true_lt (g : Glyph) (row col : Nat) (h : g.px row col = true) :
    row < 8 ∧ col < 8 := by
  unfold px at h
  by_cases hr : row < 8
  · rw [dif_pos hr] at h
    by_cases hc : col < 8
    · exact ⟨hr, hc⟩
    · simp [hc] at h
  · rw [dif_neg hr] at h
    exact absurd h (by simp)

theorem px_raw (data : Fin 8 → Byte) (row col : Nat) (hr : row < 8) (hc : col < 8) :
    (raw data).px row col = (data ⟨row, hr⟩).val.testBit (7 - col) := by
  unfold px raw
  rw [dif_pos hr]
  simp [hc]

/-- Claim C21. For every raw bitmap, every code point and every spacing, the glyph
constructed with `proportional = false` has width 8 and stores the raw bitmap unmodified:
`get_pixel(row, col)` is bit `7 - col` of the raw byte of row `row`. -/
theorem new_not_proportional (data : Fin 8 → Byte) (code_point : Byte) (spacing : Nat) :
    ∃ g, Glyph.new data false code_point spacing = Except.ok g ∧
      g.get_width = 8 ∧ g.glyph_data = data ∧
      ∀ (row col : Nat) (hr : row < 8), col < 8 →
        g.get_pixel row col =
          Except.ok (bit_value ((data ⟨row, hr⟩).val.testBit (7 - col))) := by
  refine ⟨raw data, rfl, rfl, rfl, ?_⟩
  intro row col hr hc
  rw [glyph_get_pixel_eq _ _ _ hr hc, px_raw data row col hr hc]

/-- Witness for claim C21: at the bitmap of the header comment, code point `0x20` and
spacing 3, the width is 8 and pixel `(1, 6)`, bit 1 of `0b01100010`, reads 1. -/
theorem new_not_proportional_witness :
    (∃ g, Glyph.new header_example_data false 0x20 3 = Except.ok g ∧
      g.get_width = 8 ∧ g.glyph_data = header_example_data ∧
      ∀ (row col : Nat) (hr : row < 8), col < 8 →
        g.get_pixel row col =
          Except.ok (bit_value ((header_example_data ⟨row, hr⟩).val.testBit (7 - col)))) ∧
    (Glyph.new header_example_data false 0x20 3).map get_width = Except.ok 8 ∧
    (Glyph.new header_example_data false 0x20 3 >>= fun g => g.get_pixel 1 6)
      = Except.ok 1 ∧
    (Glyph.new header_example_data false 0x20 3 >>= fun g => g.get_pixel 1 7)
      = Except.ok 0 :=
  ⟨new_not_proportional header_example_data 0x20 3, rfl, rfl, rfl⟩

/-- Claim C24. For code point `0xFF` with `proportional = true` the glyph width is 1, for
every raw bitmap and every spacing. -/
theorem new_code_point_FF_width (data : Fin 8 → Byte) (spacing : Nat) :
    ∃ g, Glyph.new data true 0xFF spacing = Except.ok g ∧ g.get_width = 1 := by
  obtain ⟨ls, e, _, _, _, _, _, _, _, h⟩ := new_proportional_spec data 0xFF spacing
  exact ⟨_, h, rfl⟩

/-- Witness for claim C24: at a bitmap with four used columns and spacing 7 the width is
1, and so it is at spacing `2^64 - 1`. -/
theorem new_code_point_FF_width_witness :
    (∃ g, Glyph.new inset_data true 0xFF 7 = Except.ok g ∧ g.get_width = 1) ∧
    (Glyph.new inset_data true 0xFF 7).map get_width = Except.ok 1 ∧
    (Glyph.new inset_data true 0xFF 18446744073709551615).map get_width = Except.ok 1 :=
  ⟨new_code_point_FF_width inset_data 7, rfl, rfl⟩

/-- Claim C26. With `proportional = true` (any code point and spacing) the value `ls` of
`left_spacing` after the first loop is the number of leading blank columns of the raw
bitmap: the columns before `ls` are blank, column `ls` is not (when `ls < 8`), and `ls =
8` for a blank bitmap. The stored bitmap is the raw one shifted left by `ls`: stored pixel
`(row, col)` is raw pixel `(row, col + ls)` when `col + ls < 8` and 0 otherwise. Every set
pixel of the raw bitmap is found `ls` columns further left in the stored bitmap, and
column 0 of the stored bitmap of a bitmap that is not blank has a set pixel. -/
theorem new_shifts_left (data : Fin 8 → Byte) (code_point : Byte) (spacing : Nat) :
    ∃ ls g, (raw data).count_left_spacing WIDTH_MAX 0 0 = Except.ok ls ∧
      Glyph.new data true code_point spacing = Except.ok g ∧
      ls ≤ 8 ∧
      (∀ c, c < ls → ∀ row, row < 8 → (raw data).px row c = false) ∧
      (ls < 8 → ∃ row, row < 8 ∧ (raw data).px row ls = true) ∧
      ((∀ row col, (raw data).px row col = false) → ls = 8) ∧
      (∀ row col, row < 8 → col < 8 →
        (col + ls < 8 → ∃ p, (raw data).get_pixel row (col + ls) = Except.ok p ∧
          g.get_pixel row col = Except.ok p) ∧
        (8 ≤ col + ls → g.get_pixel row col = Except.ok 0)) ∧
      (∀ row c, (raw data).px row c = true → ls ≤ c ∧ g.px row (c - ls) = true) ∧
      ((∃ row col, (raw data).px row col = true) → ∃ row, row < 8 ∧ g.px row 0 = true) := by
  obtain ⟨ls, e, hls8, hblank, hstop, hcount, _, _, _, hnew⟩ :=
    new_proportional_spec data code_point spacing
  have hpx : ∀ w row col,
      (Glyph.mk (fun i => toByte ((data i).val <<< ls)) w).px row col
        = (raw data).px row (col + ls) := fun w row col => px_shifted data ls w _ row col
  have hstop2 : ls < 8 → ∃ row, row < 8 ∧ (raw data).px row ls = true :=
    fun h => (column_blank_eq_false_iff _ _).1 (hstop h)
  have hblank2 : ∀ c, c < ls → ∀ row, row < 8 → (raw data).px row c = false :=
    fun c hc => (column_blank_iff _ _).1 (hblank c hc)
  refine ⟨ls, _, hcount, hnew, hls8, hblank2, hstop2, ?_, ?_, ?_, ?_⟩
  · intro hall
    by_contra hne
    obtain ⟨row, _, hp⟩ := hstop2 (by omega)
    rw [hall row ls] at hp
    exact absurd hp (by simp)
  · intro row col hr hc
    constructor
    · intro h
      refine ⟨_, glyph_get_pixel_eq _ _ _ hr h, ?_⟩
      rw [glyph_get_pixel_eq _ _ _ hr hc, hpx]
    · intro h
      rw [glyph_get_pixel_eq _ _ _ hr hc, hpx]
      have hf : (raw data).px row (col + ls) = false := by
        cases hp : (raw data).px row (col + ls) with
        | false => rfl
        | true => exact absurd (px_true_lt _ _ _ hp).2 (by omega)
      rw [hf]
      rfl
  · intro row c hp
    have hlt := px_true_lt _ _ _ hp
    have hle : ls ≤ c := by
      by_contra hn
      have := hblank2 c (by omega) row hlt.1
      rw [hp] at this
      exact absurd this (by simp)
    refine ⟨hle, ?_⟩
    rw [hpx, Nat.sub_add_cancel hle]
    exact hp
  · intro ⟨row, col, hp⟩
    have hlt := px_true_lt _ _ _ hp
    have hls : ls < 8 := by
      by_contra hn
      have := hblank2 col (by omega) row hlt.1
      rw [hp] at this
      exact absurd this (by simp)
    obtain ⟨r, hr, hpr⟩ := hstop2 hls
    refine ⟨r, hr, ?_⟩
    rw [hpx, Nat.zero_add]
    exact hpr

/-- Witness for claim C26: at the bitmap whose rows are `0b00111100`: `left_spacing` is 2,
the stored rows are `0b11110000`, and a blank bitmap has `left_spacing` 8. -/
theorem new_shifts_left_witness :
    (∃ ls g, (raw inset_data).count_left_spacing WIDTH_MAX 0 0 = Except.ok ls ∧
      Glyph.new inset_data true 0x41 1 = Except.ok g ∧
      ls ≤ 8 ∧
      (∀ c, c < ls → ∀ row, row < 8 → (raw inset_data).px row c = false) ∧
      (ls < 8 → ∃ row, row < 8 ∧ (raw inset_data).px row ls = true) ∧
      ((∀ row col, (raw inset_data).px row col = false) → ls = 8) ∧
      (∀ row col, row < 8 → col < 8 →
        (col + ls < 8 → ∃ p, (raw inset_data).get_pixel row (col + ls) = Except.ok p ∧
          g.get_pixel row col = Except.ok p) ∧
        (8 ≤ col + ls → g.get_pixel row col = Except.ok 0)) ∧
      (∀ row c, (raw inset_data).px row c = true → ls ≤ c ∧ g.px row (c - ls) = true) ∧
      ((∃ row col, (raw inset_data).px row col = true) →
        ∃ row, row < 8 ∧ g.px row 0 = true)) ∧
    (raw inset_data).count_left_spacing WIDTH_MAX 0 0 = Except.ok 2 ∧
    (Glyph.new inset_data true 0x41 1).map (fun g => (g.glyph_data 5).val)
      = Except.ok 0b11110000 ∧
    (raw blank_data).count_left_spacing WIDTH_MAX 0 0 = Except.ok 8 :=
  ⟨new_shifts_left inset_data 0x41 1, rfl, rfl, rfl⟩

theorem size_t_add_zero (a : Nat) (h : a ≤ SIZE_MAX) : size_t_add a 0 = a :=
  size_t_add_of_le a 0 h

/-- The width of a proportional glyph with a code point other than `0x20` and `0xFF`: the
stored bitmap is the raw one shifted left by `left_spacing`, and with `e` the number of
blank columns of the stored bitmap met from column 6 downwards before the first column
that is not blank (column 7 is not looked at), the width is `min(8, (8 - e + spacing) mod
2^64)`, the addition `glyph_width += spacing` being made on `std::size_t`. For `spacing ≤
SIZE_MAX - 8` this is `min(8, 8 - e + spacing)`. -/
theorem new_width_after_right_scan (data : Fin 8 → Byte) (code_point : Byte)
    (spacing : Nat) (h20 : code_point ≠ 0x20) (hFF : code_point ≠ 0xFF) :
    ∃ ls e g, (raw data).count_left_spacing WIDTH_MAX 0 0 = Except.ok ls ∧
      Glyph.new data true code_point spacing = Except.ok g ∧
      (∀ i, g.glyph_data i = toByte ((data i).val <<< ls)) ∧
      e ≤ 7 ∧
      (∀ j, 7 - e ≤ j → j ≤ 6 → ∀ row, row < 8 → g.px row j = false) ∧
      (e < 7 → ∃ row, row < 8 ∧ g.px row (6 - e) = true) ∧
      g.get_width = min 8 (size_t_add (8 - e) spacing) ∧
      (spacing ≤ SIZE_MAX - 8 → g.get_width = min 8 (8 - e + spacing)) := by
  obtain ⟨ls, e, _, _, _, hcount, he, heb, hes, hnew⟩ :=
    new_proportional_spec data code_point spacing
  have hw : min (if code_point = 0xFF then 1
      else size_t_add (if code_point = 0x20 then 4 else 8 - e) spacing) 8
      = min 8 (size_t_add (8 - e) spacing) := by
    rw [if_neg hFF, if_neg h20, Nat.min_comm]
  refine ⟨ls, e, _, hcount, hnew, fun i => rfl, he, ?_, ?_, hw, ?_⟩
  · intro j h1 h2
    exact (column_blank_iff _ j).1 (heb j h1 (by omega))
  · intro h
    exact (column_blank_eq_false_iff _ _).1 (hes h)
  · intro hs
    show min _ 8 = _
    rw [hw, size_t_add_of_le]
    have : SIZE_MAX = 2 ^ 64 - 1 := rfl
    omega

/-- The general width law at a bitmap with the used columns 2 to 5, code point `0x41` and
spacing 1. -/
theorem new_width_after_right_scan_example :
    (0x41 : Byte) ≠ 0x20 ∧ (0x41 : Byte) ≠ 0xFF ∧
    (∃ ls e g, (raw inset_data).count_left_spacing WIDTH_MAX 0 0 = Except.ok ls ∧
      Glyph.new inset_data true 0x41 1 = Except.ok g ∧
      (∀ i, g.glyph_data i = toByte ((inset_data i).val <<< ls)) ∧
      e ≤ 7 ∧
      (∀ j, 7 - e ≤ j → j ≤ 6 → ∀ row, row < 8 → g.px row j = false) ∧
      (e < 7 → ∃ row, row < 8 ∧ g.px row (6 - e) = true) ∧
      g.get_width = min 8 (size_t_add (8 - e) 1) ∧
      (1 ≤ SIZE_MAX - 8 → g.get_width = min 8 (8 - e + 1))) ∧
    (Glyph.new inset_data true 0x41 1).map get_width = Except.ok 6 :=
  ⟨by decide, by decide,
    new_width_after_right_scan inset_data 0x41 1 (by decide) (by decide), rfl⟩

/-- Claim C22, the code at the blank bitmap, `proportional = true`, code point `0x41` and
spacing `2^64 - 1`: the columns 6, ..., 0 of the stored bitmap are all blank, so `e = 7`
and the claimed width is `min(8, 8 - 7 + spacing) = 8`; the constructed glyph has width 0,
because `glyph_width += spacing` wraps around to `(1 + (2^64 - 1)) mod 2^64 = 0`. With
spacing 3 the width is the claimed `min(8, 8 - 7 + 3) = 4`. -/
theorem new_width_wraps_at_max_spacing :
    (Glyph.new blank_data true 0x41 18446744073709551615).map
      (fun g => (List.range 7).all (fun j => g.column_blank j)) = Except.ok true ∧
    min 8 (8 - 7 + 18446744073709551615) = 8 ∧
    (Glyph.new blank_data true 0x41 18446744073709551615).map get_width = Except.ok 0 ∧
    (Glyph.new blank_data true 0x41 3).map get_width = Except.ok 4 :=
  ⟨rfl, by decide, rfl, rfl⟩

/-- The width of the proportional glyph of code point `0x20`: `min((4 + s) mod 2^64, 8)`
for every raw bitmap and every spacing `s`, the addition `glyph_width += spacing` being
made on `std::size_t`. For `s ≤ SIZE_MAX - 4` this is `min(4 + s, 8)`. -/
theorem new_space_width (data : Fin 8 → Byte) (spacing : Nat) :
    ∃ g, Glyph.new data true 0x20 spacing = Except.ok g ∧
      g.get_width = min (size_t_add 4 spacing) 8 ∧
      (spacing ≤ SIZE_MAX - 4 → g.get_width = min (4 + spacing) 8) := by
  obtain ⟨ls, e, _, _, _, _, _, _, _, hnew⟩ := new_proportional_spec data 0x20 spacing
  refine ⟨_, hnew, rfl, ?_⟩
  intro hs
  show min (size_t_add 4 spacing) 8 = _
  rw [size_t_add_of_le]
  have : SIZE_MAX = 2 ^ 64 - 1 := rfl
  omega

/-- Claim C23, the code at a bitmap with four used columns, `proportional = true`, code
point `0x20` and spacing `2^64 - 1`: the claimed width is `min(4 + spacing, 8) = 8`; the
constructed glyph has width 3, because `glyph_width += spacing` wraps around to `(4 +
(2^64 - 1)) mod 2^64 = 3`. With spacing 1 the width is the claimed 5. -/
theorem new_space_width_wraps_at_max_spacing :
    min (4 + 18446744073709551615) 8 = 8 ∧
    (Glyph.new inset_data true 0x20 18446744073709551615).map get_width = Except.ok 3 ∧
    (Glyph.new blank_data true 0x20 18446744073709551615).map get_width = Except.ok 3 ∧
    (Glyph.new inset_data true 0x20 1).map get_width = Except.ok 5 :=
  ⟨by decide, rfl, rfl, rfl⟩

/-- The range of the width: for every raw bitmap, proportional flag, code point and
spacing the constructor succeeds and the width is at most 8; the width is at least 1 when
the glyph is not proportional, when the code point is `0xFF`, or when `spacing ≤ SIZE_MAX
- 8` (the addition `glyph_width += spacing` on `std::size_t` does not wrap around). -/
theorem new_width_range (data : Fin 8 → Byte) (proportional : Bool) (code_point : Byte)
    (spacing : Nat) :
    ∃ g, Glyph.new data proportional code_point spacing = Except.ok g ∧
      g.get_width ≤ 8 ∧
      (proportional = false ∨ code_point = 0xFF ∨ spacing ≤ SIZE_MAX - 8 →
        1 ≤ g.get_width) := by
  cases proportional with
  | false =>
    refine ⟨raw data, rfl, Nat.le_refl 8, fun _ => ?_⟩
    show 1 ≤ 8
    omega
  | true =>
    obtain ⟨ls, e, _, _, _, _, he, _, _, hnew⟩ :=
      new_proportional_spec data code_point spacing
    refine ⟨_, hnew, Nat.min_le_right _ _, ?_⟩
    intro h
    show 1 ≤ min _ 8
    by_cases hFF : code_point = 0xFF
    · rw [if_pos hFF]
      decide
    · rw [if_neg hFF]
      have hs : spacing ≤ SIZE_MAX - 8 := by
        rcases h with h | h | h
        · exact absurd h (by simp)
        · exact absurd h hFF
        · exact h
      have h64 : SIZE_MAX = 2 ^ 64 - 1 := rfl
      by_cases h20 : code_point = 0x20
      · rw [if_pos h20, size_t_add_of_le _ _ (by omega)]
        omega
      · rw [if_neg h20, size_t_add_of_le _ _ (by omega)]
        omega

/-- Claim C25, the code at the bitmap with only column 0 set, `proportional = true`, code
point `0x41` and spacing `2^64 - 2`: the width after the third loop is 2 (the width for
spacing 0), and `glyph_width += spacing` wraps around to `(2 + (2^64 - 2)) mod 2^64 = 0`,
so the constructed glyph has width 0, outside the range from 1 to 8. -/
theorem new_width_zero_at_wrapping_spacing :
    (Glyph.new first_column_data true 0x41 0).map get_width = Except.ok 2 ∧
    (Glyph.new first_column_data true 0x41 18446744073709551614).map get_width
      = Except.ok 0 ∧
    size_t_add 2 18446744073709551614 = 0 :=
  ⟨rfl, rfl, rfl⟩

/-- The width of a proportional glyph in terms of the extent of the raw bitmap, for a code
point other than `0x20` and `0xFF`: when `L` is the left-most column with a set pixel and
`R` is the right-most column with a set pixel among the columns `L, ..., L + 6` (the
columns 0 to 6 of the stored bitmap, the ones the third loop looks at), the width is
`min(8, (R - L + 2 + spacing) mod 2^64)`. With spacing 0 the width is `R - L + 2`, one
more than the number `R - L + 1` of columns from `L` through `R`. -/
theorem new_width_of_extent (data : Fin 8 → Byte) (code_point : Byte) (spacing L R : Nat)
    (h20 : code_point ≠ 0x20) (hFF : code_point ≠ 0xFF)
    (hL : ∃ row, row < 8 ∧ (raw data).px row L = true)
    (hLmin : ∀ c, c < L → ∀ row, row < 8 → (raw data).px row c = false)
    (hR : ∃ row, row < 8 ∧ (raw data).px row R = true)
    (hLR : L ≤ R) (hR6 : R ≤ L + 6)
    (hRmax : ∀ c, R < c → c ≤ L + 6 → ∀ row, row < 8 → (raw data).px row c = false) :
    ∃ g, Glyph.new data true code_point spacing = Except.ok g ∧
      g.get_width = min 8 (size_t_add (R - L + 2) spacing) ∧
      (spacing = 0 → g.get_width = R - L + 2) := by
  obtain ⟨ls, e, hls8, hblank, hstop, hcount, he, heb, hes, hnew⟩ :=
    new_proportional_spec data code_point spacing
  have hpx : ∀ row col,
      (Glyph.mk (fun i => toByte ((data i).val <<< ls)) 8).px row col
        = (raw data).px row (col + ls) := fun row col => px_shifted data ls 8 _ row col
  obtain ⟨rowL, hrowL, hpL⟩ := hL
  obtain ⟨rowR, hrowR, hpR⟩ := hR
  have hL8 := (px_true_lt _ _ _ hpL).2
  have hlsL : ls = L := by
    have h1 : ls ≤ L := by
      by_contra hn
      have := (column_blank_iff _ _).1 (hblank L (by omega)) rowL hrowL
      rw [hpL] at this
      exact absurd this (by simp)
    have h2 : L ≤ ls := by
      by_contra hn
      obtain ⟨r, hr, hp⟩ := (column_blank_eq_false_iff _ _).1 (hstop (by omega))
      rw [hLmin ls (by omega) r hr] at hp
      exact absurd hp (by simp)
    omega
  subst hlsL
  have he1 : e ≤ 6 - (R - ls) := by
    by_contra hn
    have := (column_blank_iff _ _).1 (heb (R - ls) (by omega) (by omega)) rowR hrowR
    rw [hpx, Nat.sub_add_cancel hLR, hpR] at this
    exact absurd this (by simp)
  have he2 : 6 - (R - ls) ≤ e := by
    by_contra hn
    obtain ⟨r, hr, hp⟩ := (column_blank_eq_false_iff _ _).1 (hes (by omega))
    rw [hpx, hRmax (6 - e + ls) (by omega) (by omega) r hr] at hp
    exact absurd hp (by simp)
  have hw : min (if code_point = 0xFF then 1
      else size_t_add (if code_point = 0x20 then 4 else 8 - e) spacing) 8
      = min 8 (size_t_add (R - ls + 2) spacing) := by
    rw [if_neg hFF, if_neg h20, Nat.min_comm, show 8 - e = R - ls + 2 by omega]
  refine ⟨_, hnew, hw, ?_⟩
  intro hs
  show min _ 8 = _
  rw [hw, hs, size_t_add_zero _ (by unfold SIZE_MAX; omega)]
  omega

/-- The extent law at the bitmap drawn in the class comment of `Glyph.h`, with `L = 0` and
`R = 6`. -/
theorem new_width_of_extent_example :
    (∃ g, Glyph.new header_example_data true 0x41 0 = Except.ok g ∧
      g.get_width = min 8 (size_t_add (6 - 0 + 2) 0) ∧
      ((0 : Nat) = 0 → g.get_width = 6 - 0 + 2)) :=
  new_width_of_extent header_example_data 0x41 0 0 6 (by decide) (by decide)
    ⟨0, by decide, rfl⟩ (fun c hc => absurd hc (Nat.not_lt_zero c))
    ⟨0, by decide, rfl⟩ (by decide) (by decide)
    (fun c h1 h2 => absurd h2 (by omega))

/-- Claim C27, the code at the bitmap drawn in the class comment of `Glyph.h`,
`proportional = true`, code point `0x41` and spacing 0: the left-most column with a set
pixel is `L = 0` and the right-most one is `R = 6` (column 7 is blank), so `R - L + 1 =
7`; the constructed glyph has width 8. For the bitmap with only column 0 set (`L = R = 0`,
`R - L + 1 = 1`) the width is 2, and with spacing 1 it is 3 where the claim gives 2. -/
theorem new_width_exceeds_extent :
    (raw header_example_data).px 0 0 = true ∧
    (raw header_example_data).px 0 6 = true ∧
    (raw header_example_data).column_blank 7 = true ∧
    (Glyph.new header_example_data true 0x41 0).map get_width = Except.ok 8 ∧
    (raw first_column_data).px 0 0 = true ∧
    (List.range 8).all (fun c => c = 0 || (raw first_column_data).column_blank c) = true ∧
    (Glyph.new first_column_data true 0x41 0).map get_width = Except.ok 2 ∧
    (Glyph.new first_column_data true 0x41 1).map get_width = Except.ok 3 :=
  ⟨rfl, rfl, rfl, rfl, rfl, rfl, rfl, rfl⟩

end Glyph

/-! ## MAX7219Chain: preprocessing and broadcasts -/

namespace MAX7219Chain

/-- Claim C28. For every topology and every canvas, `preprocess` succeeds and yields the
canvas obtained by `rotate_image(1 if upside_down else 0)` followed by
`rotate_matrices(matrix_orientation)`, and `generate_frame(image)` is
`image_to_command_vectors` applied to that preprocessed canvas (and succeeds). -/
theorem preprocess_rotates_image_then_matrices (self : MAX7219Chain)
    (image : MatrixChainImage) :
    ∃ rotated prepared frame,
      image.rotate_image (if self.upside_down then 1 else 0) = Except.ok rotated ∧
      rotated.rotate_matrices self.matrix_orientation = Except.ok prepared ∧
      self.preprocess image = Except.ok prepared ∧
      image_to_command_vectors prepared = Except.ok frame ∧
      self.generate_frame image = Except.ok frame := by
  have hnat : self.upside_down.toNat = (if self.upside_down then 1 else 0) := by
    cases self.upside_down <;> rfl
  obtain ⟨rotated, hrot, _, _⟩ :=
    MatrixChainImage.rotate_image_fields image (if self.upside_down then 1 else 0)
  obtain ⟨prepared, hprep, _, _, _⟩ :=
    MatrixChainImage.rotate_matrices_spec rotated self.matrix_orientation
  obtain ⟨frame, hframe, _, _⟩ := image_to_command_vectors_spec prepared
  have hpre : self.preprocess image = Except.ok prepared := by
    unfold preprocess
    rw [hnat, hrot, bind_ok_eq, hprep]
  refine ⟨rotated, prepared, frame, hrot, hprep, hpre, hframe, ?_⟩
  unfold generate_frame
  rw [hpre, bind_ok_eq, hframe]

/-- Witness for claim C28: on the two-matrix example canvas for a chain mounted upside
down with matrix orientation 1, and for the same chain mounted upright with orientation 0
(where the frame is the one of the canvas itself). -/
theorem preprocess_rotates_image_then_matrices_witness :
    (∃ rotated prepared frame,
      MatrixChainImage.two_chip_example.rotate_image
        (if (MAX7219Chain.mk 2 1 true 0).upside_down then 1 else 0) = Except.ok rotated ∧
      rotated.rotate_matrices (MAX7219Chain.mk 2 1 true 0).matrix_orientation
        = Except.ok prepared ∧
      (MAX7219Chain.mk 2 1 true 0).preprocess MatrixChainImage.two_chip_example
        = Except.ok prepared ∧
      image_to_command_vectors prepared = Except.ok frame ∧
      (MAX7219Chain.mk 2 1 true 0).generate_frame MatrixChainImage.two_chip_example
        = Except.ok frame) ∧
    (MAX7219Chain.mk 2 1 true 0).generate_frame MatrixChainImage.two_chip_example
      = Except.ok [[1, 16, 1, 0], [2, 16, 2, 0], [3, 16, 3, 0], [4, 16, 4, 0],
          [5, 0, 5, 0], [6, 0, 6, 16], [7, 0, 7, 0], [8, 0, 8, 16]] ∧
    (MAX7219Chain.mk 2 0 true 0).generate_frame MatrixChainImage.two_chip_example
      = Except.ok [[1, 0, 1, 0], [2, 0, 2, 0], [3, 0, 3, 0], [4, 0, 4, 0],
          [5, 0xF0, 5, 0x05], [6, 0, 6, 0], [7, 0, 7, 0], [8, 0, 8, 0]] ∧
    (MAX7219Chain.mk 2 0 false 0).generate_frame MatrixChainImage.two_chip_example
      = image_to_command_vectors MatrixChainImage.two_chip_example :=
  ⟨preprocess_rotates_image_then_matrices (MAX7219Chain.mk 2 1 true 0)
      MatrixChainImage.two_chip_example, rfl, rfl, rfl⟩

theorem size_t_mul_of_le (a b : Nat) (h : a * b ≤ SIZE_MAX) : size_t_mul a b = a * b := by
  unfold size_t_mul
  exact Nat.mod_eq_of_lt (by omega)

/-- The method `send_command_all` for a chain whose `length * 2` does not wrap around: the
command string has `2 * N` bytes, the register at the even and the data at the odd
positions, and `spi_send_data` transfers its first `(2 * N) mod 2^32` bytes as one
sequence. -/
theorem send_command_all_spec (self : MAX7219Chain) (register_value data : Byte)
    (bus : List (List Byte)) (hN : 2 * self.length ≤ SIZE_MAX) :
    ∃ cs : List Byte, cs.length = 2 * self.length ∧
      (∀ i, i < self.length →
        cs[2 * i]? = some register_value ∧ cs[2 * i + 1]? = some data) ∧
      self.send_command_all register_value data bus
        = Except.ok (bus ++ [cs.take ((2 * self.length) % 2 ^ 32)]) := by
  obtain ⟨cs, hcs, hlen, hfill⟩ := forUpTo_invariant
    (fun n (cs : List Byte) => cs.length = 2 * self.length ∧
      ∀ i, i < n → cs[2 * i]? = some register_value ∧ cs[2 * i + 1]? = some data)
    self.length
    (fun i command_string => do
      let cs ← vector_store command_string (size_t_mul 2 i) register_value
      vector_store cs (size_t_add (size_t_mul 2 i) 1) data)
    (List.replicate (size_t_mul self.length 2) (0 : Byte))
    ⟨by rw [List.length_replicate, size_t_mul_of_le _ _ (by omega)]; omega,
      fun i hi => absurd hi (Nat.not_lt_zero i)⟩
    (by
      intro i cs hi ⟨hlen, hfill⟩
      have h1 : size_t_mul 2 i = 2 * i := size_t_mul_of_le _ _ (by omega)
      have h2 : size_t_add (2 * i) 1 = 2 * i + 1 := Glyph.size_t_add_of_le _ _ (by omega)
      refine ⟨(cs.set (2 * i) register_value).set (2 * i + 1) data, ?_, ?_, ?_⟩
      · simp only [h1, h2]
        rw [vector_store_eq _ _ _ (by omega), bind_ok_eq,
          vector_store_eq _ _ _ (by rw [List.length_set]; omega)]
      · rw [List.length_set, List.length_set]
        exact hlen
      · intro j hj
        by_cases hji : j = i
        · subst hji
          constructor
          · rw [List.getElem?_set_ne (by omega),
              List.getElem?_set_self (by omega)]
          · rw [List.getElem?_set_self (by rw [List.length_set]; omega)]
        · obtain ⟨ha, hb⟩ := hfill j (by omega)
          constructor
          · rw [List.getElem?_set_ne (by omega), List.getElem?_set_ne (by omega)]
            exact ha
          · rw [List.getElem?_set_ne (by omega), List.getElem?_set_ne (by omega)]
            exact hb)
  refine ⟨cs, hlen, hfill, ?_⟩
  unfold send_command_all
  rw [hcs, bind_ok_eq]
  unfold send_command_string spi_send_data bcm2835_spi_transfern
  rw [hlen]
  rfl

/-- Claim C29, amended. For every chain length `N` with `2 * N < 2^32`, register byte
`reg` and data byte `d`, `send_command_all(reg, d)` succeeds and transmits exactly one
byte sequence, of length `2 * N`, in which for every chip index `i < N` byte `2 * i` is
`reg` and byte `2 * i + 1` is `d`. -/
theorem send_command_all_broadcasts (self : MAX7219Chain) (register_value data : Byte)
    (bus : List (List Byte)) (hN : 2 * self.length < 2 ^ 32) :
    ∃ seq : List Byte,
      self.send_command_all register_value data bus = Except.ok (bus ++ [seq]) ∧
      seq.length = 2 * self.length ∧
      ∀ i, i < self.length →
        seq[2 * i]? = some register_value ∧ seq[2 * i + 1]? = some data := by
  obtain ⟨cs, hlen, hfill, hsend⟩ :=
    send_command_all_spec self register_value data bus (by unfold SIZE_MAX; omega)
  rw [Nat.mod_eq_of_lt hN, ← hlen, List.take_length] at hsend
  exact ⟨cs, hsend, hlen, hfill⟩

/-- Witness for the amended claim C29: for a chain of four chips, the shutdown register
`0x0C` and the data byte `0x01`: one sequence of eight bytes is added to the bus. -/
theorem send_command_all_broadcasts_witness :
    2 * (MAX7219Chain.mk 4 0 false 0).length < 2 ^ 32 ∧
    (∃ seq : List Byte,
      (MAX7219Chain.mk 4 0 false 0).send_command_all 0x0C 0x01 [[0x09, 0x00]]
        = Except.ok ([[0x09, 0x00]] ++ [seq]) ∧
      seq.length = 2 * (MAX7219Chain.mk 4 0 false 0).length ∧
      ∀ i, i < (MAX7219Chain.mk 4 0 false 0).length →
        seq[2 * i]? = some 0x0C ∧ seq[2 * i + 1]? = some 0x01) ∧
    (MAX7219Chain.mk 4 0 false 0).send_command_all 0x0C 0x01 [[0x09, 0x00]]
      = Except.ok [[0x09, 0x00], [0x0C, 0x01, 0x0C, 0x01, 0x0C, 0x01, 0x0C, 0x01]] :=
  ⟨by decide,
    send_command_all_broadcasts (MAX7219Chain.mk 4 0 false 0) 0x0C 0x01 [[0x09, 0x00]]
      (by decide), rfl⟩

/-- Counterexample for claim C29: the claim as stated fails for the chain length `N =
2^31`: the command string has `2 * N = 2^32` bytes, the byte count passed to
`spi_send_data` is `2^32 mod 2^32 = 0`, and the one sequence that is transmitted is empty,
so it does not have the length `2 * N`. -/
theorem send_command_all_counterexample :
    (MAX7219Chain.mk 2147483648 0 false 0).send_command_all 0x0C 0x01 []
      = Except.ok [[]] ∧
    ¬ ∃ seq : List Byte,
      (MAX7219Chain.mk 2147483648 0 false 0).send_command_all 0x0C 0x01 []
        = Except.ok ([] ++ [seq]) ∧
      seq.length = 2 * (MAX7219Chain.mk 2147483648 0 false 0).length ∧
      ∀ i, i < (MAX7219Chain.mk 2147483648 0 false 0).length →
        seq[2 * i]? = some 0x0C ∧ seq[2 * i + 1]? = some 0x01 := by
  obtain ⟨cs, hlen, _, hsend⟩ :=
    send_command_all_spec (MAX7219Chain.mk 2147483648 0 false 0) 0x0C 0x01 []
      (by unfold SIZE_MAX; norm_num)
  have hzero : (2 * (MAX7219Chain.mk 2147483648 0 false 0).length) % 2 ^ 32 = 0 := by
    norm_num
  rw [hzero, List.take_zero, List.nil_append] at hsend
  refine ⟨hsend, ?_⟩
  intro ⟨seq, hseq, hseqlen, _⟩
  rw [hsend, List.nil_append] at hseq
  have h1 : ([[]] : List (List Byte)) = [seq] := Except.ok.inj hseq
  have h2 : seq = [] := by
    have := List.cons.inj h1
    exact this.1.symm
  rw [h2] at hseqlen
  norm_num at hseqlen

end MAX7219Chain

/-! ## Font: loading the glyphs -/

namespace Font

/-- Reading a record from the stream positioned at byte `8 * i` of the file. -/
theorem read_glyph_data_drop (file : List Byte) (i : Nat) (hlen : file.length = 256 * 8)
    (hi : i < 256) :
    read_glyph_data (file.drop (8 * i))
      = Except.ok (record file (toByte i), file.drop (8 * (i + 1))) := by
  have hval : (toByte i).val = i := Nat.mod_eq_of_lt hi
  have h8 : Glyph.HEIGHT ≤ (file.drop (8 * i)).length := by
    rw [List.length_drop, hlen]
    show 8 ≤ _
    omega
  unfold read_glyph_data
  rw [dif_pos h8]
  show Except.ok _ = Except.ok _
  congr 1
  refine Prod.ext ?_ ?_
  · funext j
    show (file.drop (8 * i)).get ⟨j.val, _⟩ = file.getD (8 * (toByte i).val + j.val) 0
    have hj : 8 * i + j.val < file.length := by
      have := j.isLt
      omega
    rw [hval, List.getD_eq_getElem _ _ hj, List.get_eq_getElem, List.getElem_drop]
  · show List.drop 8 (file.drop (8 * i)) = _
    rw [List.drop_drop]
    congr 1

/-- The constructor of a font succeeds on a resource of 256 records, and slot `c` of the
table holds the glyph constructed from record `c`. -/
theorem new_spec (file : List Byte) (proportional : Bool) (spacing : Nat)
    (hlen : file.length = 256 * 8) :
    ∃ font, Font.new file proportional spacing = Except.ok font ∧
      ∀ c : Byte, Glyph.new (record file c) proportional c spacing
        = Except.ok (font.font_glyphs c) := by
  obtain ⟨st, hst, hstream, hslots⟩ := forUpTo_invariant
    (fun n (st : List Byte × (Byte → Option Glyph)) =>
      st.1 = file.drop (8 * n) ∧
      ∀ c : Byte, c.val < n →
        ∃ g, Glyph.new (record file c) proportional c spacing = Except.ok g ∧
          st.2 c = some g)
    FONT_CHAR_COUNT
    (fun code_point (st : List Byte × (Byte → Option Glyph)) => do
      let (new_glyph_data, rest) ← read_glyph_data st.1
      let glyph ← Glyph.new new_glyph_data proportional (toByte code_point) spacing
      if code_point < FONT_CHAR_COUNT then
        pure (rest, fun c => if c = toByte code_point then some glyph else st.2 c)
      else throw Error.out_of_range)
    (file, fun _ => none)
    ⟨rfl, fun c hc => absurd hc (Nat.not_lt_zero _)⟩
    (by
      intro i st hi ⟨hstream, hslots⟩
      have hi256 : i < 256 := hi
      have hval : (toByte i).val = i := Nat.mod_eq_of_lt hi256
      obtain ⟨g, hg⟩ := Glyph.new_ok (record file (toByte i)) proportional (toByte i) spacing
      refine ⟨(file.drop (8 * (i + 1)),
        fun c => if c = toByte i then some g else st.2 c), ?_, rfl, ?_⟩
      · dsimp only
        rw [hstream, read_glyph_data_drop file i hlen hi256, bind_ok_eq]
        dsimp only
        rw [hg, bind_ok_eq, if_pos hi]
        rfl
      · intro c hc
        by_cases hci : c = toByte i
        · subst hci
          exact ⟨g, hg, if_pos rfl⟩
        · have hne : c.val ≠ i := by
            intro h
            apply hci
            apply Fin.ext
            rw [hval]
            exact h
          obtain ⟨g', hg', hs⟩ := hslots c (by omega)
          refine ⟨g', hg', ?_⟩
          show (if c = toByte i then some g else st.2 c) = some g'
          rw [if_neg hci]
          exact hs)
  have hall : ∀ c, (st.2 c).isSome = true := by
    intro c
    obtain ⟨g, _, hs⟩ := hslots c c.isLt
    rw [hs]
    rfl
  refine ⟨⟨fun c => (st.2 c).get (hall c)⟩, ?_, ?_⟩
  · unfold Font.new
    rw [hst, bind_ok_eq, dif_pos hall]
    rfl
  · intro c
    obtain ⟨g, hg, hs⟩ := hslots c c.isLt
    have hget : (st.2 c).get (hall c) = g := Option.get_of_mem (hall c) (Option.mem_def.2 hs)
    rw [hg]
    show Except.ok g = Except.ok ((st.2 c).get (hall c))
    rw [hget]

/-- Claim C30. For every font resource of exactly `256 * 8` bytes and every proportional
flag and spacing, the constructor succeeds, and for every code point `c` the glyph of the
font for `c` is the glyph constructed from the bytes `8c, ..., 8c + 7` of the resource
with the same proportional flag, code point `c` and the same spacing; `get_glyph_width(c)`
and `get_pixel(c, row, col)` return the width and the pixel of that glyph; and for
`proportional = false`, `get_pixel(c, row, col)` is bit `7 - col` of byte `8c + row` of
the resource. -/
theorem new_loads_records (file : List Byte) (proportional : Bool) (spacing : Nat)
    (hlen : file.length = 256 * 8) :
    ∃ font, Font.new file proportional spacing = Except.ok font ∧
      ∀ c : Byte,
        (∃ g, Glyph.new (fun i => file.getD (8 * c.val + i.val) 0) proportional c spacing
            = Except.ok g ∧
          font.get_glyph_width c = g.get_width ∧
          ∀ row col, font.get_pixel c row col = g.get_pixel row col) ∧
        (proportional = false →
          font.get_glyph_width c = 8 ∧
          ∀ row col, row < 8 → col < 8 →
            font.get_pixel c row col = Except.ok
              (bit_value ((file.getD (8 * c.val + row) 0).val.testBit (7 - col)))) := by
  obtain ⟨font, hfont, hglyphs⟩ := new_spec file proportional spacing hlen
  refine ⟨font, hfont, fun c => ⟨⟨font.font_glyphs c, hglyphs c, rfl, fun _ _ => rfl⟩, ?_⟩⟩
  intro hp
  subst hp
  have hraw : font.font_glyphs c = Glyph.raw (record file c) := by
    have h := hglyphs c
    have h2 : Glyph.new (record file c) false c spacing
        = Except.ok (Glyph.raw (record file c)) := rfl
    rw [h2] at h
    exact (Except.ok.inj h).symm
  refine ⟨?_, ?_⟩
  · show (font.font_glyphs c).get_width = 8
    rw [hraw]
    rfl
  · intro row col hr hc
    show (font.font_glyphs c).get_pixel row col = _
    rw [hraw, Glyph.glyph_get_pixel_eq _ _ _ hr hc, Glyph.px_raw _ row col hr hc]
    rfl

set_option maxRecDepth 100000 in
/-- Witness for claim C30: on the example resource with `proportional = true` and spacing
1: the font is constructed, the glyph of code point `0x41` (rows `0b00111100`) has width 6
and the glyph of code point `0x20` has width 5. -/
theorem new_loads_records_witness :
    example_file.length = 256 * 8 ∧
    (∃ font, Font.new example_file true 1 = Except.ok font ∧
      font.get_glyph_width 0x41 = 6 ∧ font.get_glyph_width 0x20 = 5 ∧
      font.get_pixel 0x41 0 0 = Except.ok 1 ∧ font.get_pixel 0x41 0 4 = Except.ok 0) ∧
    (∃ font, Font.new example_file false 1 = Except.ok font ∧
      font.get_glyph_width 0x41 = 8 ∧
      font.get_pixel 0x41 0 0 = Except.ok 0 ∧ font.get_pixel 0x41 0 2 = Except.ok 1) := by
  have hlen : example_file.length = 256 * 8 := by simp [example_file]
  refine ⟨hlen, ?_, ?_⟩
  · obtain ⟨font, hfont, hall⟩ := new_loads_records example_file true 1 hlen
    obtain ⟨⟨g, hg, hw, hp⟩, _⟩ := hall 0x41
    obtain ⟨⟨g2, hg2, hw2, _⟩, _⟩ := hall 0x20
    have e1 : (Glyph.new (fun i => example_file.getD (8 * (0x41 : Byte).val + i.val) 0)
        true 0x41 1).map Glyph.get_width = Except.ok 6 := rfl
    have e2 : (Glyph.new (fun i => example_file.getD (8 * (0x20 : Byte).val + i.val) 0)
        true 0x20 1).map Glyph.get_width = Except.ok 5 := rfl
    have e3 : (Glyph.new (fun i => example_file.getD (8 * (0x41 : Byte).val + i.val) 0)
        true 0x41 1 >>= fun g => g.get_pixel 0 0) = Except.ok 1 := rfl
    have e4 : (Glyph.new (fun i => example_file.getD (8 * (0x41 : Byte).val + i.val) 0)
        true 0x41 1 >>= fun g => g.get_pixel 0 4) = Except.ok 0 := rfl
    rw [hg] at e1 e3 e4
    rw [hg2] at e2
    refine ⟨font, hfont, ?_, ?_, ?_, ?_⟩
    · rw [hw]
      exact Except.ok.inj e1
    · rw [hw2]
      exact Except.ok.inj e2
    · rw [hp]
      exact e3
    · rw [hp]
      exact e4
  · obtain ⟨font, hfont, hall⟩ := new_loads_records example_file false 1 hlen
    obtain ⟨_, hfix⟩ := hall 0x41
    obtain ⟨hw, hp⟩ := hfix rfl
    refine ⟨font, hfont, hw, ?_, ?_⟩
    · rw [hp 0 0 (by decide) (by decide)]
      rfl
    · rw [hp 0 2 (by decide) (by decide)]
      rfl

/-- The font `proportional_example` is the font that the constructor loads from the
resource whose 2048 bytes are all `0xF0`, with `proportional = true` and spacing 0: the
widths and the pixels of all glyphs agree. -/
theorem proportional_example_loaded :
    ∃ font, Font.new (List.replicate 2048 0xF0) true 0 = Except.ok font ∧
      ∀ c : Byte, font.get_glyph_width c = proportional_example.get_glyph_width c ∧
        ∀ row col, font.get_pixel c row col = proportional_example.get_pixel c row col := by
  obtain ⟨font, hfont, hglyphs⟩ :=
    new_spec (List.replicate 2048 0xF0) true 0 (List.length_replicate _ _)
  refine ⟨font, hfont, ?_⟩
  intro c
  have hrec : record (List.replicate 2048 0xF0) c = fun _ => 0xF0 := by
    funext i
    have hi : 8 * c.val + i.val < 2048 := by
      have h1 := c.isLt
      have h2 := i.isLt
      omega
    show (List.replicate 2048 (0xF0 : Byte)).getD (8 * c.val + i.val) 0 = 0xF0
    rw [List.getD_eq_getElem _ _ (by rw [List.length_replicate]; exact hi),
      List.getElem_replicate]
  have hg := hglyphs c
  rw [hrec] at hg
  obtain ⟨ls, e, _, hblank, _, _, he, heb, hes, hnew⟩ :=
    Glyph.new_proportional_spec (fun _ => 0xF0) c 0
  have hls : ls = 0 := by
    by_contra hne
    have h0 := hblank 0 (by omega)
    have h1 : (Glyph.raw (fun _ => 0xF0)).column_blank 0 = false := rfl
    rw [h1] at h0
    exact absurd h0 (by simp)
  subst hls
  have he3 : e = 3 := by
    have hle : e ≤ 3 := by
      by_contra hn
      have h3 := heb 3 (by omega) (by omega)
      have h3' : (Glyph.mk (fun _ => toByte ((0xF0 : Byte).val <<< 0)) 8).column_blank 3
          = false := rfl
      rw [h3'] at h3
      exact absurd h3 (by simp)
    by_contra hne
    have hlt : e < 3 := by omega
    have hs := hes (by omega)
    interval_cases e
    · have h6 : (Glyph.mk (fun _ => toByte ((0xF0 : Byte).val <<< 0)) 8).column_blank 6
          = true := rfl
      rw [h6] at hs
      exact absurd hs (by simp)
    · have h5 : (Glyph.mk (fun _ => toByte ((0xF0 : Byte).val <<< 0)) 8).column_blank 5
          = true := rfl
      rw [h5] at hs
      exact absurd hs (by simp)
    · have h4 : (Glyph.mk (fun _ => toByte ((0xF0 : Byte).val <<< 0)) 8).column_blank 4
          = true := rfl
      rw [h4] at hs
      exact absurd hs (by simp)
  subst he3
  rw [hnew] at hg
  have hfg : font.font_glyphs c =
      ⟨fun _ => toByte ((0xF0 : Byte).val <<< 0),
        min (if c = 0xFF then 1 else size_t_add (if c = 0x20 then 4 else 8 - 3) 0) 8⟩ :=
    (Except.ok.inj hg).symm
  constructor
  · show (font.font_glyphs c).get_width = (proportional_example.font_glyphs c).get_width
    rw [hfg]
    show min _ 8 = (if c = 0x20 then 4 else if c = 0xFF then 1 else 5)
    by_cases hFF : c = 0xFF
    · subst hFF
      rfl
    · by_cases h20 : c = 0x20
      · subst h20
        rfl
      · rw [if_neg hFF, if_neg h20, if_neg h20, if_neg hFF]
        rfl
  · intro row col
    show (font.font_glyphs c).get_pixel row col
      = (proportional_example.font_glyphs c).get_pixel row col
    rw [hfg]
    rfl

end Font

/-! ## Half turns: the table and the pixel loop -/

namespace MatrixImage

theorem reverse_bits_lookup_bit (b : Byte) (i : Nat) (hi : i < 8) :
    (reverse_bits_lookup b).val.testBit i = b.val.testBit (7 - i) :=
  reverse_bits_lookup_testBit b ⟨i, hi⟩

theorem reverse_bits_lookup_involution (b : Byte) :
    reverse_bits_lookup (reverse_bits_lookup b) = b := by
  apply byte_ext
  intro j hj
  rw [reverse_bits_lookup_bit _ j hj, reverse_bits_lookup_bit _ (7 - j) (by omega)]
  congr 1
  omega

/-- The table loop alone: it succeeds and row `r` of the result is the bit reversal of row
`7 - r` of the old image. -/
theorem rotate_half_turn_by_table_rows (old s0 : MatrixImage) :
    ∃ s1, rotate_half_turn_by_table old s0 = Except.ok s1 ∧
      ∀ r, r < 8 → s1.row_byte r = reverse_bits_lookup (old.row_byte (7 - r)) := by
  unfold rotate_half_turn_by_table
  obtain ⟨s1, h1, hinv⟩ := forUpTo_invariant
    (fun n (s : MatrixImage) => ∀ r, r < n →
      s.row_byte r = reverse_bits_lookup (old.row_byte (7 - r)))
    HEIGHT
    (fun row s => do
      let old_row := HEIGHT - 1 - row
      let v ← old.get_row old_row
      s.set_row row (reverse_bits_lookup v)) s0
    (fun r hr => absurd hr (Nat.not_lt_zero r))
    (by
      intro i s hi hinv
      have hi8 : i < 8 := hi
      have h7 : HEIGHT - 1 - i = 7 - i := rfl
      obtain ⟨s', hs', hrows⟩ :=
        set_row_spec s i (reverse_bits_lookup (old.row_byte (7 - i))) hi8
      refine ⟨s', ?_, ?_⟩
      · dsimp only
        rw [h7, get_row_eq old (7 - i) (by omega), bind_ok_eq]
        exact hs'
      · intro r hr
        rw [hrows r]
        by_cases hri : r = i
        · subst hri
          rw [if_pos rfl]
        · rw [if_neg hri]
          exact hinv r (by omega))
  exact ⟨s1, h1, hinv⟩

/-- A pixel of an image whose rows are the reversed rows, in reverse order, of another
image is the pixel of that image at the opposite position. -/
theorem px_of_reversed_rows (old s1 : MatrixImage)
    (h : ∀ r, r < 8 → s1.row_byte r = reverse_bits_lookup (old.row_byte (7 - r)))
    (row col : Nat) (hr : row < 8) (hc : col < 8) :
    s1.px row col = old.px (7 - row) (7 - col) := by
  rw [px_eq_row_byte s1 row col hr hc, h row hr, reverse_bits_lookup_bit _ _ (by omega),
    px_eq_row_byte old (7 - row) (7 - col) (by omega) (by omega)]

/-- The rows of an image after a half turn. -/
theorem rotate_image_half_turn_rows (I : MatrixImage) (k : Nat) (hk : k % 4 = 2) :
    ∃ I', I.rotate_image k = Except.ok I' ∧
      ∀ r, r < 8 → I'.row_byte r = reverse_bits_lookup (I.row_byte (7 - r)) := by
  obtain ⟨I', hI', hpx⟩ := rotate_image_px I k
  obtain ⟨s1, _, hrows⟩ := rotate_half_turn_by_table_rows I I
  have heq : I' = s1 := by
    apply ext_px
    intro row col hr hc
    rw [hpx row col hr hc, px_of_reversed_rows I s1 hrows row col hr hc]
    simp [rotation_source, hk]
  subst heq
  exact ⟨I', hI', hrows⟩

/-- The 180-degree case of `rotate_image` is the table loop followed by the pixel loop. -/
theorem rotate_image_half_turn_unfold (I : MatrixImage) (k : Nat) (hk : k % 4 = 2) :
    I.rotate_image k
      = (rotate_half_turn_by_table I I >>= fun s1 => rotate_half_turn_by_pixels I s1) := by
  unfold rotate_image
  rw [if_neg (by omega), hk]
  rfl

/-- Claim C33. In the 180-degree case of `MatrixImage::rotate_image`, for every input
image, the table-based loop alone succeeds and already produces the image with `new(row,
col) = old(7 - row, 7 - col)`; the pixel-by-pixel loop that follows it returns the image
it is given, so the result of `rotate_image` is the result of the table loop. -/
theorem rotate_image_table_step_suffices (I : MatrixImage) (k : Nat) (hk : k % 4 = 2) :
    ∃ s1, rotate_half_turn_by_table I I = Except.ok s1 ∧
      (∀ row col, row < 8 → col < 8 →
        ∃ p, I.get_pixel (7 - row) (7 - col) = Except.ok p ∧
          s1.get_pixel row col = Except.ok p) ∧
      (∀ r, r < 8 → ∃ v, I.get_row (7 - r) = Except.ok v ∧
        s1.get_row r = Except.ok (reverse_bits_lookup_table.getD v.val 0)) ∧
      rotate_half_turn_by_pixels I s1 = Except.ok s1 ∧
      I.rotate_image k = Except.ok s1 := by
  obtain ⟨s1, hs1, hrows⟩ := rotate_half_turn_by_table_rows I I
  obtain ⟨I', hI', hpx⟩ := rotate_image_px I k
  have heq : I' = s1 := by
    apply ext_px
    intro row col hr hc
    rw [hpx row col hr hc, px_of_reversed_rows I s1 hrows row col hr hc]
    simp [rotation_source, hk]
  subst heq
  have hunf := rotate_image_half_turn_unfold I k hk
  rw [hs1, bind_ok_eq, hI'] at hunf
  refine ⟨I', hs1, ?_, ?_, hunf.symm, hI'⟩
  · intro row col hr hc
    refine ⟨_, get_pixel_eq I (7 - row) (7 - col) (by omega) (by omega), ?_⟩
    rw [get_pixel_eq I' row col hr hc, px_of_reversed_rows I I' hrows row col hr hc]
  · intro r hr
    refine ⟨_, get_row_eq I (7 - r) (by omega), ?_⟩
    rw [get_row_eq I' r hr, hrows r hr]
    rfl

/-- Witness for claim C33: for the image with only pixel `(0, 0)` set, the table loop
alone gives the image whose row 7 is `0x01`, which is the result of `rotate_image(2)`. -/
theorem rotate_image_table_step_suffices_witness :
    2 % 4 = 2 ∧
    (∃ s1, rotate_half_turn_by_table only_pixel_0_0 only_pixel_0_0 = Except.ok s1 ∧
      (∀ row col, row < 8 → col < 8 →
        ∃ p, only_pixel_0_0.get_pixel (7 - row) (7 - col) = Except.ok p ∧
          s1.get_pixel row col = Except.ok p) ∧
      (∀ r, r < 8 → ∃ v, only_pixel_0_0.get_row (7 - r) = Except.ok v ∧
        s1.get_row r = Except.ok (reverse_bits_lookup_table.getD v.val 0)) ∧
      rotate_half_turn_by_pixels only_pixel_0_0 s1 = Except.ok s1 ∧
      only_pixel_0_0.rotate_image 2 = Except.ok s1) ∧
    (rotate_half_turn_by_table only_pixel_0_0 only_pixel_0_0 >>= fun s => s.get_row 7)
      = Except.ok 0x01 ∧
    (rotate_half_turn_by_table only_pixel_0_0 only_pixel_0_0 >>= fun s => s.get_row 0)
      = Except.ok 0x00 ∧
    (only_pixel_0_0.rotate_image 2 >>= fun s => s.get_row 7) = Except.ok 0x01 :=
  ⟨rfl, rotate_image_table_step_suffices only_pixel_0_0 2 rfl, rfl, rfl, rfl⟩

end MatrixImage

/-! ## Whole-canvas rotation: matrices, composition, commutation -/

namespace MatrixChainImage

/-- Two canvases with the same length, cursor and row bytes are equal. -/
theorem chain_ext_row_byte (s t : MatrixChainImage) (hl : s.length = t.length)
    (hc : s.cursor_position = t.cursor_position)
    (h : ∀ m r, m < s.length → r < 8 → s.row_byte m r = t.row_byte m r) : s = t := by
  apply ext_fields s t hl _ hc
  apply List.ext_getElem?
  intro n
  by_cases hn : n < s.length
  · obtain ⟨M, hM⟩ := matrices_get s n hn
    obtain ⟨M', hM'⟩ := matrices_get t n (by rw [← hl]; exact hn)
    rw [hM, hM']
    congr 1
    apply MatrixImage.ext_row_byte
    intro row hrow
    rw [← row_byte_of_matrix s n row M hM, ← row_byte_of_matrix t n row M' hM']
    exact h n row hn hrow
  · rw [matrices_get_none s n (by omega), matrices_get_none t n (by rw [← hl]; omega)]

/-- The chain's `rotate_image` looks at the parity of its argument only. -/
theorem rotate_image_mod (s : MatrixChainImage) (k : Nat) :
    s.rotate_image k = s.rotate_image (k % 2) := by
  unfold rotate_image
  rw [Nat.mod_mod]

/-- The chain's `rotate_image` for an odd argument, matrix by matrix: the new matrix at
index `m` is the old matrix at index `N - 1 - m` after a half turn. -/
theorem rotate_image_odd_matrices (s : MatrixChainImage) (k : Nat) (hk : k % 2 = 1) :
    ∃ s', s.rotate_image k = Except.ok s' ∧ s'.length = s.length ∧
      s'.cursor_position = s.cursor_position ∧
      ∀ (m : Nat) (M : MatrixImage), m < s.length → s.matrices[s.length - 1 - m]? = some M →
        ∃ M', M.rotate_image 2 = Except.ok M' ∧ s'.matrices[m]? = some M' := by
  obtain ⟨s', hs', hlen, hcur, hrows⟩ := rotate_image_odd_rows s k hk
  refine ⟨s', hs', hlen, hcur, ?_⟩
  intro m M hm hM
  obtain ⟨M', hM', hMrows⟩ := MatrixImage.rotate_image_half_turn_rows M 2 rfl
  obtain ⟨X, hX⟩ := matrices_get s' m (by rw [hlen]; exact hm)
  refine ⟨M', hM', ?_⟩
  rw [hX]
  congr 1
  apply MatrixImage.ext_row_byte
  intro r hr
  rw [← row_byte_of_matrix s' m r X hX, hrows m r hm hr, hMrows r hr,
    row_byte_of_matrix s (s.length - 1 - m) (7 - r) M hM]

/-- Claim C32. For every canvas of `N` matrices, `rotate_image(1)` succeeds and reverses
the order of the matrices and rotates every matrix by 180 degrees: afterwards the matrix
at index `m` is the old matrix at index `N - 1 - m` after `MatrixImage::rotate_image(2)`,
for every `m < N`; so the list of matrices after `rotate_image(1)` is the reversed list of
matrices after `rotate_matrices(2)`, with the same length and cursor. -/
theorem rotate_image_reverses_and_turns_matrices (s : MatrixChainImage) :
    ∃ s' t, s.rotate_image 1 = Except.ok s' ∧ s.rotate_matrices 2 = Except.ok t ∧
      s'.length = s.length ∧ s'.cursor_position = s.cursor_position ∧
      (∀ (m : Nat) (M : MatrixImage), m < s.length →
        s.matrices[s.length - 1 - m]? = some M →
          ∃ M', M.rotate_image 2 = Except.ok M' ∧ s'.matrices[m]? = some M') ∧
      s'.matrices = t.matrices.reverse ∧
      s'.length = t.length ∧ s'.cursor_position = t.cursor_position := by
  obtain ⟨s', hs', hlen, hcur, hmat⟩ := rotate_image_odd_matrices s 1 rfl
  obtain ⟨t, ht, htlen, htcur, htmat⟩ := rotate_matrices_spec s 2
  refine ⟨s', t, hs', ht, hlen, hcur, hmat, ?_, by rw [hlen, htlen], by rw [hcur, htcur]⟩
  apply List.ext_getElem?
  intro n
  have hsl : s'.matrices.length = s.length := by rw [s'.size_eq, hlen]
  have htl : t.matrices.length = s.length := by rw [t.size_eq, htlen]
  by_cases hn : n < s.length
  · rw [List.getElem?_reverse (by rw [htl]; exact hn), htl]
    obtain ⟨M, hM⟩ := matrices_get s (s.length - 1 - n) (by omega)
    obtain ⟨M1, hM1, hs1⟩ := hmat n M hn hM
    obtain ⟨M2, hM2, ht2⟩ := htmat (s.length - 1 - n) M hM
    rw [hs1, ht2]
    rw [hM1] at hM2
    exact congrArg some (Except.ok.inj hM2)
  · rw [List.getElem?_eq_none (by rw [hsl]; omega),
      List.getElem?_eq_none (by rw [List.length_reverse, htl]; omega)]

/-- Witness for claim C32: on the two-matrix example canvas, `rotate_image(1)` puts the
half-turned old matrix 1 at index 0 and the half-turned old matrix 0 at index 1. -/
theorem rotate_image_reverses_and_turns_matrices_witness :
    (∃ s' t, two_chip_example.rotate_image 1 = Except.ok s' ∧
      two_chip_example.rotate_matrices 2 = Except.ok t ∧
      s'.length = two_chip_example.length ∧
      s'.cursor_position = two_chip_example.cursor_position ∧
      (∀ (m : Nat) (M : MatrixImage), m < two_chip_example.length →
        two_chip_example.matrices[two_chip_example.length - 1 - m]? = some M →
          ∃ M', M.rotate_image 2 = Except.ok M' ∧ s'.matrices[m]? = some M') ∧
      s'.matrices = t.matrices.reverse ∧
      s'.length = t.length ∧ s'.cursor_position = t.cursor_position) ∧
    (two_chip_example.rotate_image 1).bind (fun s' => s'.get_row_of_matrix 0 4)
      = Except.ok 0xF0 ∧
    (two_chip_example.rotate_matrices 2).bind (fun t => t.get_row_of_matrix 1 4)
      = Except.ok 0xF0 ∧
    (two_chip_example.rotate_matrices 2).bind (fun t => t.get_row_of_matrix 0 4)
      = Except.ok 0x05 :=
  ⟨rotate_image_reverses_and_turns_matrices two_chip_example, rfl, rfl, rfl⟩

/-- Counterexample for claim C31: on the two-matrix example canvas the words of the claim
swap the rows of matrix 0 (the first half of the chain) with their partners in matrix 1
and leave row 3 of matrix 1, the byte `0x0F`, as it is; `rotate_image(1)` also swaps the
upper rows of matrix 1 with their partners in matrix 0, and row 3 of matrix 1 becomes the
reversed old row 4 of matrix 0, the byte `0x00`. -/
theorem rotate_image_half_chain_counterexample :
    two_chip_example.half_chain_swap_row 1 3 = 0x0F ∧
    (two_chip_example.rotate_image 1).bind (fun s' => s'.get_row_of_matrix 1 3)
      = Except.ok 0x00 ∧
    ¬ ∃ s', two_chip_example.rotate_image 1 = Except.ok s' ∧
        ∀ m r, m < two_chip_example.length → r < 8 →
          s'.get_row_of_matrix m r
            = Except.ok (two_chip_example.half_chain_swap_row m r) := by
  refine ⟨rfl, rfl, ?_⟩
  intro ⟨s', hs', hrows⟩
  have h13 := hrows 1 3 (by decide) (by decide)
  have hcode : (two_chip_example.rotate_image 1).bind (fun s' => s'.get_row_of_matrix 1 3)
      = Except.ok 0x00 := rfl
  rw [hs'] at hcode
  have hcode' : s'.get_row_of_matrix 1 3 = Except.ok 0x00 := hcode
  rw [hcode'] at h13
  have hspec : two_chip_example.half_chain_swap_row 1 3 = 0x0F := rfl
  rw [hspec] at h13
  have := Except.ok.inj h13
  exact absurd this (by decide)

/-- Claim C31, amended. For every canvas of `N` matrices and odd `k`, `rotate_image(k)`
succeeds, and its result is the canvas obtained by swapping, for each matrix index `m < N`
(every matrix of the chain) and each row `r < 4`, the row at `(matrix m, row r)` with the
row at `(matrix N - 1 - m, row 7 - r)`, each byte bit-reversed. These pairs cover every
row of every matrix once; the length and the cursor are unchanged. -/
theorem rotate_image_swaps_rows (s : MatrixChainImage) (k : Nat) (hk : k % 2 = 1) :
    ∃ s', s.rotate_image k = Except.ok s' ∧ s'.length = s.length ∧
      s'.cursor_position = s.cursor_position ∧
      (∀ m r, m < s.length → r < 4 →
        ∃ a b, s.get_row_of_matrix m r = Except.ok a ∧
          s.get_row_of_matrix (s.length - 1 - m) (7 - r) = Except.ok b ∧
          s'.get_row_of_matrix (s.length - 1 - m) (7 - r)
            = Except.ok (MatrixImage.reverse_bits_lookup_table.getD a.val 0) ∧
          s'.get_row_of_matrix m r
            = Except.ok (MatrixImage.reverse_bits_lookup_table.getD b.val 0)) ∧
      (∀ m' r', m' < s.length → r' < 8 →
        ∃ m r, m < s.length ∧ r < 4 ∧
          ((m' = m ∧ r' = r) ∨ (m' = s.length - 1 - m ∧ r' = 7 - r))) := by
  obtain ⟨s', hs', hlen, hcur, hrows⟩ := rotate_image_odd_rows s k hk
  refine ⟨s', hs', hlen, hcur, ?_, ?_⟩
  · intro m r hm hr
    refine ⟨_, _, get_row_of_matrix_eq s m r hm (by omega),
      get_row_of_matrix_eq s (s.length - 1 - m) (7 - r) (by omega) (by omega), ?_, ?_⟩
    · rw [get_row_of_matrix_eq s' _ _ (by rw [hlen]; omega) (by omega),
        hrows _ _ (by omega) (by omega)]
      have h1 : s.length - 1 - (s.length - 1 - m) = m := by omega
      have h2 : 7 - (7 - r) = r := by omega
      rw [h1, h2]
      rfl
    · rw [get_row_of_matrix_eq s' _ _ (by rw [hlen]; exact hm) (by omega),
        hrows _ _ hm (by omega)]
      rfl
  · intro m' r' hm' hr'
    by_cases h4 : r' < 4
    · exact ⟨m', r', hm', h4, Or.inl ⟨rfl, rfl⟩⟩
    · exact ⟨s.length - 1 - m', 7 - r', by omega, by omega, Or.inr ⟨by omega, by omega⟩⟩

/-- Witness for the amended claim C31: on the two-matrix example canvas, row 3 of matrix 0
(`0xA0`) and row 4 of matrix 1 are swapped and reversed, and so are row 3 of matrix 1
(`0x0F`) and row 4 of matrix 0. -/
theorem rotate_image_swaps_rows_witness :
    1 % 2 = 1 ∧
    (∃ s', two_chip_example.rotate_image 1 = Except.ok s' ∧
      s'.length = two_chip_example.length ∧
      s'.cursor_position = two_chip_example.cursor_position ∧
      (∀ m r, m < two_chip_example.length → r < 4 →
        ∃ a b, two_chip_example.get_row_of_matrix m r = Except.ok a ∧
          two_chip_example.get_row_of_matrix (two_chip_example.length - 1 - m) (7 - r)
            = Except.ok b ∧
          s'.get_row_of_matrix (two_chip_example.length - 1 - m) (7 - r)
            = Except.ok (MatrixImage.reverse_bits_lookup_table.getD a.val 0) ∧
          s'.get_row_of_matrix m r
            = Except.ok (MatrixImage.reverse_bits_lookup_table.getD b.val 0)) ∧
      (∀ m' r', m' < two_chip_example.length → r' < 8 →
        ∃ m r, m < two_chip_example.length ∧ r < 4 ∧
          ((m' = m ∧ r' = r) ∨ (m' = two_chip_example.length - 1 - m ∧ r' = 7 - r)))) ∧
    (two_chip_example.rotate_image 1).bind (fun s' => s'.get_row_of_matrix 1 4)
      = Except.ok 0x05 ∧
    (two_chip_example.rotate_image 1).bind (fun s' => s'.get_row_of_matrix 0 4)
      = Except.ok 0xF0 ∧
    (two_chip_example.rotate_image 1).bind (fun s' => s'.get_row_of_matrix 0 3)
      = Except.ok 0x00 :=
  ⟨rfl, rotate_image_swaps_rows two_chip_example 1 rfl, rfl, rfl, rfl⟩

/-- Two whole-canvas half turns in a row give the canvas back. -/
theorem rotate_image_odd_twice (s : MatrixChainImage) (a b : Nat) (ha : a % 2 = 1)
    (hb : b % 2 = 1) :
    ∃ s1, s.rotate_image a = Except.ok s1 ∧ s1.rotate_image b = Except.ok s := by
  obtain ⟨s1, hs1, hlen1, hcur1, hrows1⟩ := rotate_image_odd_rows s a ha
  obtain ⟨s2, hs2, hlen2, hcur2, hrows2⟩ := rotate_image_odd_rows s1 b hb
  have heq : s2 = s := by
    apply chain_ext_row_byte s2 s (by rw [hlen2, hlen1]) (by rw [hcur2, hcur1])
    intro m r hm hr
    have hm1 : m < s1.length := by rw [← hlen2]; exact hm
    have hms : m < s.length := by rw [← hlen1]; exact hm1
    rw [hrows2 m r hm1 hr, hlen1, hrows1 _ _ (by omega) (by omega),
      MatrixImage.reverse_bits_lookup_involution]
    congr 1 <;> omega
  rw [heq] at hs2
  exact ⟨s1, hs1, hs2⟩

/-- Claim C39. Whole-canvas rotation composes by parity: for every canvas and all `a` and
`b`, `rotate_image(a)` followed by `rotate_image(b)` succeeds and yields the same canvas
as `rotate_image(a + b)`; in particular applying `rotate_image` with an odd argument twice
restores the original canvas. -/
theorem rotate_image_composes_by_parity (s : MatrixChainImage) (a b : Nat) :
    (∃ s1 s2, s.rotate_image a = Except.ok s1 ∧ s1.rotate_image b = Except.ok s2 ∧
      s.rotate_image (a + b) = Except.ok s2) ∧
    (a % 2 = 1 → ∃ s1, s.rotate_image a = Except.ok s1 ∧ s1.rotate_image a = Except.ok s) := by
  refine ⟨?_, fun ha => rotate_image_odd_twice s a a ha ha⟩
  have hpa : a % 2 = 0 ∨ a % 2 = 1 := by omega
  have hpb : b % 2 = 0 ∨ b % 2 = 1 := by omega
  rcases hpa with ha | ha
  · obtain ⟨s2, hs2, _, _⟩ := rotate_image_fields s b
    refine ⟨s, s2, rotate_image_even s a ha, hs2, ?_⟩
    rw [rotate_image_mod s (a + b), show (a + b) % 2 = b % 2 by omega,
      ← rotate_image_mod s b]
    exact hs2
  · rcases hpb with hb | hb
    · obtain ⟨s1, hs1, _, _⟩ := rotate_image_fields s a
      refine ⟨s1, s1, hs1, rotate_image_even s1 b hb, ?_⟩
      rw [rotate_image_mod s (a + b), show (a + b) % 2 = a % 2 by omega,
        ← rotate_image_mod s a]
      exact hs1
    · obtain ⟨s1, hs1, hback⟩ := rotate_image_odd_twice s a b ha hb
      exact ⟨s1, s, hs1, hback, rotate_image_even s (a + b) (by omega)⟩

/-- Witness for claim C39: on the two-matrix example canvas, `rotate_image(3)` followed by
`rotate_image(2)` is `rotate_image(5)`, and `rotate_image(1)` twice gives the canvas back.
-/
theorem rotate_image_composes_by_parity_witness :
    ((∃ s1 s2, two_chip_example.rotate_image 3 = Except.ok s1 ∧
        s1.rotate_image 2 = Except.ok s2 ∧
        two_chip_example.rotate_image (3 + 2) = Except.ok s2) ∧
      (3 % 2 = 1 → ∃ s1, two_chip_example.rotate_image 3 = Except.ok s1 ∧
        s1.rotate_image 3 = Except.ok two_chip_example)) ∧
    ((two_chip_example.rotate_image 1).bind (fun s1 => s1.rotate_image 1)).map
        (fun s => s.matrices.map (fun M => (M.image_data 3).val))
      = Except.ok [0xA0, 0x0F] ∧
    (two_chip_example.rotate_image 1).map
        (fun s => s.matrices.map (fun M => (M.image_data 4).val))
      = Except.ok [0xF0, 0x05] :=
  ⟨rotate_image_composes_by_parity two_chip_example 3 2, rfl, rfl⟩

/-- A half turn and `j` quarter turns of one matrix commute. -/
theorem matrix_half_turn_comm (X : MatrixImage) (j : Nat) :
    ∃ A B C, X.rotate_image 2 = Except.ok A ∧ A.rotate_image j = Except.ok C ∧
      X.rotate_image j = Except.ok B ∧ B.rotate_image 2 = Except.ok C := by
  obtain ⟨A, C, hA, hC, hAC⟩ := MatrixImage.rotate_image_comp X 2 j
  obtain ⟨B, C', hB, hC', hBC⟩ := MatrixImage.rotate_image_comp X j 2
  rw [Nat.add_comm j 2, hAC] at hBC
  have : C = C' := Except.ok.inj hBC
  subst this
  exact ⟨A, B, C, hA, hC, hB, hC'⟩

/-- The two preprocessing steps commute. -/
theorem rotate_image_rotate_matrices_comm (s : MatrixChainImage) (k j : Nat) :
    ∃ s1 s2 t1, s.rotate_image k = Except.ok s1 ∧ s1.rotate_matrices j = Except.ok s2 ∧
      s.rotate_matrices j = Except.ok t1 ∧ t1.rotate_image k = Except.ok s2 := by
  have hpk : k % 2 = 0 ∨ k % 2 = 1 := by omega
  rcases hpk with hk | hk
  · obtain ⟨t1, ht1, _, _, _⟩ := rotate_matrices_spec s j
    exact ⟨s, t1, t1, rotate_image_even s k hk, ht1, ht1, rotate_image_even t1 k hk⟩
  · obtain ⟨s1, hs1, hlen1, hcur1, hmat1⟩ := rotate_image_odd_matrices s k hk
    obtain ⟨s2, hs2, hlen2, hcur2, hmat2⟩ := rotate_matrices_spec s1 j
    obtain ⟨t1, ht1, htlen1, htcur1, htmat1⟩ := rotate_matrices_spec s j
    obtain ⟨t2, ht2, htlen2, htcur2, htmat2⟩ := rotate_image_odd_matrices t1 k hk
    have heq : t2 = s2 := by
      apply ext_fields t2 s2 (by rw [htlen2, htlen1, hlen2, hlen1]) _
        (by rw [htcur2, htcur1, hcur2, hcur1])
      apply List.ext_getElem?
      intro n
      by_cases hn : n < s.length
      · obtain ⟨X, hX⟩ := matrices_get s (s.length - 1 - n) (by omega)
        obtain ⟨A, B, C, hA, hAC, hB, hBC⟩ := matrix_half_turn_comm X j
        -- first the half turn of the canvas, then the matrices
        obtain ⟨A', hA', hs1n⟩ := hmat1 n X hn hX
        rw [hA] at hA'
        have hAA : A = A' := Except.ok.inj hA'
        subst hAA
        obtain ⟨C1, hC1, hs2n⟩ := hmat2 n A hs1n
        rw [hAC] at hC1
        have hCC : C = C1 := Except.ok.inj hC1
        subst hCC
        -- first the matrices, then the half turn of the canvas
        obtain ⟨B', hB', ht1n⟩ := htmat1 (s.length - 1 - n) X hX
        rw [hB] at hB'
        have hBB : B = B' := Except.ok.inj hB'
        subst hBB
        obtain ⟨C2, hC2, ht2n⟩ := htmat2 n B (by rw [htlen1]; exact hn)
          (by rw [htlen1]; exact ht1n)
        rw [hBC] at hC2
        have hCC2 : C = C2 := Except.ok.inj hC2
        subst hCC2
        rw [ht2n, hs2n]
      · rw [matrices_get_none t2 n (by rw [htlen2, htlen1]; omega),
          matrices_get_none s2 n (by rw [hlen2, hlen1]; omega)]
    rw [heq] at ht2
    exact ⟨s1, s2, t1, hs1, hs2, ht1, ht2⟩

/-- Claim C38. The two preprocessing steps commute: for every canvas and all `k` and `j`,
`rotate_image(k)` followed by `rotate_matrices(j)` succeeds and yields the same canvas as
`rotate_matrices(j)` followed by `rotate_image(k)`; so the result of `preprocess` is also
the result of its two steps taken in the other order. -/
theorem preprocess_steps_commute (s : MatrixChainImage) (k j : Nat) :
    (∃ s1 s2 t1, s.rotate_image k = Except.ok s1 ∧ s1.rotate_matrices j = Except.ok s2 ∧
      s.rotate_matrices j = Except.ok t1 ∧ t1.rotate_image k = Except.ok s2) ∧
    (∀ chain : MAX7219Chain, ∃ t p,
      s.rotate_matrices chain.matrix_orientation = Except.ok t ∧
      t.rotate_image (if chain.upside_down then 1 else 0) = Except.ok p ∧
      chain.preprocess s = Except.ok p) := by
  refine ⟨rotate_image_rotate_matrices_comm s k j, ?_⟩
  intro chain
  obtain ⟨s1, s2, t1, hs1, hs2, ht1, ht2⟩ :=
    rotate_image_rotate_matrices_comm s (if chain.upside_down then 1 else 0)
      chain.matrix_orientation
  refine ⟨t1, s2, ht1, ht2, ?_⟩
  have hnat : chain.upside_down.toNat = (if chain.upside_down then 1 else 0) := by
    cases chain.upside_down <;> rfl
  unfold MAX7219Chain.preprocess
  rw [hnat, hs1, bind_ok_eq, hs2]

/-- Witness for claim C38: on the two-matrix example canvas, a whole-canvas half turn and
a quarter turn of the matrices give the same canvas in either order. -/
theorem preprocess_steps_commute_witness :
    ((∃ s1 s2 t1, two_chip_example.rotate_image 1 = Except.ok s1 ∧
        s1.rotate_matrices 1 = Except.ok s2 ∧
        two_chip_example.rotate_matrices 1 = Except.ok t1 ∧
        t1.rotate_image 1 = Except.ok s2) ∧
      (∀ chain : MAX7219Chain, ∃ t p,
        two_chip_example.rotate_matrices chain.matrix_orientation = Except.ok t ∧
        t.rotate_image (if chain.upside_down then 1 else 0) = Except.ok p ∧
        chain.preprocess two_chip_example = Except.ok p)) ∧
    ((two_chip_example.rotate_image 1).bind (fun s1 => s1.rotate_matrices 1)).map
        (fun s => s.matrices.map (fun M => (List.range 8).map (fun r => M.row_byte r)))
      = ((two_chip_example.rotate_matrices 1).bind (fun t1 => t1.rotate_image 1)).map
        (fun s => s.matrices.map (fun M => (List.range 8).map (fun r => M.row_byte r))) ∧
    ((two_chip_example.rotate_image 1).bind (fun s1 => s1.rotate_matrices 1)).map
        (fun s => s.matrices.map (fun M => (List.range 8).map (fun r => M.row_byte r)))
      = Except.ok [[16, 16, 16, 16, 0, 0, 0, 0], [0, 0, 0, 0, 0, 16, 0, 16]] :=
  ⟨preprocess_steps_commute two_chip_example 1 1, rfl, rfl⟩

end MatrixChainImage

/-! ## Drawing text: bounds of the accesses, and the split law on any canvas -/

namespace MatrixChainImage

/-- Claim C34. Drawing never writes past the canvas width: for every canvas with cursor at
most `8 * N`, every fully loaded font (all widths in `1..8`) and every text, `draw_text`
succeeds (no bounds error) and leaves the cursor inside the canvas; for every character
`ch` that it draws, at position `s.cursor + width(text[0..j))`, every access of
`draw_character` is in range: for `row < 8` and `col < width(ch)` the glyph pixel read has
`col < 8` and the read succeeds, and the canvas pixel written has column `position + col <
8 * N`, so the write succeeds on every canvas of that length. -/
theorem draw_text_stays_in_bounds (s : MatrixChainImage) (font : Font) (text : List Byte)
    (hcursor : s.cursor_position ≤ 8 * s.length)
    (hfont : ∀ c, 1 ≤ font.get_glyph_width c ∧ font.get_glyph_width c ≤ 8) :
    ∃ i s', i ≤ text.length ∧ s.draw_text text font = Except.ok (text.drop i, s') ∧
      s'.length = s.length ∧ s'.cursor_position ≤ 8 * s'.length ∧
      ∀ j ch, j < i → text[j]? = some ch →
        ∀ row col, row < 8 → col < font.get_glyph_width ch →
          col < 8 ∧
          s.cursor_position + font.text_width (text.take j) + col < 8 * s.length ∧
          ∃ p, font.get_pixel ch row col = Except.ok p ∧
            ∀ t : MatrixChainImage, t.length = s.length →
              ∃ t', t.set_pixel row
                (s.cursor_position + font.text_width (text.take j) + col) p
                  = Except.ok t' := by
  obtain ⟨i, s', hi, hrun, hlen, hcur, hcurle, hfits, _, _, _⟩ :=
    draw_text_loop_spec font (fun c => (hfont c).2) text s hcursor
  refine ⟨i, s', hi, hrun, hlen, by rw [hlen]; exact hcurle, ?_⟩
  intro j ch hj hch row col hrow hcol
  have hw8 := (hfont ch).2
  have hfit := hfits j ch hj hch
  have hw1 := (hfont ch).1
  have hprefix : s.cursor_position + font.text_width (text.take j) + font.get_glyph_width ch
      ≤ 8 * s.length := by
    omega
  have hcol8 : col < 8 := by omega
  have hpos : s.cursor_position + font.text_width (text.take j) + col < 8 * s.length := by
    omega
  refine ⟨hcol8, hpos, _, Glyph.glyph_get_pixel_eq _ row col hrow hcol8, ?_⟩
  intro t ht
  obtain ⟨t', ht', _⟩ := chain_set_pixel_spec t row
    (s.cursor_position + font.text_width (text.take j) + col)
    (bit_value ((font.font_glyphs ch).px row col)) hrow (by rw [ht]; exact hpos)
  exact ⟨t', ht'⟩

/-- Witness for claim C34: on the two-matrix example canvas with the cursor at column 5,
the text `[4, 2, 7]` of the example font (glyph widths 5, 3 and 8) is drawn up to its last
character, which does not fit in the three columns that are left. -/
theorem draw_text_stays_in_bounds_witness :
    ({ two_chip_example with cursor_position := 5 } : MatrixChainImage).cursor_position
      ≤ 8 * ({ two_chip_example with cursor_position := 5 } : MatrixChainImage).length ∧
    (∀ c, 1 ≤ Font.example_font.get_glyph_width c ∧
      Font.example_font.get_glyph_width c ≤ 8) ∧
    (∃ i s', i ≤ [(4 : Byte), 2, 7].length ∧
      ({ two_chip_example with cursor_position := 5 } : MatrixChainImage).draw_text
          [4, 2, 7] Font.example_font = Except.ok ([(4 : Byte), 2, 7].drop i, s') ∧
      s'.cursor_position ≤ 8 * s'.length) ∧
    (({ two_chip_example with cursor_position := 5 } : MatrixChainImage).draw_text
        [4, 2, 7] Font.example_font).map (fun r => (r.1, r.2.cursor_position))
      = Except.ok ([7], 13) :=
  have h1 : ({ two_chip_example with cursor_position := 5 } : MatrixChainImage).cursor_position
      ≤ 8 * ({ two_chip_example with cursor_position := 5 } : MatrixChainImage).length := by
    decide
  have h2 : ∀ c, 1 ≤ Font.example_font.get_glyph_width c ∧
      Font.example_font.get_glyph_width c ≤ 8 := fun c => by
    show 1 ≤ c.val % 8 + 1 ∧ c.val % 8 + 1 ≤ 8
    omega
  have h3 := draw_text_stays_in_bounds
    ({ two_chip_example with cursor_position := 5 } : MatrixChainImage)
    Font.example_font [4, 2, 7] h1 h2
  ⟨h1, h2,
    (match h3 with
      | ⟨i, s', hi, hrun, _, hcur, _⟩ => ⟨i, s', hi, hrun, hcur⟩),
    rfl⟩

/-- Claim C37. Conditional split law: for every canvas (cursor at most `8 * N`), font and
strings `a` and `b` such that `draw_text(a)` returns the empty string (all of `a` fits),
`draw_text(a + b)` on the starting canvas gives what `draw_text(b)` gives on the canvas
reached after `draw_text(a)`: the same canvas (pixels and cursor) and the same leftover.
When the glyphs of the font are at most 8 wide, both succeed. -/
theorem draw_text_split_on_any_canvas (s : MatrixChainImage) (font : Font)
    (a b : List Byte) (hcursor : s.cursor_position ≤ 8 * s.length)
    (hfit : (s.draw_text a font).map Prod.fst = Except.ok []) :
    ∃ sa, s.draw_text a font = Except.ok ([], sa) ∧
      sa.cursor_position ≤ 8 * sa.length ∧
      s.draw_text (a ++ b) font = sa.draw_text b font ∧
      ((∀ c, font.get_glyph_width c ≤ 8) →
        ∃ lb sb, sa.draw_text b font = Except.ok (lb, sb) ∧
          s.draw_text (a ++ b) font = Except.ok (lb, sb) ∧
          (∀ r c, r < 8 → c < 8 * s.length →
            (s.draw_text (a ++ b) font).bind (fun x => x.2.get_pixel r c)
              = sb.get_pixel r c) ∧
          (s.draw_text (a ++ b) font).map (fun x => x.2.cursor_position)
            = Except.ok sb.cursor_position) := by
  cases hda : s.draw_text a font with
  | error e =>
    rw [hda] at hfit
    exact absurd hfit (by intro h; cases h)
  | ok res =>
    obtain ⟨la, sa⟩ := res
    rw [hda] at hfit
    have hla : la = [] := Except.ok.inj hfit
    subst hla
    have hfields := draw_text_loop_fields font a [] s sa hcursor hda
    have hsplit : s.draw_text (a ++ b) font = sa.draw_text b font :=
      draw_text_loop_append_fit font b a s sa hda
    refine ⟨sa, rfl, hfields.2, hsplit, ?_⟩
    intro hfont
    obtain ⟨j, sb, _, hrunb, _⟩ := draw_text_loop_spec font hfont b sa hfields.2
    have hb : sa.draw_text b font = Except.ok (b.drop j, sb) := hrunb
    refine ⟨b.drop j, sb, hb, by rw [hsplit, hb], ?_, ?_⟩
    · intro r c _ _
      rw [hsplit, hb]
      rfl
    · rw [hsplit, hb]
      rfl

/-- Witness for claim C37: on the two-matrix example canvas with the cursor at column 5
and the example font, `a = [4]` fits entirely, and drawing `b = [2, 7]` afterwards gives
the same leftover `[7]` and cursor 13 as drawing `[4, 2, 7]` at once. -/
theorem draw_text_split_on_any_canvas_witness :
    ({ two_chip_example with cursor_position := 5 } : MatrixChainImage).cursor_position
      ≤ 8 * ({ two_chip_example with cursor_position := 5 } : MatrixChainImage).length ∧
    (({ two_chip_example with cursor_position := 5 } : MatrixChainImage).draw_text
        [4] Font.example_font).map Prod.fst = Except.ok [] ∧
    (∃ sa, ({ two_chip_example with cursor_position := 5 } : MatrixChainImage).draw_text
          [4] Font.example_font = Except.ok ([], sa) ∧
      ({ two_chip_example with cursor_position := 5 } : MatrixChainImage).draw_text
          ([4] ++ [2, 7]) Font.example_font = sa.draw_text [2, 7] Font.example_font) ∧
    (({ two_chip_example with cursor_position := 5 } : MatrixChainImage).draw_text
        ([4] ++ [2, 7]) Font.example_font).map (fun r => (r.1, r.2.cursor_position))
      = Except.ok ([7], 13) ∧
    ((({ two_chip_example with cursor_position := 5 } : MatrixChainImage).draw_text
        [4] Font.example_font).bind (fun r => r.2.draw_text [2, 7] Font.example_font)).map
          (fun r => (r.1, r.2.cursor_position))
      = Except.ok ([7], 13) :=
  have h1 : ({ two_chip_example with cursor_position := 5 } : MatrixChainImage).cursor_position
      ≤ 8 * ({ two_chip_example with cursor_position := 5 } : MatrixChainImage).length := by
    decide
  have h3 := draw_text_split_on_any_canvas
    ({ two_chip_example with cursor_position := 5 } : MatrixChainImage)
    Font.example_font [4] [2, 7] h1 rfl
  ⟨h1, rfl,
    (match h3 with
      | ⟨sa, hsa, _, hsplit, _⟩ => ⟨sa, hsa, hsplit⟩),
    rfl, rfl⟩

end MatrixChainImage

/-! ## Glyph: the set pixels and the width -/

namespace Glyph

/-- The set pixels of a proportional glyph and its width, for a code point other than
`0x20` and `0xFF` and a spacing that does not wrap around: every set pixel of the stored
bitmap in one of the columns 0 to 6 (the columns that the third loop of the constructor
looks at) lies in a column smaller than the width. Column 7 is not looked at. -/
theorem new_set_pixels_within_width (data : Fin 8 → Byte) (code_point : Byte)
    (spacing : Nat) (h20 : code_point ≠ 0x20) (hFF : code_point ≠ 0xFF)
    (hs : spacing ≤ SIZE_MAX - 8) :
    ∃ g, Glyph.new data true code_point spacing = Except.ok g ∧
      ∀ row col, row < 8 → col ≤ 6 → g.px row col = true → col < g.get_width := by
  obtain ⟨ls, e, g, _, hnew, _, he, hblank, _, _, hw⟩ :=
    new_width_after_right_scan data code_point spacing h20 hFF
  refine ⟨g, hnew, ?_⟩
  intro row col hrow hcol hp
  rw [hw hs]
  have hlt : col < 7 - e := by
    by_contra hn
    have := hblank col (by omega) hcol row hrow
    rw [hp] at this
    exact absurd this (by simp)
  omega

/-- The law of the set pixels at a bitmap with the used columns 2 to 5, code point `0x41`
and spacing 1. -/
theorem new_set_pixels_within_width_example :
    ∃ g, Glyph.new inset_data true 0x41 1 = Except.ok g ∧
      ∀ row col, row < 8 → col ≤ 6 → g.px row col = true → col < g.get_width :=
  new_set_pixels_within_width inset_data 0x41 1 (by decide) (by decide) (by decide)

/-- Claim C35, the code at the bitmap with the columns 0 and 7 set (rows `0b10000001`),
`proportional = true`, code point `0x41` and spacing 0: no column is blank on the left, so
the stored bitmap is the raw one; the third loop finds the columns 6 to 1 blank and never
looks at column 7, so the width is 2, while pixel `(0, 7)` of the stored bitmap is set.
`draw_text` with this glyph on a blank canvas draws the columns 0 and 1 only: pixel `(0,
0)` is on, pixel `(0, 7)` stays off and the cursor moves to column 2. -/
theorem new_width_cuts_last_column :
    (Glyph.new end_columns_data true 0x41 0).map get_width = Except.ok 2 ∧
    (Glyph.new end_columns_data true 0x41 0 >>= fun g => g.get_pixel 0 7) = Except.ok 1 ∧
    (Glyph.new end_columns_data true 0x41 0 >>= fun g => g.get_pixel 0 0) = Except.ok 1 ∧
    ((Glyph.new end_columns_data true 0x41 0).bind (fun g =>
      (MatrixChainImage.new 1).draw_text [0x41] ⟨fun _ => g⟩ >>=
        fun r => r.2.get_pixel 0 0)) = Except.ok 1 ∧
    ((Glyph.new end_columns_data true 0x41 0).bind (fun g =>
      (MatrixChainImage.new 1).draw_text [0x41] ⟨fun _ => g⟩ >>=
        fun r => r.2.get_pixel 0 7)) = Except.ok 0 ∧
    ((Glyph.new end_columns_data true 0x41 0).bind (fun g =>
      ((MatrixChainImage.new 1).draw_text [0x41] ⟨fun _ => g⟩).map
        (fun r => (r.1, r.2.cursor_position)))) = Except.ok ([], 2) :=
  ⟨rfl, rfl, rfl, rfl, rfl, rfl⟩

end Glyph

/-! ## MAX7219Chain: the constructor -/

namespace MAX7219Chain

theorem broadcast_length (reg d : Byte) : ∀ n, (broadcast reg d n).length = 2 * n := by
  intro n
  induction n with
  | zero => rfl
  | succ k ih =>
    show (reg :: d :: broadcast reg d k).length = 2 * (k + 1)
    rw [List.length_cons, List.length_cons, ih]
    omega

theorem broadcast_get (reg d : Byte) :
    ∀ n i, i < n → (broadcast reg d n)[2 * i]? = some reg ∧
      (broadcast reg d n)[2 * i + 1]? = some d := by
  intro n
  induction n with
  | zero => intro i hi; omega
  | succ k ih =>
    intro i hi
    show (reg :: d :: broadcast reg d k)[2 * i]? = some reg ∧
      (reg :: d :: broadcast reg d k)[2 * i + 1]? = some d
    cases i with
    | zero => exact ⟨by simp, by simp⟩
    | succ j =>
      obtain ⟨h1, h2⟩ := ih j (by omega)
      have e1 : 2 * (j + 1) = (2 * j) + 1 + 1 := by omega
      rw [e1, List.getElem?_cons_succ, List.getElem?_cons_succ,
        List.getElem?_cons_succ, List.getElem?_cons_succ]
      exact ⟨h1, h2⟩

/-- Two byte sequences of `2 * n` bytes with the same pairs are equal. -/
theorem list_eq_of_pairs (v w : List Byte) (n : Nat) (hv : v.length = 2 * n)
    (hw : w.length = 2 * n)
    (h : ∀ i, i < n → v[2 * i]? = w[2 * i]? ∧ v[2 * i + 1]? = w[2 * i + 1]?) : v = w := by
  apply List.ext_getElem?
  intro k
  by_cases hk : k < 2 * n
  · have hcase : k % 2 = 0 ∨ k % 2 = 1 := by omega
    rcases hcase with h0 | h1
    · have := (h (k / 2) (by omega)).1
      rwa [show 2 * (k / 2) = k by omega] at this
    · have := (h (k / 2) (by omega)).2
      rwa [show 2 * (k / 2) + 1 = k by omega] at this
  · rw [List.getElem?_eq_none (by omega), List.getElem?_eq_none (by omega)]

/-- The method `send_command_all` in closed form, for a chain whose `length * 2` does not
wrap around: the first `(2 * N) mod 2^32` bytes of the broadcast are transferred as one
sequence. -/
theorem send_command_all_eq (self : MAX7219Chain) (reg d : Byte) (bus : List (List Byte))
    (hN : 2 * self.length ≤ SIZE_MAX) :
    self.send_command_all reg d bus
      = Except.ok (bus ++ [(broadcast reg d self.length).take
          ((2 * self.length) % 2 ^ 32)]) := by
  obtain ⟨cs, hlen, hfill, hsend⟩ := send_command_all_spec self reg d bus hN
  have hcs : cs = broadcast reg d self.length := by
    apply list_eq_of_pairs cs _ self.length hlen (broadcast_length reg d _)
    intro i hi
    obtain ⟨h1, h2⟩ := hfill i hi
    obtain ⟨h3, h4⟩ := broadcast_get reg d self.length i hi
    exact ⟨by rw [h1, h3], by rw [h2, h4]⟩
  rw [hsend, hcs]

/-- The method `clear` in closed form. -/
theorem clear_eq (self : MAX7219Chain) (bus : List (List Byte))
    (hN : 2 * self.length ≤ SIZE_MAX) :
    self.clear bus = Except.ok (bus ++ (List.range 8).map (fun r =>
      (broadcast (row_index_to_row_register r) 0x00 self.length).take
        ((2 * self.length) % 2 ^ 32))) := by
  unfold clear
  obtain ⟨b, hb, hinv⟩ := forUpTo_invariant
    (fun n (b : List (List Byte)) => b = bus ++ (List.range n).map (fun r =>
      (broadcast (row_index_to_row_register r) 0x00 self.length).take
        ((2 * self.length) % 2 ^ 32)))
    MatrixImage.HEIGHT
    (fun r bus => self.send_command_all (row_index_to_row_register r) 0x00 bus) bus
    (by simp)
    (by
      intro i b _ hinv
      refine ⟨_, send_command_all_eq self _ _ b hN, ?_⟩
      subst hinv
      show _ ++ _ ++ [_] = _ ++ List.map _ (List.range (i + 1))
      rw [List.range_succ, List.map_append, List.append_assoc]
      rfl)
  rw [hb, hinv]
  rfl

/-- The constructor in closed form, for a length whose double does not wrap around: the
object has the given members and the bus has received the fourteen broadcasts of
`init_commands`, each cut to `(2 * N) mod 2^32` bytes. -/
theorem new_eq (length matrix_orientation : Nat) (upside_down : Bool) (intensity : Byte)
    (bus : List (List Byte)) (hN : 2 * length ≤ SIZE_MAX) :
    MAX7219Chain.new length matrix_orientation upside_down intensity bus
      = Except.ok (⟨length, matrix_orientation, upside_down, intensity⟩,
          bus ++ (init_commands intensity).map (fun p =>
            (broadcast p.1 p.2 length).take ((2 * length) % 2 ^ 32))) := by
  have hsend : ∀ (reg d : Byte) (b : List (List Byte)),
      (MAX7219Chain.mk length matrix_orientation upside_down intensity).send_command_all
        reg d b = Except.ok (b ++ [(broadcast reg d length).take ((2 * length) % 2 ^ 32)]) :=
    fun reg d b => send_command_all_eq ⟨length, matrix_orientation, upside_down, intensity⟩
      reg d b hN
  have hclear := clear_eq ⟨length, matrix_orientation, upside_down, intensity⟩
  unfold MAX7219Chain.new
  simp only [hide, show_device, set_intensity, send_command_all_register, hsend, bind_ok_eq,
    pure_eq_ok]
  rw [hclear _ hN]
  simp only [bind_ok_eq, hsend]
  congr 1
  simp only [List.append_assoc]
  rfl

/-- Claim C36, amended. Constructing a `MAX7219Chain` of length `N` with `2 * N < 2^32`
and intensity `i` succeeds and transmits, in this order, exactly these broadcasts, each as
`N` repeated `(register, data)` pairs: `(0x0C, 0x00)` shutdown off; `(0x0F, 0x00)` test
off; `(0x0B, 0x07)` scan limit all rows; `(0x09, 0x00)` no decode; `(0x0A, i)` intensity;
then the eight blank rows `(0x01, 0x00)`, ..., `(0x08, 0x00)`; and finally `(0x0C, 0x01)`
device on. -/
theorem new_transmits_init_sequence (length matrix_orientation : Nat) (upside_down : Bool)
    (intensity : Byte) (bus : List (List Byte)) (hN : 2 * length < 2 ^ 32) :
    MAX7219Chain.new length matrix_orientation upside_down intensity bus
      = Except.ok (⟨length, matrix_orientation, upside_down, intensity⟩,
          bus ++ [broadcast 0x0C 0x00 length, broadcast 0x0F 0x00 length,
            broadcast 0x0B 0x07 length, broadcast 0x09 0x00 length,
            broadcast 0x0A intensity length,
            broadcast 0x01 0x00 length, broadcast 0x02 0x00 length,
            broadcast 0x03 0x00 length, broadcast 0x04 0x00 length,
            broadcast 0x05 0x00 length, broadcast 0x06 0x00 length,
            broadcast 0x07 0x00 length, broadcast 0x08 0x00 length,
            broadcast 0x0C 0x01 length]) ∧
    ∀ reg d : Byte, (broadcast reg d length).length = 2 * length ∧
      ∀ k, k < length → (broadcast reg d length)[2 * k]? = some reg ∧
        (broadcast reg d length)[2 * k + 1]? = some d := by
  refine ⟨?_, fun reg d => ⟨broadcast_length reg d length, broadcast_get reg d length⟩⟩
  have ht : ∀ reg d : Byte, (broadcast reg d length).take (2 * length)
      = broadcast reg d length :=
    fun reg d => List.take_of_length_le (by rw [broadcast_length])
  rw [new_eq length matrix_orientation upside_down intensity bus (by unfold SIZE_MAX; omega),
    Nat.mod_eq_of_lt hN]
  unfold init_commands
  simp only [List.map, ht]

/-- Witness for the amended claim C36: the constructor of a chain of two chips with
intensity 5 transmits fourteen sequences of four bytes. -/
theorem new_transmits_init_sequence_witness :
    2 * 2 < 2 ^ 32 ∧
    (MAX7219Chain.new 2 0 false 5 []
      = Except.ok (⟨2, 0, false, 5⟩,
          [] ++ [broadcast 0x0C 0x00 2, broadcast 0x0F 0x00 2,
            broadcast 0x0B 0x07 2, broadcast 0x09 0x00 2, broadcast 0x0A 5 2,
            broadcast 0x01 0x00 2, broadcast 0x02 0x00 2,
            broadcast 0x03 0x00 2, broadcast 0x04 0x00 2,
            broadcast 0x05 0x00 2, broadcast 0x06 0x00 2,
            broadcast 0x07 0x00 2, broadcast 0x08 0x00 2,
            broadcast 0x0C 0x01 2])) ∧
    (MAX7219Chain.new 2 0 false 5 []).map Prod.snd
      = Except.ok [[0x0C, 0, 0x0C, 0], [0x0F, 0, 0x0F, 0], [0x0B, 7, 0x0B, 7],
          [0x09, 0, 0x09, 0], [0x0A, 5, 0x0A, 5], [1, 0, 1, 0], [2, 0, 2, 0],
          [3, 0, 3, 0], [4, 0, 4, 0], [5, 0, 5, 0], [6, 0, 6, 0], [7, 0, 7, 0],
          [8, 0, 8, 0], [0x0C, 1, 0x0C, 1]] :=
  ⟨by decide, (new_transmits_init_sequence 2 0 false 5 [] (by decide)).1, rfl⟩

/-- Counterexample for claim C36: for the chain length `N = 2^31` every command string has
`2^32` bytes, the byte count passed to `spi_send_data` is `2^32 mod 2^32 = 0`, and the
constructor transmits fourteen empty sequences; the first of them is not the shutdown
broadcast of `N` pairs. -/
theorem new_counterexample :
    MAX7219Chain.new 2147483648 0 false 5 []
      = Except.ok (⟨2147483648, 0, false, 5⟩, List.replicate 14 []) ∧
    ¬ ∃ rest, (MAX7219Chain.new 2147483648 0 false 5 []).map Prod.snd
        = Except.ok (broadcast 0x0C 0x00 2147483648 :: rest) := by
  have hnew := new_eq 2147483648 0 false 5 [] (by unfold SIZE_MAX; norm_num)
  have hzero : (2 * 2147483648) % 2 ^ 32 = 0 := by norm_num
  rw [hzero] at hnew
  have hbus : ([] : List (List Byte)) ++ (init_commands 5).map (fun p =>
      (broadcast p.1 p.2 2147483648).take 0) = List.replicate 14 [] := by
    unfold init_commands
    simp only [List.map, List.take_zero, List.nil_append]
    rfl
  rw [hbus] at hnew
  refine ⟨hnew, ?_⟩
  intro ⟨rest, h⟩
  rw [hnew] at h
  have h1 : (List.replicate 14 [] : List (List Byte))
      = broadcast 0x0C 0x00 2147483648 :: rest := Except.ok.inj h
  have h2 : ([] : List Byte) = broadcast 0x0C 0x00 2147483648 := by
    have h3 : ([] : List Byte) :: List.replicate 13 []
        = broadcast 0x0C 0x00 2147483648 :: rest := h1
    exact (List.cons.inj h3).1
  have h4 := congrArg List.length h2
  rw [broadcast_length] at h4
  norm_num at h4

end MAX7219Chain

/-! ## MAX7219Chain: displaying an image -/

namespace MAX7219Chain

/-- The inner loop of `display_raw` for one row: the command string has `2 * L` bytes, the
row register at the even positions and the row bytes of the first `L` matrices of the
image at the odd positions. -/
theorem display_raw_row_spec (self : MAX7219Chain) (image : MatrixChainImage) (r : Nat)
    (hr : r < 8) (hL : self.length ≤ image.length) (hN : 2 * self.length ≤ SIZE_MAX) :
    ∃ cs : List Byte,
      forUpTo self.length (fun m command_string => do
          let cs ← vector_store command_string (size_t_mul 2 m) (row_index_to_row_register r)
          let d ← image.get_row_of_matrix m r
          vector_store cs (size_t_add (size_t_mul 2 m) 1) d)
        (List.replicate (size_t_mul self.length 2) (0 : Byte)) = Except.ok cs ∧
      cs.length = 2 * self.length ∧
      ∀ m, m < self.length → cs[2 * m]? = some (row_index_to_row_register r) ∧
        cs[2 * m + 1]? = some (image.row_byte m r) := by
  apply forUpTo_invariant
    (fun n (cs : List Byte) => cs.length = 2 * self.length ∧
      ∀ m, m < n → cs[2 * m]? = some (row_index_to_row_register r) ∧
        cs[2 * m + 1]? = some (image.row_byte m r))
  · exact ⟨by rw [List.length_replicate, size_t_mul_of_le _ _ (by omega)]; omega,
      fun m hm => absurd hm (Nat.not_lt_zero m)⟩
  · intro i cs hi ⟨hlen, hfill⟩
    have h1 : size_t_mul 2 i = 2 * i := size_t_mul_of_le _ _ (by omega)
    have h2 : size_t_add (2 * i) 1 = 2 * i + 1 := Glyph.size_t_add_of_le _ _ (by omega)
    refine ⟨(cs.set (2 * i) (row_index_to_row_register r)).set (2 * i + 1)
      (image.row_byte i r), ?_, ?_, ?_⟩
    · simp only [h1, h2]
      rw [vector_store_eq _ _ _ (by omega), bind_ok_eq,
        MatrixChainImage.get_row_of_matrix_eq image i r (by omega) hr, bind_ok_eq,
        vector_store_eq _ _ _ (by rw [List.length_set]; omega)]
    · rw [List.length_set, List.length_set]
      exact hlen
    · intro j hj
      by_cases hji : j = i
      · subst hji
        constructor
        · rw [List.getElem?_set_ne (by omega), List.getElem?_set_self (by omega)]
        · rw [List.getElem?_set_self (by rw [List.length_set]; omega)]
      · obtain ⟨ha, hb⟩ := hfill j (by omega)
        constructor
        · rw [List.getElem?_set_ne (by omega), List.getElem?_set_ne (by omega)]
          exact ha
        · rw [List.getElem?_set_ne (by omega), List.getElem?_set_ne (by omega)]
          exact hb

/-- The method `display_raw` in closed form, given the command string `f r` that its inner
loop produces for each row `r`. -/
theorem display_raw_of_rows (self : MAX7219Chain) (image : MatrixChainImage)
    (bus : List (List Byte)) (f : Nat → List Byte)
    (hf : ∀ r, r < 8 →
      forUpTo self.length (fun m command_string => do
          let cs ← vector_store command_string (size_t_mul 2 m) (row_index_to_row_register r)
          let d ← image.get_row_of_matrix m r
          vector_store cs (size_t_add (size_t_mul 2 m) 1) d)
        (List.replicate (size_t_mul self.length 2) (0 : Byte)) = Except.ok (f r)) :
    self.display_raw image bus = Except.ok (bus ++ (List.range 8).map (fun r =>
      (f r).take ((f r).length % 2 ^ 32))) := by
  unfold display_raw
  obtain ⟨b, hb, hinv⟩ := forUpTo_invariant
    (fun n (b : List (List Byte)) => b = bus ++ (List.range n).map (fun r =>
      (f r).take ((f r).length % 2 ^ 32)))
    MatrixImage.HEIGHT
    (fun r bus => do
      let command_string ← forUpTo self.length (fun m command_string => do
          let cs ← vector_store command_string (size_t_mul 2 m) (row_index_to_row_register r)
          let d ← image.get_row_of_matrix m r
          vector_store cs (size_t_add (size_t_mul 2 m) 1) d)
        (List.replicate (size_t_mul self.length 2) (0 : Byte))
      pure (send_command_string command_string bus)) bus
    (by simp)
    (by
      intro i b hi hinv
      refine ⟨b ++ [(f i).take ((f i).length % 2 ^ 32)], ?_, ?_⟩
      · dsimp only
        rw [hf i hi, bind_ok_eq]
        rfl
      · subst hinv
        show _ ++ _ ++ [_] = _ ++ List.map _ (List.range (i + 1))
        rw [List.range_succ, List.map_append, List.append_assoc]
        rfl)
  rw [hb, hinv]
  rfl

/-- The method `send_command_vectors` in closed form, given the eight command strings. -/
theorem send_command_vectors_of_rows (cv : List (List Byte)) (bus : List (List Byte))
    (f : Nat → List Byte) (hf : ∀ r, r < 8 → cv[r]? = some (f r)) :
    send_command_vectors cv bus = Except.ok (bus ++ (List.range 8).map (fun r =>
      (f r).take ((f r).length % 2 ^ 32))) := by
  have key : ∃ b, send_command_vectors cv bus = Except.ok b ∧
      b = bus ++ (List.range MatrixImage.HEIGHT).map (fun r =>
        (f r).take ((f r).length % 2 ^ 32)) := by
    unfold send_command_vectors
    apply forUpTo_invariant
      (fun n (b : List (List Byte)) => b = bus ++ (List.range n).map (fun r =>
        (f r).take ((f r).length % 2 ^ 32)))
    · simp
    · intro i b hi hinv
      refine ⟨b ++ [(f i).take ((f i).length % 2 ^ 32)], ?_, ?_⟩
      · dsimp only
        rw [hf i hi]
        rfl
      · subst hinv
        show _ ++ _ ++ [_] = _ ++ List.map _ (List.range (i + 1))
        rw [List.range_succ, List.map_append, List.append_assoc]
        rfl
  obtain ⟨b, hb, hinv⟩ := key
  rw [hb, hinv]
  rfl

/-- Rotating the matrices by a multiple of four quarter turns leaves the canvas as it is.
-/
theorem rotate_matrices_full_turns (s : MatrixChainImage) (k : Nat) (hk : k % 4 = 0) :
    s.rotate_matrices k = Except.ok s := by
  obtain ⟨s', hs', hlen, hcur, hmat⟩ := MatrixChainImage.rotate_matrices_spec s k
  have heq : s' = s := by
    apply MatrixChainImage.ext_fields s' s hlen _ hcur
    apply List.ext_getElem?
    intro n
    by_cases hn : n < s.length
    · obtain ⟨M, hM⟩ := MatrixChainImage.matrices_get s n hn
      obtain ⟨M', hM', hs'n⟩ := hmat n M hM
      have hid : M.rotate_image k = Except.ok M := by
        unfold MatrixImage.rotate_image
        rw [if_pos hk]
        rfl
      rw [hid] at hM'
      have : M = M' := Except.ok.inj hM'
      rw [hs'n, hM, this]
    · rw [MatrixChainImage.matrices_get_none s' n (by rw [hlen]; omega),
        MatrixChainImage.matrices_get_none s n (by omega)]
  rw [heq] at hs'
  exact hs'

/-- The method `preprocess` succeeds and keeps the length; for a device that is mounted
upright with matrices in their normal orientation it returns the canvas as it is. -/
theorem preprocess_spec (self : MAX7219Chain) (image : MatrixChainImage) :
    (∃ prepared, self.preprocess image = Except.ok prepared ∧
      prepared.length = image.length) ∧
    (self.matrix_orientation % 4 = 0 → self.upside_down = false →
      self.preprocess image = Except.ok image) := by
  constructor
  · obtain ⟨s1, hs1, hlen1, _⟩ :=
      MatrixChainImage.rotate_image_fields image self.upside_down.toNat
    obtain ⟨s2, hs2, hlen2, _, _⟩ :=
      MatrixChainImage.rotate_matrices_spec s1 self.matrix_orientation
    refine ⟨s2, ?_, by rw [hlen2, hlen1]⟩
    unfold preprocess
    rw [hs1, bind_ok_eq, hs2]
  · intro ho hu
    unfold preprocess
    rw [hu]
    show (image.rotate_image 0 >>= fun s => s.rotate_matrices self.matrix_orientation) = _
    rw [MatrixChainImage.rotate_image_even image 0 rfl, bind_ok_eq,
      rotate_matrices_full_turns image _ ho]

/-- The byte that `row_index_to_row_register` returns for a row of a matrix. -/
theorem row_register_val (r : Nat) (hr : r < 8) (reg : Byte) (h : reg.val = r + 1) :
    reg = row_index_to_row_register r := by
  apply Fin.ext
  rw [h]
  show r + 1 = (r + 1) % 256
  omega

/-- Claim C40. For every device of length `L` and every canvas of at least `L` matrices (a
canvas that fits in memory: `2 * N` is a `std::size_t` value): `display(image)` succeeds,
leaves the image as it is, and transmits the same 8 byte sequences, in the same order, as
`display_raw` applied to the preprocessed copy of the first `L` matrices of the image,
`preprocess(get_cropped_image(L))`; in particular, when `matrix_orientation mod 4 = 0` and
`upside_down` is false, `display(image)` and `display_raw(image)` transmit identical byte
sequences. -/
theorem display_is_display_raw_of_preprocessed (self : MAX7219Chain)
    (image : MatrixChainImage) (bus : List (List Byte))
    (hL : self.length ≤ image.length) (hmem : 2 * image.length ≤ SIZE_MAX) :
    ∃ cropped prepared bus' seqs,
      image.get_cropped_image self.length = Except.ok (image, cropped) ∧
      self.preprocess cropped = Except.ok prepared ∧
      self.display image bus = Except.ok (image, bus') ∧
      self.display_raw prepared bus = Except.ok bus' ∧
      seqs.length = 8 ∧ bus' = bus ++ seqs ∧
      (self.matrix_orientation % 4 = 0 → self.upside_down = false →
        self.display_raw image bus = Except.ok bus') := by
  have hN : 2 * self.length ≤ SIZE_MAX := by omega
  obtain ⟨cropped, hcrop, hclen, _, hcrows⟩ :=
    (MatrixChainImage.get_cropped_image_spec image self.length).1 hL
  obtain ⟨⟨prepared, hprep, hplen⟩, hident⟩ := preprocess_spec self cropped
  have hpl : prepared.length = self.length := by rw [hplen, hclen]
  obtain ⟨cv, hcv, _, hrows⟩ := image_to_command_vectors_spec prepared
  -- the command string of row `r`
  have hfr : ∀ r, r < 8 → cv[r]? = some ((cv[r]?).getD []) := by
    intro r hr
    obtain ⟨seq, hseq, _⟩ := hrows r hr
    rw [hseq]
    rfl
  have hsend := send_command_vectors_of_rows cv bus (fun r => (cv[r]?).getD []) hfr
  -- a command string with the pairs of the prepared canvas is the one of the encoder
  have hsame : ∀ (r : Nat) (cs : List Byte), r < 8 → cs.length = 2 * self.length →
      (∀ m, m < self.length → cs[2 * m]? = some (row_index_to_row_register r) ∧
        cs[2 * m + 1]? = some (prepared.row_byte m r)) →
      cs = (cv[r]?).getD [] := by
    intro r cs hr hcslen hcs
    obtain ⟨seq, hseq, hseqlen, hpairs⟩ := hrows r hr
    rw [hseq]
    show cs = seq
    apply list_eq_of_pairs cs seq self.length hcslen (by rw [hseqlen, hpl])
    intro m hm
    obtain ⟨h1, h2⟩ := hcs m hm
    obtain ⟨⟨reg, hreg, hval⟩, d, hd, hdat⟩ := hpairs m (by rw [hpl]; exact hm)
    rw [MatrixChainImage.get_row_of_matrix_eq prepared m r (by rw [hpl]; exact hm) hr] at hd
    have hd' : prepared.row_byte m r = d := Except.ok.inj hd
    rw [h1, h2, hreg, hdat, row_register_val r hr reg hval, hd']
    exact ⟨rfl, rfl⟩
  have hraw : self.display_raw prepared bus = Except.ok (bus ++ (List.range 8).map (fun r =>
      ((cv[r]?).getD []).take (((cv[r]?).getD []).length % 2 ^ 32))) := by
    apply display_raw_of_rows self prepared bus (fun r => (cv[r]?).getD [])
    intro r hr
    obtain ⟨cs, hcs, hcslen, hpairs⟩ :=
      display_raw_row_spec self prepared r hr (by rw [hpl]) hN
    rw [hcs, hsame r cs hr hcslen hpairs]
  refine ⟨cropped, prepared, _, _, hcrop, hprep, ?_, hraw, ?_, rfl, ?_⟩
  · unfold display
    rw [hcrop, bind_ok_eq, hprep, bind_ok_eq, hcv, bind_ok_eq, hsend]
    rfl
  · rw [List.length_map, List.length_range]
  · intro ho hu
    have hpc : prepared = cropped := by
      have := hident ho hu
      rw [hprep] at this
      exact Except.ok.inj this
    apply display_raw_of_rows self image bus (fun r => (cv[r]?).getD [])
    intro r hr
    obtain ⟨cs, hcs, hcslen, hpairs⟩ := display_raw_row_spec self image r hr hL hN
    rw [hcs, hsame r cs hr hcslen]
    intro m hm
    obtain ⟨h1, h2⟩ := hpairs m hm
    rw [hpc, hcrows m r hm hr]
    exact ⟨h1, h2⟩

/-- Witness for claim C40: a device of one matrix, mounted upside down with matrix
orientation 1, displays the two-matrix example canvas; and a device of two matrices in
normal orientation transmits the rows of the canvas itself. -/
theorem display_is_display_raw_of_preprocessed_witness :
    (MAX7219Chain.mk 1 1 true 0).length ≤ MatrixChainImage.two_chip_example.length ∧
    2 * MatrixChainImage.two_chip_example.length ≤ SIZE_MAX ∧
    (∃ cropped prepared bus' seqs,
      MatrixChainImage.two_chip_example.get_cropped_image (MAX7219Chain.mk 1 1 true 0).length
        = Except.ok (MatrixChainImage.two_chip_example, cropped) ∧
      (MAX7219Chain.mk 1 1 true 0).preprocess cropped = Except.ok prepared ∧
      (MAX7219Chain.mk 1 1 true 0).display MatrixChainImage.two_chip_example []
        = Except.ok (MatrixChainImage.two_chip_example, bus') ∧
      (MAX7219Chain.mk 1 1 true 0).display_raw prepared [] = Except.ok bus' ∧
      seqs.length = 8 ∧ bus' = [] ++ seqs ∧
      ((MAX7219Chain.mk 1 1 true 0).matrix_orientation % 4 = 0 →
        (MAX7219Chain.mk 1 1 true 0).upside_down = false →
        (MAX7219Chain.mk 1 1 true 0).display_raw MatrixChainImage.two_chip_example []
          = Except.ok bus')) ∧
    ((MAX7219Chain.mk 1 1 true 0).display MatrixChainImage.two_chip_example []).map Prod.snd
      = Except.ok [[1, 0], [2, 0], [3, 0], [4, 0], [5, 0], [6, 16], [7, 0], [8, 16]] ∧
    ((MAX7219Chain.mk 2 0 false 0).display MatrixChainImage.two_chip_example []).map Prod.snd
      = (MAX7219Chain.mk 2 0 false 0).display_raw MatrixChainImage.two_chip_example [] ∧
    (MAX7219Chain.mk 2 0 false 0).display_raw MatrixChainImage.two_chip_example []
      = Except.ok [[1, 0, 1, 0], [2, 0, 2, 0], [3, 0, 3, 0], [4, 0xA0, 4, 0x0F],
          [5, 0, 5, 0], [6, 0, 6, 0], [7, 0, 7, 0], [8, 0, 8, 0]] :=
  ⟨by decide, by decide,
    display_is_display_raw_of_preprocessed (MAX7219Chain.mk 1 1 true 0)
      MatrixChainImage.two_chip_example [] (by decide) (by decide),
    rfl, rfl, rfl⟩

end MAX7219Chain

end MAX7219
